import Mathlib

/-!
Step sequencer: pattern store, pattern generators, scale theory and sequencer engine.

A shallow embedding of `Source/PluginProcessor.h` and `Source/PluginProcessor.cpp`
(class `StepSequencerAudioProcessor`), and of the duplicate-track handler of
`Source/PluginEditor.cpp`.

Conventions of the embedding:

* a C++ `int` is a mathematical integer (`Int`); `%` on `int` is the truncating remainder
  `Int.tmod`. The sums the embedded functions form stay far from the bounds of a 32-bit
  `int` on the inputs the theorems speak about: `bucket + hits` is below `2 * steps` with
  `steps` at most the size of the track, and the scale test adds 12 to a number between
  `-22` and `11` when the root is in `0 .. 11`;
* a C++ `float`/`double` is a rational number (`ℚ`);
* a `std::vector` is a `List`;
* the raw pointer `steps` (which the code keeps pointing at one element of `tracks`) is the
  index of that element;
* a member function is a function from the processor state to the processor state;
  `processBlock` also returns the events it adds to the MIDI buffer, in the order it adds
  them;
* what `processBlock` reads from outside (play head, position, block size, the values of the
  system random generator) is an argument, `HostBlock`;
* the values the system random generator gives to `randomizePattern` and `mutatePattern` are
  arguments too, one record of values for each step of the track (`RandomizeDraws`,
  `MutateDraws`); what `juce::Random` promises about them (`nextFloat()` in `[0, 1)`,
  `nextInt(n)` in `[0, n)`) is a hypothesis where a theorem needs it;
* a vector read outside the bounds, which C++ leaves undefined, is given a fixed value
  (stated at `readRepeat`, `readEnabled`, `stepAt`); the theorems about the engine assume
  the reads they depend on to be inside the bounds.
-/

namespace StepSequencer

/-! ## Data model -/

/-- The `Step` struct of `PluginProcessor.h`, with its declared member initialisers. -/
structure Step where
  active : Bool := true
  isTied : Bool := false
  note : Int := 60
  velocity : Int := 100
  gate : ℚ := 1 / 2
  prob : ℚ := 1
  deriving DecidableEq

/-- The values of the `apvts` parameters created by `createParams`, as the processor reads them
(`(int) *apvts.getRawParameterValue(..)`), with the defaults of `createParams`. -/
structure Params where
  numSteps : Int := 16
  rate : Int := 2
  swing : ℚ := 0
  key : Int := 0
  scale : Int := 0
  octave : Int := 0
  stateVersion : Int := 0
  deriving DecidableEq

/-- The data members of `StepSequencerAudioProcessor`. The field `steps` is the index into
`tracks` of the vector that the C++ pointer `steps` refers to. -/
structure Processor where
  apvts : Params := {}
  tracks : List (List Step) := []
  trackRepeat : List Int := []
  trackEnabled : List Bool := []
  currentTrack : Int := 0
  steps : Nat := 0
  currentStepIndex : Int := 0
  isPlaying : Bool := false
  timeSignatureNumerator : Int := 4
  timeSignatureDenominator : Int := 4
  barsPlayedOnCurrentTrack : Int := 0
  beatsPlayedInCurrentBar : Int := 0
  sampleRate : ℚ := 44100
  currentBPM : ℚ := 120
  samplesPerBeat : ℚ := 22050
  accumulatedSamples : ℚ := 0
  lastNote : Int := -1
  samplesRemainingForGate : Int := 0
  deriving DecidableEq

/-- Replace the `i`-th track by its image under `f`; a list without an `i`-th element is
returned as it is. -/
def modifyTrack (f : List Step → List Step) : List (List Step) → Nat → List (List Step)
  | [], _ => []
  | t :: ts, 0 => f t :: ts
  | t :: ts, i + 1 => t :: modifyTrack f ts i

/-- The vector `*steps`: the track the `steps` pointer refers to. -/
def currentSteps (p : Processor) : List Step :=
  p.tracks.getD p.steps []

/-- Run an in-place update of `*steps`. -/
def onSteps (f : List Step → List Step) (p : Processor) : Processor :=
  { p with tracks := modifyTrack f p.tracks p.steps }

/-- Number of steps of a track whose `active` flag is set. -/
def activeCount (track : List Step) : Nat :=
  track.countP (fun s => s.active)

/-- The `active` flag of the step at position `i` of a track (`false` when the track has no
such position). -/
def activeAt (track : List Step) (i : Nat) : Bool :=
  match track.get? i with
  | some s => s.active
  | none => false

/-! ## Pattern generators: `euclideanPattern` -/

/-- The first loop of `euclideanPattern`: `s.active = false; s.isTied = false;` for every
step of `*steps`. -/
def euclideanClear (track : List Step) : List Step :=
  track.map (fun s => { s with active := false, isTied := false })

/-- The second loop of `euclideanPattern`,
`for (int i = 0; i < steps && i < size; ++i) { bucket += hits; if (bucket >= steps) {..} }`,
started at index `i` with the given `bucket`; the argument list holds the steps of the track
from position `i` on, so the test `i < size` is the test that this list is not empty. -/
def euclideanLoop (hits steps : Int) : Int → Int → List Step → List Step
  | _, _, [] => []
  | i, bucket, s :: rest =>
    if i < steps then
      if bucket + hits ≥ steps then
        { s with active := true } :: euclideanLoop hits steps (i + 1) (bucket + hits - steps) rest
      else
        s :: euclideanLoop hits steps (i + 1) (bucket + hits) rest
    else
      s :: rest

/-- The body of `euclideanPattern(hits, steps)` as a function of the vector `*steps`. -/
def euclideanSteps (hits steps : Int) (track : List Step) : List Step :=
  if hits ≤ 0 ∨ steps ≤ 0 ∨ hits > steps then track
  else euclideanLoop hits steps 0 0 (euclideanClear track)

/-- The member function `StepSequencerAudioProcessor::euclideanPattern(int hits, int steps)`. -/
def euclideanPattern (p : Processor) (hits steps : Int) : Processor :=
  onSteps (euclideanSteps hits steps) p

/-- A track of `n` steps as the constructor and `addTrack` build it
(`active = false`, the other fields at their declared initialisers). -/
def defaultTrack (n : Nat) : List Step :=
  List.replicate n { active := false }

/-- The processor as its constructor leaves it: one enabled track of 32 silent steps,
repeated once, with `steps` pointing at it. -/
def initial : Processor :=
  { tracks := [defaultTrack 32], trackRepeat := [1], trackEnabled := [true] }

/-! ## Pattern store: `invertPattern`, `reversePattern` -/

/-- The loop of `invertPattern` as a function of the vector `*steps`:
`s.active = !s.active` for every step. -/
def invertSteps (track : List Step) : List Step :=
  track.map (fun s => { s with active := !s.active })

/-- The member function `StepSequencerAudioProcessor::invertPattern()`. -/
def invertPattern (p : Processor) : Processor :=
  onSteps invertSteps p

/-- The body of `reversePattern` as a function of `numSteps` and the vector `*steps`:
`if (numSteps > 0 && numSteps <= size) std::reverse(begin, begin + numSteps)`. -/
def reverseSteps (numSteps : Int) (track : List Step) : List Step :=
  if numSteps > 0 ∧ numSteps ≤ (track.length : Int) then
    (track.take numSteps.toNat).reverse ++ track.drop numSteps.toNat
  else track

/-- The member function `StepSequencerAudioProcessor::reversePattern()`; `numSteps` is read
from `apvts`. -/
def reversePattern (p : Processor) : Processor :=
  onSteps (reverseSteps p.apvts.numSteps) p

/-! ## Scale theory: `isNoteInScale` -/

/-- The `switch (scaleType)` of `isNoteInScale`: the selected interval array together with
its `count`, or `none` for the `default:` branch. -/
def scaleTable (scaleType : Int) : Option (List Int × Nat) :=
  if scaleType = 0 then some ([0, 1, 2, 3, 4, 5, 6, 7, 8, 9, 10, 11], 12)
  else if scaleType = 1 then some ([0, 2, 4, 5, 7, 9, 11], 7)
  else if scaleType = 2 then some ([0, 2, 3, 5, 7, 8, 10], 7)
  else if scaleType = 3 then some ([0, 2, 3, 5, 7, 9, 10], 7)
  else if scaleType = 4 then some ([0, 1, 3, 5, 7, 8, 10], 7)
  else if scaleType = 5 then some ([0, 2, 4, 5, 7, 9, 10], 7)
  else if scaleType = 6 then some ([0, 2, 4, 7, 9], 5)
  else none

/-- The member function
`StepSequencerAudioProcessor::isNoteInScale(int midiNote, int rootNote, int scaleType)`.
The C++ `%` truncates towards zero (`Int.tmod`); the final loop
`for (i = 0; i < count; ++i) if (intervals[i] == offset) return true; return false;`
is the search over the indices below `count`. -/
def isNoteInScale (midiNote rootNote scaleType : Int) : Bool :=
  match scaleTable scaleType with
  | none => true
  | some (intervals, count) =>
    let noteClass := midiNote.tmod 12
    let offset := (noteClass - rootNote + 12).tmod 12
    (List.range count).any (fun i => intervals.get? i == some offset)

/-! ## The specification's wording of the scale test -/

/-- The specification's `relativePitch = (midiNote mod 12 - rootNote + 12) mod 12`, with the
mathematical remainder. -/
def relativePitch (midiNote rootNote : Int) : Int :=
  (midiNote % 12 - rootNote + 12) % 12

/-- The specification's seven fixed interval sets, by mode number
(chromatic, major, minor, dorian, phrygian, mixolydian, pentatonic). -/
def modeIntervals (scaleMode : Int) : Finset Int :=
  if scaleMode = 0 then {0, 1, 2, 3, 4, 5, 6, 7, 8, 9, 10, 11}
  else if scaleMode = 1 then {0, 2, 4, 5, 7, 9, 11}
  else if scaleMode = 2 then {0, 2, 3, 5, 7, 8, 10}
  else if scaleMode = 3 then {0, 2, 3, 5, 7, 9, 10}
  else if scaleMode = 4 then {0, 1, 3, 5, 7, 8, 10}
  else if scaleMode = 5 then {0, 2, 4, 5, 7, 9, 10}
  else if scaleMode = 6 then {0, 2, 4, 7, 9}
  else ∅

/-- Number of tones of a mode according to the specification: 12 for chromatic, 5 for
pentatonic, 7 for the five heptatonic modes. -/
def modeSize (scaleMode : Int) : Nat :=
  if scaleMode = 0 then 12 else if scaleMode = 6 then 5 else 7

/-- The in-scale notes among the twelve consecutive notes `base, base + 1, .., base + 11`. -/
def notesInScaleFrom (base rootNote scaleMode : Int) : List Nat :=
  (List.range 12).filter (fun i => isNoteInScale (base + i) rootNote scaleMode)

/-! ## Reading a pattern -/

/-- In the cyclic pattern formed by the first `n` steps of `track`, `d` is the distance from
position `i` to the next active position: position `(i + d) mod n` is active, no position
strictly in between is, and `d` is positive (a single active step is at distance `n` from
itself). -/
def IsNextActiveDistance (track : List Step) (n i d : Nat) : Prop :=
  0 < d ∧ activeAt track ((i + d) % n) = true ∧
    ∀ e, e < d → 0 < e → activeAt track ((i + e) % n) = false

instance (track : List Step) (n i d : Nat) : Decidable (IsNextActiveDistance track n i d) := by
  unfold IsNextActiveDistance
  infer_instance

/-- The processor after the host or the editor has set the `numSteps` parameter to `n`. -/
def withNumSteps (p : Processor) (n : Int) : Processor :=
  { p with apvts := { p.apvts with numSteps := n } }

/-- Adding `hits` at position `m` carries the running sum `m * hits` over a multiple of
`steps`: some multiple `c * steps` lies in the interval `(m * hits, (m + 1) * hits]`. -/
def Carries (hits steps m : Int) : Prop :=
  ∃ c : Int, m * hits < c * steps ∧ c * steps ≤ (m + 1) * hits

/-- A processor whose single track has its first step active (the declared initialiser of
`Step`) and 31 silent steps. -/
def oneActive : Processor :=
  { tracks := [({} : Step) :: defaultTrack 31], trackRepeat := [1], trackEnabled := [true] }

/-! ## Pattern store: `clearPattern` and the track operations -/

/-- The step `clearPattern` writes:
`active = false, isTied = false, note = 60, velocity = 100, gate = 0.5f, prob = 1.0f`. -/
def clearedStep : Step :=
  { active := false, isTied := false, note := 60, velocity := 100, gate := 1 / 2, prob := 1 }

/-- The loop of `clearPattern` as a function of the vector `*steps`. -/
def clearSteps (track : List Step) : List Step :=
  track.map (fun s =>
    { s with active := false, isTied := false, note := 60, velocity := 100, gate := 1 / 2,
             prob := 1 })

/-- The member function `StepSequencerAudioProcessor::clearPattern()`. -/
def clearPattern (p : Processor) : Processor :=
  onSteps clearSteps p

/-- The inline member `getNumTracks()`: `(int) tracks.size()`. -/
def getNumTracks (p : Processor) : Int :=
  (p.tracks.length : Int)

/-- The member function `StepSequencerAudioProcessor::switchToTrack(int trackIndex)`. -/
def switchToTrack (p : Processor) (trackIndex : Int) : Processor :=
  if trackIndex ≥ 0 ∧ trackIndex < getNumTracks p ∧ trackIndex ≠ p.currentTrack then
    { p with currentTrack := trackIndex, steps := trackIndex.toNat, currentStepIndex := 0 }
  else p

/-- The member function `StepSequencerAudioProcessor::addTrack()`: a track of 32 silent steps
is pushed with repeat count 1 and enabled flag `true`, and `steps` is pointed at
`tracks[currentTrack]` again when `currentTrack < (int) tracks.size()`. -/
def addTrack (p : Processor) : Processor :=
  let p1 : Processor :=
    { p with tracks := p.tracks ++ [defaultTrack 32],
             trackRepeat := p.trackRepeat ++ [1],
             trackEnabled := p.trackEnabled ++ [true] }
  if p1.currentTrack < (p1.tracks.length : Int) then
    { p1 with steps := p1.currentTrack.toNat }
  else p1

/-- The member function `StepSequencerAudioProcessor::removeTrack()`. -/
def removeTrack (p : Processor) : Processor :=
  if p.tracks.length > 1 then
    let p1 : Processor :=
      { p with tracks := p.tracks.dropLast,
               trackRepeat := p.trackRepeat.dropLast,
               trackEnabled := p.trackEnabled.dropLast }
    let p2 : Processor :=
      if p1.currentTrack ≥ (p1.tracks.length : Int) then
        { p1 with currentTrack := (p1.tracks.length : Int) - 1 }
      else p1
    { p2 with steps := p2.currentTrack.toNat }
  else p

/-- The `duplicateTrackButton.onClick` handler of `PluginEditor.cpp`, as far as it writes the
processor: a copy of `tracks[currentTrack]` is pushed with `trackRepeat[currentTrack]` and the
enabled flag `true`, then `switchToTrack(getNumTracks() - 1)` is called. A read of
`trackRepeat` outside its bounds is given the value 0. -/
def duplicateTrackButtonOnClick (p : Processor) : Processor :=
  if p.currentTrack ≥ 0 ∧ p.currentTrack < getNumTracks p then
    let p1 : Processor :=
      { p with tracks := p.tracks ++ [p.tracks.getD p.currentTrack.toNat []],
               trackRepeat := p.trackRepeat ++ [p.trackRepeat.getD p.currentTrack.toNat 0],
               trackEnabled := p.trackEnabled ++ [true] }
    switchToTrack p1 (getNumTracks p1 - 1)
  else p

/-- One call on the pattern store made from the editor. -/
inductive TrackOp where
  | add : TrackOp
  | remove : TrackOp
  | duplicate : TrackOp
  | switchTo : Int → TrackOp

/-- The effect of one editor call. -/
def applyTrackOp (p : Processor) : TrackOp → Processor
  | TrackOp.add => addTrack p
  | TrackOp.remove => removeTrack p
  | TrackOp.duplicate => duplicateTrackButtonOnClick p
  | TrackOp.switchTo i => switchToTrack p i

/-- The effect of a sequence of editor calls, made in the order of the list. -/
def applyTrackOps (p : Processor) (ops : List TrackOp) : Processor :=
  ops.foldl applyTrackOp p

/-- The invariant of the pattern store: at least one track, `currentTrack` a valid index,
and `trackRepeat` and `trackEnabled` as long as `tracks`. -/
def StoreInvariant (p : Processor) : Prop :=
  1 ≤ p.tracks.length ∧ 0 ≤ p.currentTrack ∧ p.currentTrack < (p.tracks.length : Int) ∧
    p.trackRepeat.length = p.tracks.length ∧ p.trackEnabled.length = p.tracks.length

instance (p : Processor) : Decidable (StoreInvariant p) := by
  unfold StoreInvariant
  infer_instance

/-! ## Restoring a persisted state: `setStateInformation` -/

/-- A `STEP` node of the persisted state: the values of its properties `i`, `n`, `v`, `g`,
`p`, `a`, `t` after conversion, `none` for a property the node does not have. -/
structure StepNode where
  i : Option Int := none
  n : Option Int := none
  v : Option Int := none
  g : Option ℚ := none
  p : Option ℚ := none
  a : Option Bool := none
  t : Option Bool := none

/-- A `TRACK` node of the persisted state: its properties `repeat` and `enabled`, and the
children of its `STEPS` child (no children when there is no such child). -/
structure TrackNode where
  repeatCount : Option Int := none
  enabled : Option Bool := none
  stepNodes : List StepNode := []

/-- The persisted state after `ValueTree::fromXml`: the parameter values it carries and the
children of its `TRACKS` child, `none` when `getChildWithName("TRACKS")` is not valid. -/
structure SavedState where
  params : Params := {}
  trackNodes : Option (List TrackNode) := none

/-- Replace the element at position `idx` of a track. -/
def setStepAt (track : List Step) (idx : Nat) (s : Step) : List Step :=
  track.set idx s

/-- The body of the loop over the `STEP` nodes: the node is written into `tracks[t][idx]`
when `idx >= 0 && idx < (int) tracks[t].size()`. -/
def restoreStep (track : List Step) (node : StepNode) : List Step :=
  let idx := node.i.getD (-1)
  let active := node.a.getD false
  let note := node.n.getD 60
  if idx ≥ 0 ∧ idx < (track.length : Int) then
    setStepAt track idx.toNat
      { note := note, velocity := node.v.getD 100, gate := node.g.getD (1 / 2),
        prob := node.p.getD 1, active := active, isTied := node.t.getD false }
  else track

/-- The steps restored for one `TRACK` node: `resize(32)`, the default-writing loop (which
leaves `gate` at its declared initialiser), then the `STEP` nodes in order. -/
def restoreTrack (node : TrackNode) : List Step :=
  node.stepNodes.foldl restoreStep
    (List.replicate 32
      ({ active := false, isTied := false, note := 60, velocity := 100, prob := 1 } : Step))

/-- The member function `StepSequencerAudioProcessor::setStateInformation`, as far as it
writes the processor. The argument is `none` when the binary data holds no XML or the XML
has another tag than the parameter tree. -/
def setStateInformation (p : Processor) (xmlState : Option SavedState) : Processor :=
  match xmlState with
  | none => p
  | some newState =>
    let p1 : Processor := { p with apvts := newState.params }
    match newState.trackNodes with
    | none => p1
    | some nodes =>
      { p1 with tracks := nodes.map restoreTrack,
                trackRepeat := nodes.map (fun node => node.repeatCount.getD 1),
                trackEnabled := nodes.map (fun node => node.enabled.getD true),
                currentTrack := 0,
                steps := if nodes.isEmpty then p1.steps else 0 }

/-! ## Sequencer engine: `processBlock` -/

/-- The MIDI messages `processBlock` builds, with the arguments of the building call. -/
inductive MidiMessage where
  | noteOn (channel noteNumber velocity : Int) : MidiMessage
  | noteOff (channel noteNumber : Int) : MidiMessage
  | allNotesOff (channel : Int) : MidiMessage
  deriving DecidableEq

/-- One `midiMessages.addEvent(message, sampleOffset)`. -/
structure MidiEvent where
  message : MidiMessage
  sampleOffset : Int
  deriving DecidableEq

/-- What `pos.getTimeSignature()`, `pos.getBpm()` and `pos.getIsPlaying()` give for a block. -/
structure PositionInfo where
  timeSignature : Option (Int × Int) := none
  bpm : Option ℚ := none
  isPlaying : Bool := false

/-- What `processBlock` reads from outside for one block: whether `getPlayHead()` is not
null, the result of `playHead->getPosition()`, `buffer.getNumSamples()`, and for every sample
offset the value `Random::getSystemRandom().nextFloat()` gives if it is called there (the loop
body calls it at most once). -/
structure HostBlock where
  hasPlayHead : Bool := true
  position : Option PositionInfo := none
  numSamples : Int := 0
  random : Nat → ℚ := fun _ => 0

/-- The function `juce::jlimit(lowerLimit, upperLimit, valueToConstrain)` on `int`. -/
def jlimit (lowerLimit upperLimit valueToConstrain : Int) : Int :=
  if valueToConstrain < lowerLimit then lowerLimit
  else if upperLimit < valueToConstrain then upperLimit
  else valueToConstrain

/-- The conversion `(long) x` of a `double`: the fractional part is discarded (rounding
towards zero). -/
def truncToLong (x : ℚ) : Int :=
  Int.tdiv x.num x.den

/-- The `rateMult` chain of `processBlock`: 1.0, 0.5, 0.25, 0.125 for `rateIndex` 0, 1, 2, 3,
and the initial value 1.0 otherwise. -/
def rateMult (rateIndex : Int) : ℚ :=
  if rateIndex = 0 then 1
  else if rateIndex = 1 then 1 / 2
  else if rateIndex = 2 then 1 / 4
  else if rateIndex = 3 then 1 / 8
  else 1

/-- The tempo `processBlock` stores in `currentBPM`: `hostBPM > 0 ? hostBPM : 120.0`. -/
def effectiveBPM (hostBPM : ℚ) : ℚ :=
  if hostBPM > 0 then hostBPM else 120

/-- The local `samplesPerStep` of `processBlock` ("Calculate Timing" and "Safety check"). -/
def samplesPerStep (sampleRate currentBPM : ℚ) (rateIndex : Int) : ℚ :=
  let samplesPerMinute := sampleRate * 60
  let currentSamplesPerBeat := samplesPerMinute / currentBPM
  let raw := currentSamplesPerBeat * rateMult rateIndex
  if raw < 32 then 32 else raw

/-- A read `trackRepeat[i]`; outside the bounds of the vector it is given the value 0. -/
def readRepeat (p : Processor) (i : Int) : Int :=
  if 0 ≤ i then p.trackRepeat.getD i.toNat 0 else 0

/-- A read `trackEnabled[i]`; outside the bounds of the vector it is given the value
`false`. -/
def readEnabled (p : Processor) (i : Int) : Bool :=
  if 0 ≤ i then p.trackEnabled.getD i.toNat false else false

/-- The read `(*steps)[currentStepIndex]`, `none` when the index is outside the vector. -/
def stepAt (p : Processor) : Option Step :=
  if 0 ≤ p.currentStepIndex then (currentSteps p).get? p.currentStepIndex.toNat else none

/-- Part 1 of the loop body, "Handle Note Offs". -/
def handleNoteOffs (p : Processor) : Processor × List MidiMessage :=
  if p.samplesRemainingForGate > 0 then
    let p1 : Processor := { p with samplesRemainingForGate := p.samplesRemainingForGate - 1 }
    if p1.samplesRemainingForGate = 0 ∧ p1.lastNote ≠ -1 then
      ({ p1 with lastNote := -1 }, [MidiMessage.noteOff 1 p1.lastNote])
    else (p1, [])
  else (p, [])

/-- The search "Find next enabled track": while `attempts < numTracks`, `nextTrack` becomes
`(nextTrack + 1) % numTracks`; if `trackEnabled[nextTrack]` the loop ends with
`switchToTrack(nextTrack)`, otherwise `attempts` is incremented. The number of iterations
still allowed is the first argument, the current `nextTrack` the second. -/
def findNextTrack (p : Processor) (numTracks : Int) : Nat → Int → Processor
  | 0, _ => p
  | attemptsLeft + 1, nextTrack =>
    let next := (nextTrack + 1).tmod numTracks
    if readEnabled p next = true then switchToTrack p next
    else findNextTrack p numTracks attemptsLeft next

/-- The "Advance Step" part of the loop body. -/
def advanceStep (p : Processor) : Processor :=
  let numSteps := p.apvts.numSteps
  if p.currentStepIndex ≥ numSteps - 1 then
    let p1 : Processor := { p with barsPlayedOnCurrentTrack := p.barsPlayedOnCurrentTrack + 1 }
    let p2 : Processor :=
      if p1.barsPlayedOnCurrentTrack ≥ readRepeat p1 p1.currentTrack then
        let p3 : Processor := { p1 with barsPlayedOnCurrentTrack := 0 }
        findNextTrack p3 (getNumTracks p3) (getNumTracks p3).toNat p3.currentTrack
      else p1
    { p2 with currentStepIndex := 0 }
  else { p with currentStepIndex := p.currentStepIndex + 1 }

/-- The "Trigger New Note" part of the loop body for the step `s` read at
`currentStepIndex`; `u` is the value of `nextFloat()`. -/
def triggerStep (stepLength u : ℚ) (p : Processor) (s : Step) :
    Processor × List MidiMessage :=
  if s.active = true ∧ s.isTied = false ∧ u ≤ s.prob then
    let kill : List MidiMessage :=
      if p.lastNote ≠ -1 then [MidiMessage.noteOff 1 p.lastNote] else []
    let note := jlimit 0 127 (s.note + p.apvts.octave * 12)
    ({ p with lastNote := note, samplesRemainingForGate := truncToLong (stepLength * s.gate) },
      kill ++ [MidiMessage.noteOn 1 note (s.velocity % 256)])
  else (p, [])

/-- The "Trigger New Note" part of the loop body; a read outside the vector triggers
nothing. -/
def triggerNewNote (stepLength u : ℚ) (p : Processor) : Processor × List MidiMessage :=
  match stepAt p with
  | none => (p, [])
  | some s => triggerStep stepLength u p s

/-- The test `accumulatedSamples >= samplesPerStep` made after `accumulatedSamples += 1.0`:
whether the sample processed next advances the step. -/
def advances (stepLength : ℚ) (p : Processor) : Bool :=
  decide (p.accumulatedSamples + 1 ≥ stepLength)

/-- One pass through the body of the `while (sampleOffset < numSamples)` loop: the new state
and the messages added at this sample offset, in the order they are added. -/
def processSample (stepLength u : ℚ) (p : Processor) : Processor × List MidiMessage :=
  let off := handleNoteOffs p
  if advances stepLength off.1 = true then
    let p2 : Processor :=
      { off.1 with accumulatedSamples := off.1.accumulatedSamples + 1 - stepLength }
    let trig := triggerNewNote stepLength u (advanceStep p2)
    (trig.1, off.2 ++ trig.2)
  else
    ({ off.1 with accumulatedSamples := off.1.accumulatedSamples + 1 }, off.2)

/-- The `while (sampleOffset < numSamples)` loop after `n` passes, started in state `p`:
the state reached and the events added so far. -/
def playLoop (stepLength : ℚ) (random : Nat → ℚ) (p : Processor) :
    Nat → Processor × List MidiEvent
  | 0 => (p, [])
  | n + 1 =>
    let before := playLoop stepLength random p n
    let now := processSample stepLength (random n) before.1
    (now.1, before.2 ++ now.2.map (fun m => { message := m, sampleOffset := (n : Int) }))

/-- The local `hostBPM` of `processBlock`: initialised to 120.0 and overwritten by
`pos.getBpm()` when the position and the tempo are there. -/
def hostBPM (h : HostBlock) : ℚ :=
  match h.position with
  | some pos => pos.bpm.getD 120
  | none => 120

/-- The local `hostIsPlaying` of `processBlock`: initialised to `false` and overwritten by
`pos.getIsPlaying()` when the position is there. -/
def hostIsPlaying (h : HostBlock) : Bool :=
  match h.position with
  | some pos => pos.isPlaying
  | none => false

/-- The write of `timeSignatureNumerator` and `timeSignatureDenominator` at the start of
`processBlock`, made when the position carries a time signature. -/
def updateTimeSignature (p : Processor) (h : HostBlock) : Processor :=
  match h.position with
  | some pos =>
    (match pos.timeSignature with
     | some ts => { p with timeSignatureNumerator := ts.1, timeSignatureDenominator := ts.2 }
     | none => p)
  | none => p

/-- The step length `processBlock` uses for a block: `samplesPerStep` computed from the
member `sampleRate`, the tempo `hostBPM > 0 ? hostBPM : 120.0` and the `rate` parameter. -/
def blockStepLength (p : Processor) (h : HostBlock) : ℚ :=
  samplesPerStep p.sampleRate (effectiveBPM (hostBPM h)) p.apvts.rate

/-- The member function `StepSequencerAudioProcessor::processBlock`: the new state and the
events it adds to `midiMessages`. -/
def processBlock (p : Processor) (h : HostBlock) : Processor × List MidiEvent :=
  if h.hasPlayHead = false then (p, [])
  else
    let p1 := updateTimeSignature p h
    if hostIsPlaying h = false then
      if p1.isPlaying = true then
        ({ p1 with isPlaying := false, samplesRemainingForGate := 0, accumulatedSamples := 0 },
          [{ message := MidiMessage.allNotesOff 1, sampleOffset := 0 }])
      else (p1, [])
    else
      let p2 : Processor :=
        { p1 with isPlaying := true, currentBPM := effectiveBPM (hostBPM h) }
      playLoop (samplesPerStep p2.sampleRate p2.currentBPM p2.apvts.rate) h.random p2
        h.numSamples.toNat

/-- The member function `StepSequencerAudioProcessor::prepareToPlay(sRate, samplesPerBlock)`. -/
def prepareToPlay (p : Processor) (sRate : ℚ) : Processor :=
  { p with sampleRate := if sRate > 0 then sRate else 44100,
           accumulatedSamples := 0, currentStepIndex := 0, samplesRemainingForGate := 0,
           lastNote := -1 }

/-- The state after `n` passes through the loop body. -/
def runSamples (stepLength : ℚ) (random : Nat → ℚ) (p : Processor) (n : Nat) : Processor :=
  (playLoop stepLength random p n).1

/-- The messages added during pass number `n` (counted from 0) of the loop body. -/
def sampleMessages (stepLength : ℚ) (random : Nat → ℚ) (p : Processor) (n : Nat) :
    List MidiMessage :=
  (processSample stepLength (random n) (runSamples stepLength random p n)).2

/-- The number of step advances made by the first `n` passes through the loop body. -/
def advanceCount (stepLength : ℚ) (random : Nat → ℚ) (p : Processor) : Nat → Nat
  | 0 => 0
  | n + 1 =>
    advanceCount stepLength random p n
      + (if advances stepLength (runSamples stepLength random p n) = true then 1 else 0)

/-- The step a pass through the loop body lands on, when that pass advances the step. -/
def stepReached (stepLength : ℚ) (p : Processor) : Option Step :=
  let off := handleNoteOffs p
  if advances stepLength off.1 = true then
    stepAt (advanceStep
      { off.1 with accumulatedSamples := off.1.accumulatedSamples + 1 - stepLength })
  else none

/-- Whether a message is a Note On. -/
def MidiMessage.isNoteOn : MidiMessage → Bool
  | MidiMessage.noteOn _ _ _ => true
  | MidiMessage.noteOff _ _ => false
  | MidiMessage.allNotesOff _ => false

/-- The processor with the members that the prologue of `processBlock` writes (`isPlaying`,
`currentBPM` and the time signature) set to the given values. -/
def withTransport (p : Processor) (playing : Bool) (bpm : ℚ) (num den : Int) : Processor :=
  { p with isPlaying := playing, currentBPM := bpm, timeSignatureNumerator := num,
           timeSignatureDenominator := den }

/-- The random values seen by the samples of two consecutive blocks, the first of `n`
samples. -/
def joinRandom (n : Nat) (first second : Nat → ℚ) : Nat → ℚ :=
  fun i => if i < n then first i else second (i - n)

/-- The messages of the samples number `start`, .., `start + count - 1` of a run, each with
its offset from `start`, in the order they are added. -/
def stampedMessages (stepLength : ℚ) (random : Nat → ℚ) (p : Processor) (start : Nat) :
    Nat → List MidiEvent
  | 0 => []
  | count + 1 =>
    stampedMessages stepLength random p start count
      ++ (sampleMessages stepLength random p (start + count)).map
          (fun m => { message := m, sampleOffset := (count : Int) })

/-! ## The specification's wording of the step length -/

/-- The specification's rate multiplier: `rateIndex` 0, 1, 2, 3 stands for 1, 1/2, 1/4, 1/8
of a quarter note. -/
def specRateMultiplier (rateIndex : Int) : ℚ :=
  (1 / 2) ^ rateIndex.toNat

/-- The specification's step length: `(sampleRate * 60 / bpm) * multiplier`, not below 32,
where `bpm` is the host tempo when positive and 120 otherwise. -/
def specStepLength (sampleRate hostTempo : ℚ) (rateIndex : Int) : ℚ :=
  max 32 ((sampleRate * 60 / (if 0 < hostTempo then hostTempo else 120))
    * specRateMultiplier rateIndex)

/-! ## Sequences of blocks -/

/-- The state after a sequence of `processBlock` calls, made in the order of the list. -/
def runBlocks (p : Processor) (blocks : List HostBlock) : Processor :=
  blocks.foldl (fun q h => (processBlock q h).1) p

/-- The members of the processor other than the two time-signature members are equal (the
time signature is copied from the host in every block that has a position). -/
def SameEngineState (a b : Processor) : Prop :=
  a = { b with timeSignatureNumerator := a.timeSignatureNumerator,
               timeSignatureDenominator := a.timeSignatureDenominator }

/-! ## Example states -/

/-- A block of 64 samples in which the host has a play head and reports the transport as
playing at tempo 120. -/
def playingBlock : HostBlock :=
  { hasPlayHead := true, position := some { bpm := some 120, isPlaying := true },
    numSamples := 64 }

/-- A block of 64 samples in which the host has a play head and reports the transport as
not playing. -/
def stoppedBlock : HostBlock :=
  { hasPlayHead := true, position := some { bpm := some 120, isPlaying := false },
    numSamples := 64 }



/-- A new processor whose only track has been switched off (the editor's track enable
button writes `trackEnabled[t]`). -/
def disabledTrack : Processor :=
  { initial with trackEnabled := [false] }

/-- A processor with two tracks, track 0 current, that has counted one pass of track 0. -/
def twoTracks : Processor :=
  { addTrack initial with barsPlayedOnCurrentTrack := 1 }

/-- A freshly prepared processor with three tracks: track 0 is repeated twice, track 1 is
switched off, track 2 is enabled. -/
def threeTracks : Processor :=
  prepareToPlay
    { initial with tracks := [defaultTrack 32, defaultTrack 32, defaultTrack 32],
                   trackRepeat := [2, 1, 1],
                   trackEnabled := [true, false, true] }
    44100

/-- Scenario C of the specification, one sample before the trigger: a prepared engine that
has played 999 samples at step length 1000 (`accumulatedSamples = 999`, still on step 0) on a
32-step track whose step 1 is active with `gate = 2.0`, whose step 2 is tied and whose other
steps are inactive. -/
def scenarioC : Processor :=
  { initial with
      tracks := [[{ active := false }, { gate := 2 }, { isTied := true }] ++ defaultTrack 29],
      accumulatedSamples := 999 }

/-! ## Random pattern generators: `randomizePattern` and `mutatePattern` -/

/-- The `switch (scaleType)` of `getRandomNoteInScale`: the selected interval array together
with its `count`; the `default:` branch selects the chromatic array. -/
def randomScaleTable (scaleType : Int) : List Int × Int :=
  if scaleType = 0 then ([0, 1, 2, 3, 4, 5, 6, 7, 8, 9, 10, 11], 12)
  else if scaleType = 1 then ([0, 2, 4, 5, 7, 9, 11], 7)
  else if scaleType = 2 then ([0, 2, 3, 5, 7, 8, 10], 7)
  else if scaleType = 3 then ([0, 2, 3, 5, 7, 9, 10], 7)
  else if scaleType = 4 then ([0, 1, 3, 5, 7, 8, 10], 7)
  else if scaleType = 5 then ([0, 2, 4, 5, 7, 9, 10], 7)
  else if scaleType = 6 then ([0, 2, 4, 7, 9], 5)
  else ([0, 1, 2, 3, 4, 5, 6, 7, 8, 9, 10, 11], 12)

/-- The member function
`StepSequencerAudioProcessor::getRandomNoteInScale(rootNote, scaleType, minOctave, maxOctave)`.
The two values taken from the random generator are arguments: `octave` is the result of
`random.nextInt(Range<int>(minOctave, maxOctave + 1))` (so `minOctave ≤ octave ≤ maxOctave`)
and `degree` the result of `random.nextInt(count)` (so `0 ≤ degree < count`). A read
`intervals[degree]` outside the array is given the value 0. -/
def getRandomNoteInScale (rootNote scaleType : Int) (octave degree : Int) : Int :=
  let intervals := (randomScaleTable scaleType).1
  let interval := if 0 ≤ degree then intervals.getD degree.toNat 0 else 0
  let midiNote := octave * 12 + rootNote + interval
  jlimit 0 127 midiNote

/-- The values the random generator gives while `randomizePattern` handles one step, in the
order of the calls: `nextFloat()` of the test against `amount`, `nextFloat()` for `active`,
the octave and the degree drawn by `getRandomNoteInScale(rootNote, scaleType, 3, 5)`,
`nextInt(60)`, and the two `nextFloat()` for gate and probability. The generator is called
for the last six only when the step is replaced. -/
structure RandomizeDraws where
  chance : ℚ := 0
  activeDraw : ℚ := 0
  octave : Int := 3
  degree : Int := 0
  velocityDraw : Int := 0
  gateDraw : ℚ := 0
  probDraw : ℚ := 0

/-- The range of the values the random generator can give for one step of `randomizePattern`:
`nextFloat()` is in `[0, 1)`, `nextInt(n)` in `[0, n)`, `nextInt(Range(3, 6))` in `[3, 6)`. -/
def RandomizeDraws.InRange (d : RandomizeDraws) (scaleType : Int) : Prop :=
  (0 ≤ d.chance ∧ d.chance < 1) ∧ (0 ≤ d.activeDraw ∧ d.activeDraw < 1) ∧
    (3 ≤ d.octave ∧ d.octave < 6) ∧
    (0 ≤ d.degree ∧ d.degree < (randomScaleTable scaleType).2) ∧
    (0 ≤ d.velocityDraw ∧ d.velocityDraw < 60) ∧
    (0 ≤ d.gateDraw ∧ d.gateDraw < 1) ∧ (0 ≤ d.probDraw ∧ d.probDraw < 1)

/-- The body of the loop of `randomizePattern` for one step. -/
def randomizeStep (amount : ℚ) (rootNote scaleType : Int) (d : RandomizeDraws) (s : Step) :
    Step :=
  if d.chance < amount then
    { s with active := decide (d.activeDraw > 3 / 10),
             note := getRandomNoteInScale rootNote scaleType d.octave d.degree,
             velocity := d.velocityDraw + 60,
             gate := 2 / 10 + d.gateDraw * (8 / 10),
             prob := 7 / 10 + d.probDraw * (3 / 10),
             isTied := false }
  else s

/-- The loop `for (auto& s : *steps)` of `randomizePattern`; `draws i` holds the random values
for the step at position `i`, and the first argument is the position of the head of the
list. -/
def randomizeLoop (amount : ℚ) (rootNote scaleType : Int) (draws : Nat → RandomizeDraws) :
    Nat → List Step → List Step
  | _, [] => []
  | i, s :: rest =>
    randomizeStep amount rootNote scaleType (draws i) s
      :: randomizeLoop amount rootNote scaleType draws (i + 1) rest

/-- The member function `StepSequencerAudioProcessor::randomizePattern(float amount)`. -/
def randomizePattern (p : Processor) (amount : ℚ) (draws : Nat → RandomizeDraws) : Processor :=
  if amount ≤ 0 then p
  else onSteps (randomizeLoop amount p.apvts.key p.apvts.scale draws 0) p

/-- The function `juce::jlimit(lowerLimit, upperLimit, valueToConstrain)` on `float`. -/
def jlimitFloat (lowerLimit upperLimit valueToConstrain : ℚ) : ℚ :=
  if valueToConstrain < lowerLimit then lowerLimit
  else if upperLimit < valueToConstrain then upperLimit
  else valueToConstrain

/-- The values the random generator gives while `mutatePattern` handles one step:
`nextFloat()` of the test against `amount` (made for an active step), `nextInt(4)`,
`nextBool()`, the `nextFloat()` of the larger jump, `nextInt(30)`, the `nextFloat()` of the
gate nudge and of the probability nudge, and the `nextFloat()` of the test against
`amount * 0.1f` (made for an inactive step). Each is used only on the path that calls the
generator for it. -/
structure MutateDraws where
  chance : ℚ := 0
  type : Int := 0
  up : Bool := true
  jump : ℚ := 0
  velocityDraw : Int := 0
  gateDraw : ℚ := 0
  probDraw : ℚ := 0
  reviveChance : ℚ := 0

/-- The `offset` of the pitch shift: `nextBool() ? 1 : -1`, doubled when
`nextFloat() > 0.7f`. -/
def pitchOffset (up : Bool) (jump : ℚ) : Int :=
  let offset : Int := if up = true then 1 else -1
  if jump > 7 / 10 then offset * 2 else offset

/-- The search loop of the pitch shift,
`while (!isNoteInScale(candidate, rootNote, scaleType) && tries < 5)
{ candidate += (offset > 0 ? 1 : -1); tries++; }`, with the number of tries still allowed as
first argument; the result is the final `candidate`. -/
def pitchSearch (rootNote scaleType offset : Int) : Nat → Int → Int
  | 0, candidate => candidate
  | triesLeft + 1, candidate =>
    if isNoteInScale candidate rootNote scaleType = false then
      pitchSearch rootNote scaleType offset triesLeft
        (candidate + (if offset > 0 then 1 else -1))
    else candidate

/-- The branch `type == 0` of `mutatePattern`: the new value of `s.note`. -/
def pitchShift (note rootNote scaleType offset : Int) : Int :=
  let candidate := pitchSearch rootNote scaleType offset 5 (note + offset)
  if isNoteInScale candidate rootNote scaleType = true then jlimit 0 127 candidate else note

/-- The `diff` of the velocity nudge, `random.nextInt(30) - 15`, for the value `draw` of
`random.nextInt(30)`. -/
def velocityDiff (draw : Int) : Int :=
  draw - 15

/-- The body of the loop of `mutatePattern` for one step. -/
def mutateStep (amount : ℚ) (rootNote scaleType : Int) (d : MutateDraws) (s : Step) : Step :=
  if s.active = true ∧ d.chance < amount then
    if d.type = 0 then
      { s with note := pitchShift s.note rootNote scaleType (pitchOffset d.up d.jump) }
    else if d.type = 1 then
      { s with velocity := jlimit 1 127 (s.velocity + velocityDiff d.velocityDraw) }
    else if d.type = 2 then
      { s with gate := jlimitFloat (1 / 10) 1 (s.gate + (d.gateDraw * (2 / 10) - 1 / 10)) }
    else if d.type = 3 then
      { s with prob := jlimitFloat 0 1 (s.prob + (d.probDraw * (2 / 10) - 1 / 10)) }
    else s
  else if s.active = false ∧ d.reviveChance < amount * (1 / 10) then
    { s with active := true, velocity := 80 }
  else s

/-- The loop `for (auto& s : *steps)` of `mutatePattern`; `draws i` holds the random values
for the step at position `i`, and the first argument is the position of the head of the
list. -/
def mutateLoop (amount : ℚ) (rootNote scaleType : Int) (draws : Nat → MutateDraws) :
    Nat → List Step → List Step
  | _, [] => []
  | i, s :: rest =>
    mutateStep amount rootNote scaleType (draws i) s
      :: mutateLoop amount rootNote scaleType draws (i + 1) rest

/-- The member function `StepSequencerAudioProcessor::mutatePattern(float amount)`. -/
def mutatePattern (p : Processor) (amount : ℚ) (draws : Nat → MutateDraws) : Processor :=
  if amount ≤ 0 then p
  else onSteps (mutateLoop amount p.apvts.key p.apvts.scale draws 0) p

/-- The processor after the host or the editor has set the `key` and `scale` parameters. -/
def withKeyScale (p : Processor) (key scale : Int) : Processor :=
  { p with apvts := { p.apvts with key := key, scale := scale } }

/-! ## Example patterns for the generators -/

/-- A new processor set to key 1 (C sharp) and scale 1 (major) whose step 0 is active with
note 126; the other steps are silent. -/
def highNote : Processor :=
  withKeyScale { initial with tracks := [({ note := 126 } : Step) :: defaultTrack 31] } 1 1

/-- A new processor set to key 2 (D) and scale 1 (major) whose step 0 is active with note 1;
the other steps are silent. -/
def lowNote : Processor :=
  withKeyScale { initial with tracks := [({ note := 1 } : Step) :: defaultTrack 31] } 2 1

/-- Random values that make `mutatePattern` shift the pitch of every active step by `+1`
and revive no step. -/
def shiftUpDraws : Nat → MutateDraws :=
  fun _ => { chance := 0, type := 0, up := true, jump := 0, reviveChance := 1 / 2 }

/-- Random values that make `mutatePattern` shift the pitch of every active step by `-2`
and revive no step. -/
def shiftDownDraws : Nat → MutateDraws :=
  fun _ => { chance := 0, type := 0, up := false, jump := 9 / 10, reviveChance := 1 / 2 }

/-! ## The engine: loop entry, step reads and example states -/

/-- The state in which `processBlock` enters the `while (sampleOffset < numSamples)` loop in
a block the host reports as playing: the time signature has been copied, `isPlaying` is set
and `currentBPM` is `hostBPM > 0 ? hostBPM : 120.0`. -/
def loopEntry (p : Processor) (h : HostBlock) : Processor :=
  { updateTimeSignature p h with isPlaying := true, currentBPM := effectiveBPM (hostBPM h) }

/-- The specification's `clamp(x, lo, hi)`. -/
def specClamp (x lo hi : Int) : Int :=
  max lo (min hi x)

/-- An engine stopped in the middle of its second pass through a track of 32 active steps
that is repeated twice: on step 5, 7 samples into the step, with note 60 sounding. -/
def midPattern : Processor :=
  { initial with tracks := [List.replicate 32 ({} : Step)], trackRepeat := [2],
                 isPlaying := true, currentStepIndex := 5, barsPlayedOnCurrentTrack := 1,
                 accumulatedSamples := 7, lastNote := 60, samplesRemainingForGate := 2749 }

/-- A playing block of no samples. -/
def emptyPlayingBlock : HostBlock :=
  { playingBlock with numSamples := 0 }

/-- A persisted state with one `TRACK` node without properties and without steps. -/
def oneTrackState : SavedState :=
  { trackNodes := some [{}] }

/-- A prepared engine one sample before the end of step 0 at step length 32, on a track
whose step 1 is active with the stored velocity 300 (a value `setStateInformation` takes
from the property `v` as it is). -/
def loudStep : Processor :=
  { initial with tracks := [[{ active := false }, { velocity := 300 }] ++ defaultTrack 30],
                 accumulatedSamples := 31 }

/-- The index at which a pass through the loop body reads `(*steps)[currentStepIndex]`:
the value of `currentStepIndex` after "Advance Step", or `none` when the pass does not
advance the step and reads no step. -/
def stepIndexRead (stepLength : ℚ) (p : Processor) : Option Int :=
  let off := handleNoteOffs p
  if advances stepLength off.1 = true then
    some (advanceStep
      { off.1 with accumulatedSamples := off.1.accumulatedSamples + 1 - stepLength }).currentStepIndex
  else none

/-- A persisted state whose `TRACKS` node has no `TRACK` child. -/
def noTrackState : SavedState :=
  { trackNodes := some [] }

/-- A new processor that has restored `noTrackState` and has then been prepared at sample
rate 44100. -/
def restoredEmpty : Processor :=
  prepareToPlay (setStateInformation initial (some noTrackState)) 44100

/-- A block of 8192 samples in which the host reports the transport as playing at tempo
120. -/
def longPlayingBlock : HostBlock :=
  { playingBlock with numSamples := 8192 }

/-! ## The event stream at the receiver -/

/-- The events added by a sequence of `processBlock` calls made in the order of the list,
in the order they are added. -/
def blockEvents (p : Processor) : List HostBlock → List MidiEvent
  | [] => []
  | h :: rest => (processBlock p h).2 ++ blockEvents (processBlock p h).1 rest

/-- The note that sounds on channel 1 at the receiver after a message, given the note that
sounded before it (`none` for silence): a Note On starts its note, the Note Off of the
sounding note and All Notes Off end it, any other Note Off changes nothing. -/
def soundingAfter (sounding : Option Int) : MidiMessage → Option Int
  | MidiMessage.noteOn _ noteNumber _ => some noteNumber
  | MidiMessage.noteOff channel noteNumber =>
    if channel = 1 ∧ sounding = some noteNumber then none else sounding
  | MidiMessage.allNotesOff channel => if channel = 1 then none else sounding

/-- The note that sounds after a list of messages. -/
def soundingAfterAll (sounding : Option Int) (messages : List MidiMessage) : Option Int :=
  messages.foldl soundingAfter sounding

/-- Every Note On of the list arrives while no note sounds. -/
def oneVoice : Option Int → List MidiMessage → Bool
  | _, [] => true
  | sounding, m :: rest =>
    (if m.isNoteOn = true then sounding.isNone else true)
      && oneVoice (soundingAfter sounding m) rest

/-- The relation between the note that sounds at the receiver and the member `lastNote`:
when a note sounds, it is `lastNote`. -/
def VoiceInvariant (sounding : Option Int) (p : Processor) : Prop :=
  sounding = none ∨ (sounding = some p.lastNote ∧ p.lastNote ≠ -1)

/-- A list of messages that keeps the invariant between the receiver and `lastNote`. -/
def KeepsVoice (sounding : Option Int) (messages : List MidiMessage) (after : Processor) :
    Prop :=
  oneVoice sounding messages = true ∧ VoiceInvariant (soundingAfterAll sounding messages) after

/-- An engine one sample before the end of step 0 at step length 32 with note 60 sounding
and 100 samples of gate left, on a track whose step 1 is active. -/
def heldNote : Processor :=
  { initial with tracks := [[{ active := false }, {}] ++ defaultTrack 30],
                 accumulatedSamples := 31, lastNote := 60, samplesRemainingForGate := 100 }

/-! ## Updating the vector behind the `steps` pointer -/

theorem modifyTrack_length (f : List Step → List Step) (ts : List (List Step)) (i : Nat) :
    (modifyTrack f ts i).length = ts.length := by
  induction ts generalizing i with
  | nil => rfl
  | cons t ts ih =>
    cases i with
    | zero => rfl
    | succ i => simp [modifyTrack, ih]

theorem modifyTrack_getD_self (f : List Step → List Step) (hf : f [] = [])
    (ts : List (List Step)) (i : Nat) :
    (modifyTrack f ts i).getD i [] = f (ts.getD i []) := by
  induction ts generalizing i with
  | nil => simp [modifyTrack, hf]
  | cons t ts ih =>
    cases i with
    | zero => simp [modifyTrack]
    | succ i => simpa [modifyTrack] using ih i

theorem modifyTrack_get?_of_ne (f : List Step → List Step) (ts : List (List Step))
    (i j : Nat) (hij : j ≠ i) : (modifyTrack f ts i).get? j = ts.get? j := by
  induction ts generalizing i j with
  | nil => rfl
  | cons t ts ih =>
    cases i with
    | zero =>
      cases j with
      | zero => exact absurd rfl hij
      | succ j => simp [modifyTrack]
    | succ i =>
      cases j with
      | zero => simp [modifyTrack]
      | succ j => simpa [modifyTrack] using ih i j (fun h => hij (by rw [h]))

theorem modifyTrack_eq_self (f : List Step → List Step) (ts : List (List Step)) (i : Nat)
    (hf : f (ts.getD i []) = ts.getD i []) : modifyTrack f ts i = ts := by
  induction ts generalizing i with
  | nil => rfl
  | cons t ts ih =>
    cases i with
    | zero => simpa [modifyTrack] using hf
    | succ i =>
      have h : f (ts.getD i []) = ts.getD i [] := by simpa using hf
      simp [modifyTrack, ih i h]

theorem modifyTrack_modifyTrack (f g : List Step → List Step) (ts : List (List Step))
    (i : Nat) :
    modifyTrack f (modifyTrack g ts i) i = modifyTrack (fun t => f (g t)) ts i := by
  induction ts generalizing i with
  | nil => rfl
  | cons t ts ih =>
    cases i with
    | zero => rfl
    | succ i => simp [modifyTrack, ih]

theorem currentSteps_onSteps (f : List Step → List Step) (hf : f [] = []) (p : Processor) :
    currentSteps (onSteps f p) = f (currentSteps p) := by
  have h := modifyTrack_getD_self f hf p.tracks p.steps
  simpa [currentSteps, onSteps] using h

theorem onSteps_eq_self (f : List Step → List Step) (p : Processor)
    (hf : f (currentSteps p) = currentSteps p) : onSteps f p = p := by
  unfold onSteps
  rw [modifyTrack_eq_self f p.tracks p.steps hf]

theorem onSteps_onSteps (f g : List Step → List Step) (p : Processor) :
    onSteps f (onSteps g p) = onSteps (fun t => f (g t)) p := by
  simp [onSteps, modifyTrack_modifyTrack]

/-! ## The bucket loop of `euclideanPattern` -/

theorem activeAt_nil (j : Nat) : activeAt [] j = false := by
  simp [activeAt]

theorem activeAt_cons_zero (s : Step) (l : List Step) : activeAt (s :: l) 0 = s.active := by
  simp [activeAt]

theorem activeAt_cons_succ (s : Step) (l : List Step) (j : Nat) :
    activeAt (s :: l) (j + 1) = activeAt l j := by
  simp [activeAt]

theorem activeAt_of_inactive (l : List Step) (hl : ∀ s ∈ l, s.active = false) (j : Nat) :
    activeAt l j = false := by
  induction l generalizing j with
  | nil => exact activeAt_nil j
  | cons s rest ih =>
    cases j with
    | zero => rw [activeAt_cons_zero]; exact hl s (List.mem_cons_self s rest)
    | succ j =>
      rw [activeAt_cons_succ]
      exact ih (fun x hx => hl x (List.mem_cons_of_mem s hx)) j

theorem euclideanClear_length (track : List Step) :
    (euclideanClear track).length = track.length := by
  simp [euclideanClear]

theorem euclideanClear_inactive (track : List Step) :
    ∀ s ∈ euclideanClear track, s.active = false := by
  intro s hs
  simp only [euclideanClear, List.mem_map] at hs
  obtain ⟨x, _, rfl⟩ := hs
  rfl

theorem euclideanLoop_length (hits steps : Int) (l : List Step) (i bucket : Int) :
    (euclideanLoop hits steps i bucket l).length = l.length := by
  induction l generalizing i bucket with
  | nil => rfl
  | cons s rest ih =>
    unfold euclideanLoop
    split_ifs <;> simp [ih]

/-- Started with a bucket in `[0, steps)` (which each iteration preserves), the loop places
`(bucket + min r size * hits) / steps` hits in the `r` positions it has still to visit. -/
theorem euclideanLoop_count (hits steps : Int) (hk : 0 < hits) (hkn : hits ≤ steps)
    (l : List Step) (hl : ∀ s ∈ l, s.active = false) (i bucket : Int) (r : Nat)
    (hb0 : 0 ≤ bucket) (hbn : bucket < steps) (hir : i + r = steps) :
    (activeCount ((euclideanLoop hits steps i bucket l).take r) : Int)
      = (bucket + (min r l.length : Nat) * hits) / steps := by
  induction l generalizing i bucket r with
  | nil =>
    simp [euclideanLoop, activeCount, Int.ediv_eq_zero_of_lt hb0 hbn]
  | cons s rest ih =>
    have hs : s.active = false := hl s (List.mem_cons_self s rest)
    have hrest : ∀ x ∈ rest, x.active = false := fun x hx => hl x (List.mem_cons_of_mem s hx)
    cases r with
    | zero => simp [activeCount, Int.ediv_eq_zero_of_lt hb0 hbn]
    | succ r =>
      have hi : i < steps := by push_cast at hir; omega
      have hn0 : steps ≠ 0 := by omega
      have hmin : min (r + 1) (rest.length + 1) = min r rest.length + 1 := by omega
      unfold euclideanLoop
      by_cases hc : bucket + hits ≥ steps
      · have h := ih hrest (i + 1) (bucket + hits - steps) r (by omega) (by omega)
          (by push_cast at hir; omega)
        simp only [if_pos hi, if_pos hc, List.take_succ_cons, activeCount, List.length_cons,
          hmin] at h ⊢
        rw [List.countP_cons_of_pos _ _ (by rfl)]
        generalize min r rest.length = m at h ⊢
        have e : bucket + ((m + 1 : Nat) : Int) * hits
            = (bucket + hits - steps + (m : Int) * hits) + 1 * steps := by push_cast; ring
        rw [e, Int.add_mul_ediv_right _ _ hn0, ← h]
        push_cast
        rfl
      · have h := ih hrest (i + 1) (bucket + hits) r (by omega) (by omega)
          (by push_cast at hir; omega)
        simp only [if_pos hi, if_neg hc, List.take_succ_cons, activeCount, List.length_cons,
          hmin] at h ⊢
        rw [List.countP_cons_of_neg _ _ (by simp [hs])]
        generalize min r rest.length = m at h ⊢
        rw [h]
        congr 1
        push_cast
        ring

/-- The flag the loop leaves at the `j`-th position it has still to visit: set exactly when
adding `hits` for that position carries the running sum over a multiple of `steps`. -/
theorem euclideanLoop_activeAt (hits steps : Int) (hk : 0 < hits) (hkn : hits ≤ steps)
    (l : List Step) (hl : ∀ s ∈ l, s.active = false) (i bucket : Int) (r j : Nat)
    (hb0 : 0 ≤ bucket) (hbn : bucket < steps) (hir : i + r = steps) :
    activeAt (euclideanLoop hits steps i bucket l) j
      = decide (j < r ∧ j < l.length ∧
          (bucket + (j : Int) * hits) / steps < (bucket + ((j : Int) + 1) * hits) / steps) := by
  induction l generalizing i bucket r j with
  | nil => simp [euclideanLoop, activeAt_nil]
  | cons s rest ih =>
    have hs : s.active = false := hl s (List.mem_cons_self s rest)
    have hrest : ∀ x ∈ rest, x.active = false := fun x hx => hl x (List.mem_cons_of_mem s hx)
    have hn0 : steps ≠ 0 := by omega
    have hnpos : 0 < steps := by omega
    cases r with
    | zero =>
      have hi : ¬ i < steps := by simp at hir; omega
      unfold euclideanLoop
      rw [if_neg hi, activeAt_of_inactive _ hl]
      simp
    | succ r =>
      have hi : i < steps := by push_cast at hir; omega
      unfold euclideanLoop
      cases j with
      | zero =>
        have hz : bucket / steps = 0 := Int.ediv_eq_zero_of_lt hb0 hbn
        by_cases hc : bucket + hits ≥ steps
        · rw [if_pos hi, if_pos hc, activeAt_cons_zero]
          have h1 : 1 ≤ (bucket + hits) / steps := by
            rw [Int.le_ediv_iff_mul_le hnpos]; omega
          simp [hz]
          omega
        · rw [if_pos hi, if_neg hc, activeAt_cons_zero, hs]
          have h0 : (bucket + hits) / steps = 0 :=
            Int.ediv_eq_zero_of_lt (by omega) (by omega)
          simp [hz, h0]
      | succ j =>
        by_cases hc : bucket + hits ≥ steps
        · rw [if_pos hi, if_pos hc, activeAt_cons_succ,
            ih hrest (i + 1) (bucket + hits - steps) r j (by omega) (by omega)
              (by push_cast at hir; omega)]
          have e1 : bucket + ((j + 1 : Nat) : Int) * hits
              = (bucket + hits - steps + (j : Int) * hits) + 1 * steps := by push_cast; ring
          have e2 : bucket + (((j + 1 : Nat) : Int) + 1) * hits
              = (bucket + hits - steps + ((j : Int) + 1) * hits) + 1 * steps := by
            push_cast; ring
          rw [e1, e2, Int.add_mul_ediv_right _ _ hn0, Int.add_mul_ediv_right _ _ hn0]
          simp
        · rw [if_pos hi, if_neg hc, activeAt_cons_succ,
            ih hrest (i + 1) (bucket + hits) r j (by omega) (by omega)
              (by push_cast at hir; omega)]
          have e1 : bucket + ((j + 1 : Nat) : Int) * hits
              = bucket + hits + (j : Int) * hits := by push_cast; ring
          have e2 : bucket + (((j + 1 : Nat) : Int) + 1) * hits
              = bucket + hits + ((j : Int) + 1) * hits := by push_cast; ring
          rw [e1, e2]
          simp

theorem euclideanSteps_of_valid (hits steps : Int) (hk : 0 < hits) (hkn : hits ≤ steps)
    (track : List Step) :
    euclideanSteps hits steps track = euclideanLoop hits steps 0 0 (euclideanClear track) := by
  unfold euclideanSteps
  rw [if_neg]
  omega

theorem euclideanSteps_of_invalid (hits steps : Int)
    (h : hits ≤ 0 ∨ steps ≤ 0 ∨ hits > steps) (track : List Step) :
    euclideanSteps hits steps track = track := by
  unfold euclideanSteps
  rw [if_pos h]

theorem euclideanSteps_nil (hits steps : Int) : euclideanSteps hits steps [] = [] := by
  unfold euclideanSteps
  split_ifs <;> rfl

theorem euclideanSteps_length (hits steps : Int) (track : List Step) :
    (euclideanSteps hits steps track).length = track.length := by
  unfold euclideanSteps
  split_ifs
  · rfl
  · rw [euclideanLoop_length, euclideanClear_length]

/-- Position `j` of the track is active after `euclideanPattern(hits, steps)` exactly when
`j` is below `steps` and below the track size and `(j * hits) / steps` increases at `j`. -/
theorem euclideanSteps_activeAt (hits steps : Int) (hk : 0 < hits) (hkn : hits ≤ steps)
    (track : List Step) (j : Nat) :
    activeAt (euclideanSteps hits steps track) j
      = decide ((j : Int) < steps ∧ j < track.length ∧
          ((j : Int) * hits) / steps < (((j : Int) + 1) * hits) / steps) := by
  have hir : (0 : Int) + (steps.toNat : Int) = steps := by
    rw [Int.toNat_of_nonneg (by omega)]; omega
  rw [euclideanSteps_of_valid hits steps hk hkn,
    euclideanLoop_activeAt hits steps hk hkn _ (euclideanClear_inactive track) 0 0
      steps.toNat j (le_refl 0) (by omega) hir, euclideanClear_length]
  have hj : j < steps.toNat ↔ (j : Int) < steps := by omega
  simp [hj]

/-! ## Spacing of the hits -/

theorem carries_iff_ediv_lt (hits steps m : Int) (hn : 0 < steps) :
    Carries hits steps m ↔ (m * hits) / steps < ((m + 1) * hits) / steps := by
  constructor
  · rintro ⟨c, h1, h2⟩
    have a : (m * hits) / steps < c := Int.ediv_lt_of_lt_mul hn h1
    have b : c ≤ ((m + 1) * hits) / steps := Int.le_ediv_of_mul_le hn h2
    omega
  · intro h
    refine ⟨(m * hits) / steps + 1, Int.lt_ediv_add_one_mul_self _ hn, ?_⟩
    have h' : (m * hits) / steps + 1 ≤ ((m + 1) * hits) / steps := by omega
    exact (Int.le_ediv_iff_mul_le hn).1 h'

theorem carries_add_mul (hits steps m t : Int) :
    Carries hits steps (m + t * steps) ↔ Carries hits steps m := by
  constructor
  · rintro ⟨c, h1, h2⟩
    exact ⟨c - t * hits, by linarith, by linarith⟩
  · rintro ⟨c, h1, h2⟩
    exact ⟨c + t * hits, by linarith, by linarith⟩

/-- No hit strictly closer than `q` positions after a hit, when `q * hits ≤ steps`. -/
theorem carries_none_before (hits steps q m e : Int) (hk : 0 < hits) (hn : 0 < steps)
    (hq : q * hits ≤ steps) (he0 : 0 < e) (heq : e < q) (hm : Carries hits steps m) :
    ¬ Carries hits steps (m + e) := by
  obtain ⟨c1, a1, b1⟩ := hm
  rintro ⟨c2, a2, b2⟩
  have hc : c1 < c2 := by
    by_contra hle
    have hle : c2 ≤ c1 := not_lt.mp hle
    have h1 : 0 ≤ (c1 - c2) * steps := mul_nonneg (by omega) (le_of_lt hn)
    have h2 : 0 ≤ (e - 1) * hits := mul_nonneg (by omega) (le_of_lt hk)
    linarith
  have h1 : 0 ≤ (c2 - c1 - 1) * steps := mul_nonneg (by omega) (le_of_lt hn)
  have h2 : 0 ≤ (q - e - 1) * hits := mul_nonneg (by omega) (le_of_lt hk)
  linarith

/-- After a hit the next one comes `q` or `q'` positions later, when `q * hits ≤ steps ≤
q' * hits` and `q' ≤ q + 1`. -/
theorem carries_next (hits steps q q' m : Int) (hk : 0 < hits)
    (hq : q * hits ≤ steps) (hq' : steps ≤ q' * hits) (hqq : q' ≤ q + 1)
    (hm : Carries hits steps m) :
    Carries hits steps (m + q) ∨ Carries hits steps (m + q') := by
  obtain ⟨c, a, b⟩ := hm
  by_cases hu : (c + 1) * steps ≤ (m + q + 1) * hits
  · exact Or.inl ⟨c + 1, by linarith, hu⟩
  · have hu : (m + q + 1) * hits < (c + 1) * steps := not_le.mp hu
    have h2 : 0 ≤ (q + 1 - q') * hits := mul_nonneg (by omega) (le_of_lt hk)
    exact Or.inr ⟨c + 1, by linarith, by linarith⟩

theorem euclideanSteps_activeAt_iff_carries (hits steps : Int) (hk : 0 < hits)
    (hkn : hits ≤ steps) (track : List Step) (hL : steps ≤ track.length) (m : Nat)
    (hm : (m : Int) < steps) :
    activeAt (euclideanSteps hits steps track) m = true ↔ Carries hits steps m := by
  rw [euclideanSteps_activeAt hits steps hk hkn, carries_iff_ediv_lt _ _ _ (by omega)]
  have hml : m < track.length := by omega
  simp [hm, hml]

theorem euclideanSteps_activeAt_mod (hits steps : Int) (hk : 0 < hits)
    (hkn : hits ≤ steps) (track : List Step) (hL : steps ≤ track.length) (m : Nat) :
    activeAt (euclideanSteps hits steps track) (m % steps.toNat) = true
      ↔ Carries hits steps m := by
  have hn : 0 < steps.toNat := by omega
  have hcast : ((m % steps.toNat : Nat) : Int) = m - ((m / steps.toNat : Nat) : Int) * steps := by
    have h := Nat.mod_add_div m steps.toNat
    have h' : ((m % steps.toNat : Nat) : Int) + (steps.toNat : Int) * ((m / steps.toNat : Nat) : Int)
        = m := by exact_mod_cast h
    rw [Int.toNat_of_nonneg (by omega)] at h'
    linarith
  have hlt : ((m % steps.toNat : Nat) : Int) < steps := by
    have := Nat.mod_lt m hn
    omega
  rw [euclideanSteps_activeAt_iff_carries hits steps hk hkn track hL _ hlt, hcast]
  have e : (m : Int) - ((m / steps.toNat : Nat) : Int) * steps
      = m + (-((m / steps.toNat : Nat) : Int)) * steps := by ring
  rw [e, carries_add_mul]

/-! ## `euclideanPattern` -/

theorem currentSteps_euclideanPattern (p : Processor) (hits steps : Int) :
    currentSteps (euclideanPattern p hits steps)
      = euclideanSteps hits steps (currentSteps p) :=
  currentSteps_onSteps _ (euclideanSteps_nil hits steps) p

/-- C1 (as amended): for `0 < hits ≤ steps ≤` size of the current track, after
`euclideanPattern(hits, steps)` exactly `hits` of the steps at positions `0 .. steps - 1` of
the current track are active. -/
theorem euclideanPattern_active_count (p : Processor) (hits steps : Int) (h0 : 0 < hits)
    (h1 : hits ≤ steps) (h2 : steps ≤ (currentSteps p).length) :
    (activeCount ((currentSteps (euclideanPattern p hits steps)).take steps.toNat) : Int)
      = hits := by
  have hir : (0 : Int) + (steps.toNat : Int) = steps := by
    rw [Int.toNat_of_nonneg (by omega)]; omega
  rw [currentSteps_euclideanPattern, euclideanSteps_of_valid hits steps h0 h1,
    euclideanLoop_count hits steps h0 h1 _ (euclideanClear_inactive _) 0 0 steps.toNat
      (le_refl 0) (by omega) hir, euclideanClear_length]
  have hmin : min steps.toNat (currentSteps p).length = steps.toNat := by omega
  rw [hmin, Int.toNat_of_nonneg (by omega), zero_add]
  exact Int.mul_ediv_cancel_left hits (by omega)

theorem euclideanPattern_active_count_witness :
    (activeCount ((currentSteps (euclideanPattern initial 5 16)).take (16 : Int).toNat) : Int)
      = 5 :=
  euclideanPattern_active_count initial 5 16 (by decide) (by decide) (by decide)

/-- C1 (as stated) fails when `steps` exceeds the size of the current track: on the 32-step
track of a new processor `euclideanPattern(1, 33)` leaves no step active, not one. -/
theorem euclideanPattern_active_count_counterexample :
    (0 : Int) < 1 ∧ (1 : Int) ≤ 33 ∧ (currentSteps initial).length = 32 ∧
      activeCount ((currentSteps (euclideanPattern initial 1 33)).take (33 : Int).toNat) = 0 ∧
      ¬ ((activeCount ((currentSteps (euclideanPattern initial 1 33)).take (33 : Int).toNat)
            : Int) = 1) := by
  decide

/-- C2: on every 32-step current track, whatever it held before, `euclideanPattern(3, 8)`
leaves active exactly the steps at positions 2, 5 and 7. -/
theorem euclideanPattern_three_eight (p : Processor) (h : (currentSteps p).length = 32)
    (i : Nat) :
    activeAt (currentSteps (euclideanPattern p 3 8)) i = true ↔ i ∈ ({2, 5, 7} : Finset Nat) := by
  rw [currentSteps_euclideanPattern, euclideanSteps_activeAt 3 8 (by decide) (by decide), h]
  by_cases hi : i < 8
  · interval_cases i <;> simp
  · have h1 : ¬ ((i : Int) < 8) := by omega
    have h2 : i ≠ 2 ∧ i ≠ 5 ∧ i ≠ 7 := by omega
    simp [h1, h2]

theorem euclideanPattern_three_eight_witness :
    activeAt (currentSteps (euclideanPattern oneActive 3 8)) 5 = true
      ↔ 5 ∈ ({2, 5, 7} : Finset Nat) :=
  euclideanPattern_three_eight oneActive (by decide) 5

/-- C3: for `0 < hits ≤ steps ≤` size of the current track, after
`euclideanPattern(hits, steps)` the cyclic distance (modulo `steps`) from every active position
below `steps` to the next active position is `⌊steps / hits⌋` or `⌈steps / hits⌉`. -/
theorem euclideanPattern_maximally_even (p : Processor) (hits steps : Int) (h0 : 0 < hits)
    (h1 : hits ≤ steps) (h2 : steps ≤ (currentSteps p).length) (i : Nat)
    (hi : (i : Int) < steps)
    (ha : activeAt (currentSteps (euclideanPattern p hits steps)) i = true) :
    ∃ d : Nat, ((d : Int) = ⌊(steps : ℚ) / hits⌋ ∨ (d : Int) = ⌈(steps : ℚ) / hits⌉) ∧
      IsNextActiveDistance (currentSteps (euclideanPattern p hits steps)) steps.toNat i d := by
  rw [currentSteps_euclideanPattern] at ha ⊢
  have hn : 0 < steps := by omega
  have hkQ : (0 : ℚ) < hits := by exact_mod_cast h0
  generalize hx : (steps : ℚ) / hits = x
  have hq1 : ⌊x⌋ * hits ≤ steps := by
    have h := Int.floor_le x
    rw [← hx, le_div_iff₀ hkQ] at h
    rw [← hx]
    exact_mod_cast h
  have hq3 : steps ≤ ⌈x⌉ * hits := by
    have h := Int.le_ceil x
    rw [← hx, div_le_iff₀ hkQ] at h
    rw [← hx]
    exact_mod_cast h
  have hqq : ⌈x⌉ ≤ ⌊x⌋ + 1 := Int.ceil_le_floor_add_one x
  have hfc : ⌊x⌋ ≤ ⌈x⌉ := Int.floor_le_ceil x
  have hqpos : 1 ≤ ⌊x⌋ := by
    rw [Int.le_floor, ← hx, le_div_iff₀ hkQ]
    exact_mod_cast (by omega : 1 * hits ≤ steps)
  have hCi : Carries hits steps i :=
    (euclideanSteps_activeAt_iff_carries hits steps h0 h1 _ h2 i hi).1 ha
  have hmod := euclideanSteps_activeAt_mod hits steps h0 h1 (currentSteps p) h2
  have hnone : ∀ e : Nat, (e : Int) < ⌊x⌋ → 0 < e →
      activeAt (euclideanSteps hits steps (currentSteps p)) ((i + e) % steps.toNat) = false := by
    intro e he he0
    rw [← Bool.not_eq_true, hmod]
    push_cast
    exact carries_none_before hits steps ⌊x⌋ i e h0 hn hq1 (by omega) he hCi
  by_cases hq : Carries hits steps (i + ⌊x⌋)
  · refine ⟨⌊x⌋.toNat, Or.inl (Int.toNat_of_nonneg (by omega)), by omega, ?_, ?_⟩
    · rw [hmod]
      push_cast
      rw [Int.toNat_of_nonneg (by omega)]
      exact hq
    · intro e he he0
      exact hnone e (by omega) he0
  · have hq' : Carries hits steps (i + ⌈x⌉) :=
      (carries_next hits steps ⌊x⌋ ⌈x⌉ i h0 hq1 hq3 hqq hCi).resolve_left hq
    have hne : ⌈x⌉ ≠ ⌊x⌋ := fun h => hq (h ▸ hq')
    refine ⟨⌈x⌉.toNat, Or.inr (Int.toNat_of_nonneg (by omega)), by omega, ?_, ?_⟩
    · rw [hmod]
      push_cast
      rw [Int.toNat_of_nonneg (by omega)]
      exact hq'
    · intro e he he0
      by_cases hlt : (e : Int) < ⌊x⌋
      · exact hnone e hlt he0
      · have heq : (e : Int) = ⌊x⌋ := by omega
        rw [← Bool.not_eq_true, hmod]
        push_cast
        rw [heq]
        exact hq

theorem euclideanPattern_maximally_even_witness :
    ∃ d : Nat, ((d : Int) = ⌊((8 : Int) : ℚ) / (3 : Int)⌋ ∨
        (d : Int) = ⌈((8 : Int) : ℚ) / (3 : Int)⌉) ∧
      IsNextActiveDistance (currentSteps (euclideanPattern initial 3 8)) (8 : Int).toNat 7 d :=
  euclideanPattern_maximally_even initial 3 8 (by decide) (by decide) (by decide) 7
    (by decide) (by decide)

/-- C4: `euclideanPattern(hits, steps)` with `hits ≤ 0`, `steps ≤ 0` or `hits > steps` leaves
the whole processor state, every field of every step of every track included, unchanged. -/
theorem euclideanPattern_invalid_noop (p : Processor) (hits steps : Int)
    (h : hits ≤ 0 ∨ steps ≤ 0 ∨ hits > steps) : euclideanPattern p hits steps = p :=
  onSteps_eq_self _ p (euclideanSteps_of_invalid hits steps h _)

theorem euclideanPattern_invalid_noop_witness :
    euclideanPattern oneActive 9 8 = oneActive :=
  euclideanPattern_invalid_noop oneActive 9 8 (by decide)

/-- C5 (as amended): for an invalid argument pair (`hits ≤ 0`, `steps ≤ 0` or `hits > steps`)
`euclideanPattern(hits, steps)` leaves the number of active steps of the current track as it
was; so no step is active afterwards exactly when none was active before. -/
theorem euclideanPattern_invalid_active_count (p : Processor) (hits steps : Int)
    (h : hits ≤ 0 ∨ steps ≤ 0 ∨ hits > steps) :
    activeCount (currentSteps (euclideanPattern p hits steps)) = activeCount (currentSteps p) ∧
      (activeCount (currentSteps (euclideanPattern p hits steps)) = 0
        ↔ activeCount (currentSteps p) = 0) := by
  rw [currentSteps_euclideanPattern, euclideanSteps_of_invalid hits steps h]
  exact ⟨rfl, Iff.rfl⟩

theorem euclideanPattern_invalid_active_count_witness :
    activeCount (currentSteps (euclideanPattern initial 0 8)) = activeCount (currentSteps initial) ∧
      (activeCount (currentSteps (euclideanPattern initial 0 8)) = 0
        ↔ activeCount (currentSteps initial) = 0) :=
  euclideanPattern_invalid_active_count initial 0 8 (by decide)

/-- C5 (as stated) fails: with the invalid pair `hits = 0`, `steps = 8` a track that has one
active step still has one active step after `euclideanPattern(0, 8)`, not none. -/
theorem euclideanPattern_invalid_active_count_counterexample :
    ((0 : Int) ≤ 0 ∨ (8 : Int) ≤ 0 ∨ (0 : Int) > 8) ∧
      activeCount (currentSteps (euclideanPattern oneActive 0 8)) = 1 ∧
      ¬ (activeCount (currentSteps (euclideanPattern oneActive 0 8)) = 0) := by
  decide

/-! ## `isNoteInScale` -/

theorem relativePitch_range (midiNote rootNote : Int) :
    0 ≤ relativePitch midiNote rootNote ∧ relativePitch midiNote rootNote < 12 := by
  unfold relativePitch
  omega

theorem relativePitch_add (midiNote rootNote i : Int) :
    relativePitch (midiNote + i) rootNote = (relativePitch midiNote rootNote + i) % 12 := by
  unfold relativePitch
  omega

/-- For a note that is not negative and a root in `0 .. 11` the two truncating remainders of
the code are mathematical remainders, and the answer depends on `relativePitch` only. -/
theorem isNoteInScale_eq_relative (midiNote rootNote scaleType : Int) (hm : 0 ≤ midiNote)
    (hr0 : 0 ≤ rootNote) (hr1 : rootNote ≤ 11) :
    isNoteInScale midiNote rootNote scaleType
      = isNoteInScale (relativePitch midiNote rootNote) 0 scaleType := by
  have hp := relativePitch_range midiNote rootNote
  have e1 : midiNote.tmod 12 = midiNote % 12 := Int.tmod_eq_emod hm (by decide)
  have e2 : (midiNote % 12 - rootNote + 12).tmod 12 = relativePitch midiNote rootNote :=
    Int.tmod_eq_emod (by omega) (by decide)
  have e3 : (relativePitch midiNote rootNote).tmod 12 = relativePitch midiNote rootNote :=
    Int.tmod_eq_of_lt hp.1 hp.2
  have e4 : (relativePitch midiNote rootNote - 0 + 12).tmod 12
      = relativePitch midiNote rootNote := by
    rw [Int.tmod_eq_emod (by omega) (by decide)]
    omega
  unfold isNoteInScale
  simp only [e1, e2, e3, e4]

/-- Supporting fact for C6: on notes that are not negative the test has period 12. -/
theorem isNoteInScale_add_twelve_of_nonneg (midiNote rootNote scaleType : Int)
    (hm : 0 ≤ midiNote) :
    isNoteInScale (midiNote + 12) rootNote scaleType
      = isNoteInScale midiNote rootNote scaleType := by
  have e : (midiNote + 12).tmod 12 = midiNote.tmod 12 := by
    rw [Int.tmod_eq_emod (by omega) (by decide), Int.tmod_eq_emod hm (by decide)]
    omega
  unfold isNoteInScale
  rw [e]

/-- C6 (the code departs from the claim): with root 11 (B) and the chromatic scale the note
`-2` is reported out of scale while the note `-2 + 12 = 10` is reported in scale, so the test
is not periodic on negative notes. -/
theorem isNoteInScale_negative_note_not_periodic :
    isNoteInScale (-2) 11 0 = false ∧ isNoteInScale (-2 + 12) 11 0 = true := by
  decide

theorem isNoteInScale_pitch_class (o scaleMode : Int) (ho0 : 0 ≤ o) (ho1 : o < 12)
    (hs0 : 0 ≤ scaleMode) (hs1 : scaleMode ≤ 6) :
    isNoteInScale o 0 scaleMode = true ↔ o ∈ modeIntervals scaleMode := by
  interval_cases scaleMode <;> interval_cases o <;> decide

theorem notesInScaleFrom_pitch_class (t scaleMode : Int) (ht0 : 0 ≤ t) (ht1 : t < 12)
    (hs0 : 0 ≤ scaleMode) (hs1 : scaleMode ≤ 6) :
    ((List.range 12).filter (fun i : Nat => isNoteInScale ((t + i) % 12) 0 scaleMode)).length
      = modeSize scaleMode := by
  interval_cases scaleMode <;> interval_cases t <;> decide

/-- C7: for `midiNote` in `0 .. 127`, `rootNote` in `0 .. 11` and `scaleMode` in `0 .. 6`,
`isNoteInScale` answers `true` exactly when `(midiNote mod 12 - rootNote + 12) mod 12` is in
the interval set of the mode; every note is in the chromatic scale; and among the twelve
consecutive notes that start at `midiNote` exactly 12, 7 or 5 are in scale for the chromatic
mode, a seven-tone mode or the pentatonic mode. -/
theorem isNoteInScale_iff_mem_modeIntervals (midiNote rootNote scaleMode : Int)
    (hm0 : 0 ≤ midiNote) (hm1 : midiNote ≤ 127) (hr0 : 0 ≤ rootNote) (hr1 : rootNote ≤ 11)
    (hs0 : 0 ≤ scaleMode) (hs1 : scaleMode ≤ 6) :
    (isNoteInScale midiNote rootNote scaleMode = true
        ↔ relativePitch midiNote rootNote ∈ modeIntervals scaleMode) ∧
      isNoteInScale midiNote rootNote 0 = true ∧
      (notesInScaleFrom midiNote rootNote scaleMode).length = modeSize scaleMode := by
  have hp := relativePitch_range midiNote rootNote
  refine ⟨?_, ?_, ?_⟩
  · rw [isNoteInScale_eq_relative midiNote rootNote scaleMode hm0 hr0 hr1]
    exact isNoteInScale_pitch_class _ _ hp.1 hp.2 hs0 hs1
  · rw [isNoteInScale_eq_relative midiNote rootNote 0 hm0 hr0 hr1]
    generalize relativePitch midiNote rootNote = o at hp
    obtain ⟨h0, h1⟩ := hp
    interval_cases o <;> decide
  · have hfun : (fun i : Nat => isNoteInScale (midiNote + i) rootNote scaleMode)
        = (fun i : Nat => isNoteInScale ((relativePitch midiNote rootNote + i) % 12) 0
            scaleMode) := by
      funext i
      rw [isNoteInScale_eq_relative (midiNote + i) rootNote scaleMode (by omega) hr0 hr1,
        relativePitch_add]
    unfold notesInScaleFrom
    rw [hfun]
    exact notesInScaleFrom_pitch_class _ _ hp.1 hp.2 hs0 hs1

theorem isNoteInScale_iff_mem_modeIntervals_witness :
    (isNoteInScale 62 2 6 = true ↔ relativePitch 62 2 ∈ modeIntervals 6) ∧
      isNoteInScale 62 2 0 = true ∧
      (notesInScaleFrom 62 2 6).length = modeSize 6 :=
  isNoteInScale_iff_mem_modeIntervals 62 2 6 (by decide) (by decide) (by decide) (by decide)
    (by decide) (by decide)

/-! ## `reversePattern` and `invertPattern` -/

theorem reverseSteps_nil (numSteps : Int) : reverseSteps numSteps [] = [] := by
  unfold reverseSteps
  split_ifs <;> simp

theorem reverseSteps_length (numSteps : Int) (track : List Step) :
    (reverseSteps numSteps track).length = track.length := by
  unfold reverseSteps
  split_ifs with h
  · have : numSteps.toNat ≤ track.length := by omega
    simp
    omega
  · rfl

theorem reverseSteps_reverseSteps (numSteps : Int) (track : List Step) :
    reverseSteps numSteps (reverseSteps numSteps track) = track := by
  by_cases h : numSteps > 0 ∧ numSteps ≤ (track.length : Int)
  · have h' : numSteps > 0 ∧ numSteps ≤ ((reverseSteps numSteps track).length : Int) := by
      rw [reverseSteps_length]; exact h
    have hn : numSteps.toNat ≤ track.length := by omega
    have hlen : ((track.take numSteps.toNat).reverse).length = numSteps.toNat := by
      simp [hn]
    rw [reverseSteps, if_pos h']
    rw [reverseSteps, if_pos h]
    rw [List.take_left' hlen, List.drop_left' hlen, List.reverse_reverse,
      List.take_append_drop]
  · have e : reverseSteps numSteps track = track := by rw [reverseSteps, if_neg h]
    rw [e, e]

theorem currentSteps_reversePattern (p : Processor) :
    currentSteps (reversePattern p) = reverseSteps p.apvts.numSteps (currentSteps p) :=
  currentSteps_onSteps _ (reverseSteps_nil _) p

/-- C8: for every processor state (every current track and every `numSteps`), applying
`reversePattern()` twice gives back the original state: the first `numSteps` steps are in
their original order with all their fields and nothing else has changed. -/
theorem reversePattern_reversePattern (p : Processor) :
    reversePattern (reversePattern p) = p := by
  have h : reversePattern (reversePattern p)
      = onSteps (fun t => reverseSteps p.apvts.numSteps (reverseSteps p.apvts.numSteps t)) p :=
    onSteps_onSteps _ _ p
  rw [h]
  exact onSteps_eq_self _ p (reverseSteps_reverseSteps _ _)

/-- C9: with `L` the size of the current track, if `0 < numSteps ≤ L` then after
`reversePattern()` the step at a position `i < numSteps` is the step that was at position
`numSteps - 1 - i`, the steps at positions `≥ numSteps` are unchanged, and the other tracks
are unchanged; if `numSteps ≤ 0` or `numSteps > L` nothing changes. -/
theorem reversePattern_spec (p : Processor) :
    (0 < p.apvts.numSteps → p.apvts.numSteps ≤ (currentSteps p).length →
      (∀ i : Nat, (i : Int) < p.apvts.numSteps →
        (currentSteps (reversePattern p)).get? i
          = (currentSteps p).get? (p.apvts.numSteps.toNat - 1 - i)) ∧
      (∀ i : Nat, p.apvts.numSteps ≤ i →
        (currentSteps (reversePattern p)).get? i = (currentSteps p).get? i) ∧
      (reversePattern p).tracks.length = p.tracks.length ∧
      (∀ j : Nat, j ≠ p.steps → (reversePattern p).tracks.get? j = p.tracks.get? j)) ∧
    (p.apvts.numSteps ≤ 0 ∨ p.apvts.numSteps > (currentSteps p).length →
      reversePattern p = p) := by
  refine ⟨fun h0 hL => ⟨?_, ?_, ?_, ?_⟩, fun h => ?_⟩
  · intro i hi
    have hn : p.apvts.numSteps.toNat ≤ (currentSteps p).length := by omega
    have hin : i < p.apvts.numSteps.toNat := by omega
    have hlen : ((currentSteps p).take p.apvts.numSteps.toNat).length
        = p.apvts.numSteps.toNat := by simp [hn]
    rw [currentSteps_reversePattern, reverseSteps, if_pos ⟨h0, hL⟩]
    simp only [List.get?_eq_getElem?]
    rw [List.getElem?_append_left (by simp; omega), List.getElem?_reverse (by omega), hlen,
      List.getElem?_take_of_lt (by omega)]
  · intro i hi
    have hn : p.apvts.numSteps.toNat ≤ (currentSteps p).length := by omega
    have hin : p.apvts.numSteps.toNat ≤ i := by omega
    have hlen : ((currentSteps p).take p.apvts.numSteps.toNat).reverse.length
        = p.apvts.numSteps.toNat := by simp [hn]
    rw [currentSteps_reversePattern, reverseSteps, if_pos ⟨h0, hL⟩]
    simp only [List.get?_eq_getElem?]
    rw [List.getElem?_append_right (by omega), hlen, List.getElem?_drop]
    congr 1
    omega
  · exact modifyTrack_length _ _ _
  · intro j hj
    exact modifyTrack_get?_of_ne _ _ _ _ hj
  · refine onSteps_eq_self _ p ?_
    rw [reverseSteps, if_neg]
    omega

theorem reversePattern_spec_witness :
    (currentSteps (reversePattern oneActive)).get? 15 = (currentSteps oneActive).get? 0 ∧
      (currentSteps (reversePattern oneActive)).get? 20 = (currentSteps oneActive).get? 20 ∧
      reversePattern (withNumSteps oneActive 33) = withNumSteps oneActive 33 :=
  ⟨((reversePattern_spec oneActive).1 (by decide) (by decide)).1 15 (by decide),
    ((reversePattern_spec oneActive).1 (by decide) (by decide)).2.1 20 (by decide),
    (reversePattern_spec (withNumSteps oneActive 33)).2 (by decide)⟩

theorem invertSteps_invertSteps (track : List Step) :
    invertSteps (invertSteps track) = track := by
  unfold invertSteps
  rw [List.map_map]
  have h : ((fun s : Step => { s with active := !s.active })
      ∘ (fun s : Step => { s with active := !s.active })) = id := by
    funext s
    cases s
    simp
  rw [h, List.map_id]

/-- C10: for every processor state, applying `invertPattern()` twice gives back the original
state: every step of the current track has its original `active` flag, and its other fields
and everything else were never touched. -/
theorem invertPattern_invertPattern (p : Processor) :
    invertPattern (invertPattern p) = p := by
  have h : invertPattern (invertPattern p)
      = onSteps (fun t => invertSteps (invertSteps t)) p := onSteps_onSteps _ _ p
  rw [h]
  exact onSteps_eq_self _ p (invertSteps_invertSteps _)

/-! ## `clearPattern` -/

theorem clearSteps_eq_replicate (track : List Step) :
    clearSteps track = List.replicate track.length clearedStep := by
  induction track with
  | nil => rfl
  | cons s rest ih =>
    have h : clearSteps (s :: rest) = clearedStep :: clearSteps rest := rfl
    rw [h, ih]
    rfl

/-- C11: after `clearPattern()` every step of the current track is the default step
(`active = false`, `isTied = false`, `note = 60`, `velocity = 100`, `gate = 0.5`,
`prob = 1.0`), the track has the length it had, the number of tracks is the same and every
other track is unchanged. -/
theorem clearPattern_spec (p : Processor) :
    currentSteps (clearPattern p) = List.replicate (currentSteps p).length clearedStep ∧
      clearedStep = { active := false, isTied := false, note := 60, velocity := 100,
                      gate := 1 / 2, prob := 1 } ∧
      (currentSteps (clearPattern p)).length = (currentSteps p).length ∧
      (clearPattern p).tracks.length = p.tracks.length ∧
      ∀ j : Nat, j ≠ p.steps → (clearPattern p).tracks.get? j = p.tracks.get? j := by
  have h : currentSteps (clearPattern p) = clearSteps (currentSteps p) :=
    currentSteps_onSteps _ rfl p
  refine ⟨?_, rfl, ?_, modifyTrack_length _ _ _, fun j hj => modifyTrack_get?_of_ne _ _ _ _ hj⟩
  · rw [h, clearSteps_eq_replicate]
  · rw [h, clearSteps_eq_replicate, List.length_replicate]

/-! ## The track operations -/

theorem storeInvariant_switchToTrack (p : Processor) (i : Int) (h : StoreInvariant p) :
    StoreInvariant (switchToTrack p i) := by
  unfold switchToTrack
  split_ifs with hc
  · obtain ⟨h1, _, _, h4, h5⟩ := h
    obtain ⟨c1, c2, _⟩ := hc
    exact ⟨h1, c1, c2, h4, h5⟩
  · exact h

theorem storeInvariant_addTrack (p : Processor) (h : StoreInvariant p) :
    StoreInvariant (addTrack p) := by
  obtain ⟨h1, h2, h3, h4, h5⟩ := h
  unfold addTrack
  simp only
  split_ifs <;>
    refine ⟨?_, h2, ?_, ?_, ?_⟩ <;> simp only [List.length_append, List.length_singleton] <;>
      omega

theorem storeInvariant_removeTrack (p : Processor) (h : StoreInvariant p) :
    StoreInvariant (removeTrack p) := by
  obtain ⟨h1, h2, h3, h4, h5⟩ := h
  unfold removeTrack
  split_ifs with hlen
  · simp only
    split_ifs with hc
    · refine ⟨?_, ?_, ?_, ?_, ?_⟩ <;> simp only [List.length_dropLast] at hc ⊢ <;> omega
    · refine ⟨?_, ?_, ?_, ?_, ?_⟩ <;> simp only [List.length_dropLast] at hc ⊢ <;> omega
  · exact ⟨h1, h2, h3, h4, h5⟩

theorem storeInvariant_duplicate (p : Processor) (h : StoreInvariant p) :
    StoreInvariant (duplicateTrackButtonOnClick p) := by
  unfold duplicateTrackButtonOnClick
  split_ifs with hc
  · apply storeInvariant_switchToTrack
    obtain ⟨h1, h2, h3, h4, h5⟩ := h
    refine ⟨?_, h2, ?_, ?_, ?_⟩ <;> simp only [List.length_append, List.length_singleton] <;>
      omega
  · exact h

theorem storeInvariant_applyTrackOp (p : Processor) (op : TrackOp) (h : StoreInvariant p) :
    StoreInvariant (applyTrackOp p op) := by
  cases op with
  | add => exact storeInvariant_addTrack p h
  | remove => exact storeInvariant_removeTrack p h
  | duplicate => exact storeInvariant_duplicate p h
  | switchTo i => exact storeInvariant_switchToTrack p i h

theorem storeInvariant_foldl (ops : List TrackOp) (p : Processor) (h : StoreInvariant p) :
    StoreInvariant (applyTrackOps p ops) := by
  induction ops generalizing p with
  | nil => exact h
  | cons op rest ih => exact ih (applyTrackOp p op) (storeInvariant_applyTrackOp p op h)

theorem storeInvariant_initial : StoreInvariant initial := by
  decide

/-- C12: from the constructed processor, every sequence of `addTrack`, `removeTrack`,
duplicate-track and `switchToTrack(i)` calls (any integers `i`) leaves at least one track,
`0 ≤ currentTrack < number of tracks`, and `trackRepeat` and `trackEnabled` as long as
`tracks`; and `removeTrack` changes nothing when there is a single track. -/
theorem storeInvariant_applyTrackOps (ops : List TrackOp) :
    (1 ≤ (applyTrackOps initial ops).tracks.length ∧
      0 ≤ (applyTrackOps initial ops).currentTrack ∧
      (applyTrackOps initial ops).currentTrack < ((applyTrackOps initial ops).tracks.length : Int) ∧
      (applyTrackOps initial ops).trackRepeat.length = (applyTrackOps initial ops).tracks.length ∧
      (applyTrackOps initial ops).trackEnabled.length
        = (applyTrackOps initial ops).tracks.length) ∧
    ∀ p : Processor, p.tracks.length = 1 → removeTrack p = p := by
  refine ⟨storeInvariant_foldl ops initial storeInvariant_initial, fun p hp => ?_⟩
  unfold removeTrack
  rw [if_neg (by omega)]

/-! ## `setStateInformation` -/

/-- Supporting fact for C13: a persisted state with at least one `TRACK` node restores a
store that satisfies the invariant, with `currentTrack = 0` and `steps` on track 0. -/
theorem storeInvariant_setStateInformation (p : Processor) (params : Params)
    (node : TrackNode) (nodes : List TrackNode) :
    StoreInvariant
        (setStateInformation p (some { params := params, trackNodes := some (node :: nodes) })) ∧
      (setStateInformation p
        (some { params := params, trackNodes := some (node :: nodes) })).currentTrack = 0 ∧
      (setStateInformation p
        (some { params := params, trackNodes := some (node :: nodes) })).steps = 0 := by
  simp [setStateInformation, StoreInvariant]

/-- C13 (the code departs from the claim): a persisted state whose `TRACKS` node has no
`TRACK` child is accepted and leaves the processor without any track: `currentTrack = 0` is
then no valid index into `tracks`, `trackRepeat` or `trackEnabled`. -/
theorem setStateInformation_no_track :
    (setStateInformation initial (some { trackNodes := some [] })).tracks = [] ∧
      (setStateInformation initial (some { trackNodes := some [] })).trackRepeat = [] ∧
      (setStateInformation initial (some { trackNodes := some [] })).trackEnabled = [] ∧
      (setStateInformation initial (some { trackNodes := some [] })).currentTrack = 0 ∧
      ¬ StoreInvariant (setStateInformation initial (some { trackNodes := some [] })) := by
  decide

/-! ## Duplicating the current track -/

/-- C14 (as amended): when `currentTrack = c` is a valid index of `tracks` and `trackRepeat`,
duplicating the current track appends one track whose steps are those of track `c`, with the
repeat count of track `c` and with the enabled flag `true`; the tracks, repeat counts and
flags that existed are unchanged, and the current track (and the `steps` pointer) becomes
the new last index. -/
theorem duplicateTrack_spec (p : Processor) (h0 : 0 ≤ p.currentTrack)
    (h1 : p.currentTrack < (p.tracks.length : Int))
    (hr : p.trackRepeat.length = p.tracks.length) :
    ∃ (t : List Step) (r : Int),
      p.tracks.get? p.currentTrack.toNat = some t ∧
      p.trackRepeat.get? p.currentTrack.toNat = some r ∧
      (duplicateTrackButtonOnClick p).tracks = p.tracks ++ [t] ∧
      (duplicateTrackButtonOnClick p).trackRepeat = p.trackRepeat ++ [r] ∧
      (duplicateTrackButtonOnClick p).trackEnabled = p.trackEnabled ++ [true] ∧
      (duplicateTrackButtonOnClick p).currentTrack = (p.tracks.length : Int) ∧
      (duplicateTrackButtonOnClick p).currentTrack
        = ((duplicateTrackButtonOnClick p).tracks.length : Int) - 1 ∧
      currentSteps (duplicateTrackButtonOnClick p) = t := by
  have hc : p.currentTrack.toNat < p.tracks.length := by omega
  have hc' : p.currentTrack.toNat < p.trackRepeat.length := by omega
  refine ⟨p.tracks[p.currentTrack.toNat], p.trackRepeat[p.currentTrack.toNat], ?_, ?_, ?_⟩
  · simp [List.get?_eq_getElem?, List.getElem?_eq_getElem hc]
  · simp [List.get?_eq_getElem?, List.getElem?_eq_getElem hc']
  · have hg : p.currentTrack ≥ 0 ∧ p.currentTrack < (p.tracks.length : Int) := ⟨h0, h1⟩
    have hsw : ((p.tracks.length : Int) + 1 - 1 ≥ 0 ∧
        (p.tracks.length : Int) + 1 - 1 < (p.tracks.length : Int) + 1 ∧
        (p.tracks.length : Int) + 1 - 1 ≠ p.currentTrack) := by omega
    simp only [duplicateTrackButtonOnClick, if_pos hg, switchToTrack, getNumTracks,
      List.length_append, List.length_singleton, Nat.cast_add, Nat.cast_one, if_pos hsw,
      List.getD_eq_getElem?_getD, List.getElem?_eq_getElem hc, List.getElem?_eq_getElem hc',
      Option.getD_some, currentSteps]
    have e : ((p.tracks.length : Int) + 1 - 1).toNat = p.tracks.length := by omega
    rw [e]
    simp

theorem duplicateTrack_spec_witness :
    ∃ (t : List Step) (r : Int),
      oneActive.tracks.get? oneActive.currentTrack.toNat = some t ∧
      oneActive.trackRepeat.get? oneActive.currentTrack.toNat = some r ∧
      (duplicateTrackButtonOnClick oneActive).tracks = oneActive.tracks ++ [t] ∧
      (duplicateTrackButtonOnClick oneActive).trackRepeat = oneActive.trackRepeat ++ [r] ∧
      (duplicateTrackButtonOnClick oneActive).trackEnabled = oneActive.trackEnabled ++ [true] ∧
      (duplicateTrackButtonOnClick oneActive).currentTrack = (oneActive.tracks.length : Int) ∧
      (duplicateTrackButtonOnClick oneActive).currentTrack
        = ((duplicateTrackButtonOnClick oneActive).tracks.length : Int) - 1 ∧
      currentSteps (duplicateTrackButtonOnClick oneActive) = t :=
  duplicateTrack_spec oneActive (by decide) (by decide) (by decide)

/-- C14 (as stated) fails: the copy of a disabled track is enabled. With the single track of
a new processor switched off, the duplicate has the flag `true` while track 0 has `false`. -/
theorem duplicateTrack_enabled_counterexample :
    (0 : Int) ≤ (disabledTrack).currentTrack ∧
      (disabledTrack).currentTrack < ((disabledTrack).tracks.length : Int) ∧
      (disabledTrack).trackEnabled.get? 0 = some false ∧
      (duplicateTrackButtonOnClick disabledTrack).trackEnabled.get? 1 = some true ∧
      (duplicateTrackButtonOnClick disabledTrack).trackEnabled.get? 1
        ≠ (disabledTrack).trackEnabled.get? 0 := by
  decide

/-! ## `switchToTrack` -/

/-- C15 (as amended): `switchToTrack(index)` with `index` out of range or equal to
`currentTrack` leaves the whole state unchanged; otherwise afterwards `currentTrack = index`,
`steps` points at track `index`, `currentStepIndex = 0`, and every other member, the track
data and `barsPlayedOnCurrentTrack` included, has the value it had. -/
theorem switchToTrack_spec (p : Processor) (index : Int) :
    (index < 0 ∨ index ≥ (p.tracks.length : Int) ∨ index = p.currentTrack →
      switchToTrack p index = p) ∧
    (0 ≤ index → index < (p.tracks.length : Int) → index ≠ p.currentTrack →
      (switchToTrack p index).currentTrack = index ∧
      (switchToTrack p index).currentStepIndex = 0 ∧
      currentSteps (switchToTrack p index) = p.tracks.getD index.toNat [] ∧
      (switchToTrack p index).barsPlayedOnCurrentTrack = p.barsPlayedOnCurrentTrack ∧
      (switchToTrack p index).tracks = p.tracks ∧
      (switchToTrack p index).trackRepeat = p.trackRepeat ∧
      (switchToTrack p index).trackEnabled = p.trackEnabled ∧
      switchToTrack p index
        = { p with currentTrack := index, steps := index.toNat, currentStepIndex := 0 }) := by
  constructor
  · intro h
    unfold switchToTrack getNumTracks
    rw [if_neg]
    omega
  · intro h0 h1 h2
    have hg : index ≥ 0 ∧ index < getNumTracks p ∧ index ≠ p.currentTrack := ⟨h0, h1, h2⟩
    simp [switchToTrack, hg, currentSteps]

theorem switchToTrack_spec_witness :
    switchToTrack twoTracks 5 = twoTracks ∧
      (switchToTrack twoTracks 1).currentTrack = 1 ∧
      (switchToTrack twoTracks 1).currentStepIndex = 0 ∧
      (switchToTrack twoTracks 1).barsPlayedOnCurrentTrack = twoTracks.barsPlayedOnCurrentTrack :=
  ⟨(switchToTrack_spec twoTracks 5).1 (by decide),
    ((switchToTrack_spec twoTracks 1).2 (by decide) (by decide) (by decide)).1,
    ((switchToTrack_spec twoTracks 1).2 (by decide) (by decide) (by decide)).2.1,
    ((switchToTrack_spec twoTracks 1).2 (by decide) (by decide) (by decide)).2.2.2.1⟩

/-- C15 (as stated) fails: `switchToTrack` does not write `barsPlayedOnCurrentTrack`. With
two tracks, track 0 current and one pass already counted, `switchToTrack(1)` switches and
leaves the count at 1. -/
theorem switchToTrack_bars_counterexample :
    (0 : Int) ≤ 1 ∧ (1 : Int) < (twoTracks.tracks.length : Int) ∧
      (1 : Int) ≠ twoTracks.currentTrack ∧
      (switchToTrack twoTracks 1).currentTrack = 1 ∧
      (switchToTrack twoTracks 1).barsPlayedOnCurrentTrack = 1 ∧
      (switchToTrack twoTracks 1).barsPlayedOnCurrentTrack ≠ 0 := by
  decide

/-! ## What one pass through the loop body leaves alone -/

theorem handleNoteOffs_frame (p : Processor) :
    ∃ (g ln : Int), (handleNoteOffs p).1
      = { p with samplesRemainingForGate := g, lastNote := ln } := by
  unfold handleNoteOffs
  split_ifs with h1
  · dsimp only
    split_ifs <;> exact ⟨_, _, rfl⟩
  · exact ⟨_, _, rfl⟩

theorem switchToTrack_frame (p : Processor) (i : Int) :
    ∃ (ct : Int) (st : Nat) (csi : Int), switchToTrack p i
      = { p with currentTrack := ct, steps := st, currentStepIndex := csi } := by
  unfold switchToTrack
  split_ifs <;> exact ⟨_, _, _, rfl⟩

theorem findNextTrack_frame (p : Processor) (numTracks : Int) (fuel : Nat) (next : Int) :
    ∃ (ct : Int) (st : Nat) (csi : Int), findNextTrack p numTracks fuel next
      = { p with currentTrack := ct, steps := st, currentStepIndex := csi } := by
  induction fuel generalizing next with
  | zero => exact ⟨_, _, _, rfl⟩
  | succ fuel ih =>
    unfold findNextTrack
    simp only
    split_ifs
    · exact switchToTrack_frame p _
    · exact ih _

theorem advanceStep_frame (p : Processor) :
    ∃ (ct : Int) (st : Nat) (csi bars : Int), advanceStep p
      = { p with currentTrack := ct, steps := st, currentStepIndex := csi,
                 barsPlayedOnCurrentTrack := bars } := by
  unfold advanceStep
  simp only
  split_ifs
  · obtain ⟨ct, st, csi, h⟩ := findNextTrack_frame
      { p with barsPlayedOnCurrentTrack := 0 }
      (getNumTracks { p with barsPlayedOnCurrentTrack := 0 })
      (getNumTracks { p with barsPlayedOnCurrentTrack := 0 }).toNat p.currentTrack
    exact ⟨ct, st, 0, 0, by rw [h]⟩
  · exact ⟨_, _, _, _, rfl⟩
  · exact ⟨_, _, _, _, rfl⟩

theorem triggerNewNote_frame (stepLength u : ℚ) (p : Processor) :
    ∃ (g ln : Int), (triggerNewNote stepLength u p).1
      = { p with samplesRemainingForGate := g, lastNote := ln } := by
  unfold triggerNewNote
  cases stepAt p with
  | none => exact ⟨_, _, rfl⟩
  | some s =>
    simp only [triggerStep]
    split_ifs <;> exact ⟨_, _, rfl⟩

theorem processSample_frame (stepLength u : ℚ) (p : Processor) :
    ∃ (ct : Int) (st : Nat) (csi bars : Int) (acc : ℚ) (ln g : Int),
      (processSample stepLength u p).1
        = { p with currentTrack := ct, steps := st, currentStepIndex := csi,
                   barsPlayedOnCurrentTrack := bars, accumulatedSamples := acc,
                   lastNote := ln, samplesRemainingForGate := g } := by
  obtain ⟨g0, ln0, hoff⟩ := handleNoteOffs_frame p
  unfold processSample
  simp only
  split_ifs
  · obtain ⟨ct, st, csi, bars, hadv⟩ := advanceStep_frame
      { (handleNoteOffs p).1 with
        accumulatedSamples := (handleNoteOffs p).1.accumulatedSamples + 1 - stepLength }
    obtain ⟨g, ln, htr⟩ := triggerNewNote_frame stepLength u (advanceStep
      { (handleNoteOffs p).1 with
        accumulatedSamples := (handleNoteOffs p).1.accumulatedSamples + 1 - stepLength })
    refine ⟨ct, st, csi, bars, p.accumulatedSamples + 1 - stepLength, ln, g, ?_⟩
    rw [htr, hadv, hoff]
  · refine ⟨p.currentTrack, p.steps, p.currentStepIndex, p.barsPlayedOnCurrentTrack,
      p.accumulatedSamples + 1, ln0, g0, ?_⟩
    rw [hoff]

theorem handleNoteOffs_accumulatedSamples (p : Processor) :
    (handleNoteOffs p).1.accumulatedSamples = p.accumulatedSamples := by
  obtain ⟨g, ln, h⟩ := handleNoteOffs_frame p
  rw [h]

theorem advances_handleNoteOffs (stepLength : ℚ) (p : Processor) :
    advances stepLength (handleNoteOffs p).1 = advances stepLength p := by
  unfold advances
  rw [handleNoteOffs_accumulatedSamples]

/-- The accumulator after one pass: one sample is added, and the step length is taken off
when the pass advances the step. -/
theorem processSample_accumulatedSamples (stepLength u : ℚ) (p : Processor) :
    (processSample stepLength u p).1.accumulatedSamples
      = if advances stepLength p = true then p.accumulatedSamples + 1 - stepLength
        else p.accumulatedSamples + 1 := by
  unfold processSample
  simp only [advances_handleNoteOffs]
  split_ifs
  · obtain ⟨g, ln, htr⟩ := triggerNewNote_frame stepLength u (advanceStep
      { (handleNoteOffs p).1 with
        accumulatedSamples := (handleNoteOffs p).1.accumulatedSamples + 1 - stepLength })
    obtain ⟨ct, st, csi, bars, hadv⟩ := advanceStep_frame
      { (handleNoteOffs p).1 with
        accumulatedSamples := (handleNoteOffs p).1.accumulatedSamples + 1 - stepLength }
    rw [htr, hadv]
    exact congrArg (fun x => x + 1 - stepLength) (handleNoteOffs_accumulatedSamples p)
  · exact congrArg (fun x => x + 1) (handleNoteOffs_accumulatedSamples p)

theorem runSamples_zero (stepLength : ℚ) (random : Nat → ℚ) (p : Processor) :
    runSamples stepLength random p 0 = p := rfl

theorem runSamples_succ (stepLength : ℚ) (random : Nat → ℚ) (p : Processor) (n : Nat) :
    runSamples stepLength random p (n + 1)
      = (processSample stepLength (random n) (runSamples stepLength random p n)).1 := rfl

/-! ## The step length -/

theorem rateMult_eq_spec (rateIndex : Int) (h0 : 0 ≤ rateIndex) (h3 : rateIndex ≤ 3) :
    rateMult rateIndex = specRateMultiplier rateIndex := by
  have t0 : Int.toNat 0 = 0 := rfl
  have t1 : Int.toNat 1 = 1 := rfl
  have t2 : Int.toNat 2 = 2 := rfl
  have t3 : Int.toNat 3 = 3 := rfl
  interval_cases rateIndex <;> norm_num [rateMult, specRateMultiplier, t0, t1, t2, t3]

theorem samplesPerStep_ge (sampleRate currentBPM : ℚ) (rateIndex : Int) :
    32 ≤ samplesPerStep sampleRate currentBPM rateIndex := by
  unfold samplesPerStep
  simp only
  split_ifs with h
  · exact le_refl 32
  · exact not_lt.mp h

theorem updateTimeSignature_frame (p : Processor) (h : HostBlock) :
    ∃ (a b : Int), updateTimeSignature p h
      = { p with timeSignatureNumerator := a, timeSignatureDenominator := b } := by
  unfold updateTimeSignature
  split
  · split
    · exact ⟨_, _, rfl⟩
    · exact ⟨_, _, rfl⟩
  · exact ⟨_, _, rfl⟩

/-- In a block the host reports as playing, `processBlock` is the sample loop run with the
step length `blockStepLength`. -/
theorem processBlock_playing (p : Processor) (h : HostBlock) (h1 : h.hasPlayHead = true)
    (h2 : hostIsPlaying h = true) :
    processBlock p h
      = playLoop (blockStepLength p h) h.random
          { updateTimeSignature p h with isPlaying := true,
                                         currentBPM := effectiveBPM (hostBPM h) }
          h.numSamples.toNat := by
  obtain ⟨a, b, hts⟩ := updateTimeSignature_frame p h
  unfold processBlock blockStepLength
  simp only [h1, h2, Bool.true_eq_false, if_false]
  rw [hts]

/-- C17: the step length `processBlock` uses is `max(32, (sampleRate * 60 / bpm) * m)`, with
`bpm` the host tempo when positive and 120 otherwise and `m` = 1, 1/2, 1/4, 1/8 for
`rateIndex` 0, 1, 2, 3; it is at least 32 for every sample rate, tempo and rate index. -/
theorem blockStepLength_spec (p : Processor) (h : HostBlock) :
    (h.hasPlayHead = true → hostIsPlaying h = true →
      processBlock p h
        = playLoop (blockStepLength p h) h.random
            { updateTimeSignature p h with isPlaying := true,
                                           currentBPM := effectiveBPM (hostBPM h) }
            h.numSamples.toNat) ∧
    (0 ≤ p.apvts.rate → p.apvts.rate ≤ 3 →
      blockStepLength p h = specStepLength p.sampleRate (hostBPM h) p.apvts.rate) ∧
    32 ≤ blockStepLength p h := by
  refine ⟨processBlock_playing p h, fun h0 h3 => ?_, samplesPerStep_ge _ _ _⟩
  have hmax : ∀ raw : ℚ, (if raw < 32 then (32 : ℚ) else raw) = max 32 raw := by
    intro raw
    split_ifs with hlt
    · exact (max_eq_left (le_of_lt hlt)).symm
    · exact (max_eq_right (not_lt.mp hlt)).symm
  unfold blockStepLength samplesPerStep specStepLength effectiveBPM
  simp only [hmax, rateMult_eq_spec _ h0 h3, gt_iff_lt]

/-! ## The accumulator -/

theorem advanceCount_succ (stepLength : ℚ) (random : Nat → ℚ) (p : Processor) (n : Nat) :
    advanceCount stepLength random p (n + 1)
      = advanceCount stepLength random p n
        + (if advances stepLength (runSamples stepLength random p n) = true then 1 else 0) :=
  rfl

/-- With a step length of at least 1 and the accumulator started in `[0, stepLength)`, the
accumulator stays in that interval and equals the start value plus the samples processed
minus one step length for every advance. -/
theorem accumulator_invariant (stepLength : ℚ) (random : Nat → ℚ) (p : Processor)
    (hP : 1 ≤ stepLength) (h0 : 0 ≤ p.accumulatedSamples)
    (h1 : p.accumulatedSamples < stepLength) (n : Nat) :
    (runSamples stepLength random p n).accumulatedSamples
        = p.accumulatedSamples + n - (advanceCount stepLength random p n : ℚ) * stepLength ∧
      0 ≤ (runSamples stepLength random p n).accumulatedSamples ∧
      (runSamples stepLength random p n).accumulatedSamples < stepLength := by
  induction n with
  | zero => simp [runSamples_zero, advanceCount, h0, h1]
  | succ n ih =>
    obtain ⟨e, lo, hi⟩ := ih
    rw [runSamples_succ, processSample_accumulatedSamples, advanceCount_succ]
    by_cases ha : advances stepLength (runSamples stepLength random p n) = true
    · have hge : (runSamples stepLength random p n).accumulatedSamples + 1 ≥ stepLength := by
        simpa [advances] using ha
      rw [if_pos ha, if_pos ha]
      refine ⟨?_, by linarith, by linarith⟩
      rw [e]
      push_cast
      ring
    · have hlt : (runSamples stepLength random p n).accumulatedSamples + 1 < stepLength := by
        simpa [advances] using ha
      rw [if_neg ha, if_neg ha]
      refine ⟨?_, by linarith, hlt⟩
      rw [e]
      push_cast
      ring

theorem advanceCount_eq_floor (stepLength : ℚ) (random : Nat → ℚ) (p : Processor)
    (hP : 32 ≤ stepLength) (h0 : p.accumulatedSamples = 0) (n : Nat) :
    (advanceCount stepLength random p n : Int) = ⌊(n : ℚ) / stepLength⌋ := by
  have hpos : (0 : ℚ) < stepLength := by linarith
  obtain ⟨e, lo, hi⟩ := accumulator_invariant stepLength random p (by linarith)
    (by rw [h0]) (by rw [h0]; exact hpos) n
  rw [h0, zero_add] at e
  symm
  rw [Int.floor_eq_iff]
  constructor
  · rw [le_div_iff₀ hpos]
    push_cast
    linarith
  · rw [div_lt_iff₀ hpos]
    push_cast
    linarith

theorem samplesPerStep_scenario : samplesPerStep 44100 120 2 = 11025 / 2 := by
  norm_num [samplesPerStep, rateMult]

/-- C16: with a constant step length `P ≥ 32` and the accumulator started at 0, after `n`
processed samples the number of step advances is `⌊n / P⌋` and the accumulator is
`n - ⌊n / P⌋ * P`, in `[0, P)`. For sample rate 44100, tempo 120 and rate index 2
(`P = 5512.5`) 159 advances have been made after 881999 samples and 160 after 882000: the
160th advance is made by the 882000th sample. -/
theorem accumulator_drift_free (stepLength : ℚ) (random : Nat → ℚ) (p : Processor)
    (hP : 32 ≤ stepLength) (h0 : p.accumulatedSamples = 0) (n : Nat) :
    (advanceCount stepLength random p n : Int) = ⌊(n : ℚ) / stepLength⌋ ∧
      (runSamples stepLength random p n).accumulatedSamples
        = n - (⌊(n : ℚ) / stepLength⌋ : ℚ) * stepLength ∧
      0 ≤ (runSamples stepLength random p n).accumulatedSamples ∧
      (runSamples stepLength random p n).accumulatedSamples < stepLength ∧
      samplesPerStep 44100 120 2 = 5512 + 1 / 2 ∧
      advanceCount (samplesPerStep 44100 120 2) random p 881999 = 159 ∧
      advanceCount (samplesPerStep 44100 120 2) random p 882000 = 160 := by
  have hpos : (0 : ℚ) < stepLength := by linarith
  have hcount := advanceCount_eq_floor stepLength random p hP h0 n
  obtain ⟨e, lo, hi⟩ := accumulator_invariant stepLength random p (by linarith)
    (by rw [h0]) (by rw [h0]; exact hpos) n
  refine ⟨hcount, ?_, lo, hi, ?_, ?_, ?_⟩
  · rw [e, h0, zero_add, ← hcount]
    push_cast
    rfl
  · rw [samplesPerStep_scenario]
    norm_num
  · have h := advanceCount_eq_floor (samplesPerStep 44100 120 2) random p
      (samplesPerStep_ge _ _ _) h0 881999
    rw [samplesPerStep_scenario] at h ⊢
    have hf : ⌊((881999 : Nat) : ℚ) / (11025 / 2)⌋ = 159 := by
      rw [Int.floor_eq_iff]
      norm_num
    rw [hf] at h
    exact_mod_cast h
  · have h := advanceCount_eq_floor (samplesPerStep 44100 120 2) random p
      (samplesPerStep_ge _ _ _) h0 882000
    rw [samplesPerStep_scenario] at h ⊢
    have hf : ⌊((882000 : Nat) : ℚ) / (11025 / 2)⌋ = 160 := by
      rw [Int.floor_eq_iff]
      norm_num
    rw [hf] at h
    exact_mod_cast h

theorem accumulator_drift_free_witness :
    (advanceCount (11025 / 2) (fun _ => 0) (prepareToPlay initial 44100) 88200 : Int)
        = ⌊((88200 : Nat) : ℚ) / (11025 / 2)⌋ ∧
      (runSamples (11025 / 2) (fun _ => 0) (prepareToPlay initial 44100) 88200).accumulatedSamples
        = (88200 : Nat) - (⌊((88200 : Nat) : ℚ) / (11025 / 2)⌋ : ℚ) * (11025 / 2) ∧
      0 ≤ (runSamples (11025 / 2) (fun _ => 0)
            (prepareToPlay initial 44100) 88200).accumulatedSamples ∧
      (runSamples (11025 / 2) (fun _ => 0) (prepareToPlay initial 44100) 88200).accumulatedSamples
        < 11025 / 2 ∧
      samplesPerStep 44100 120 2 = 5512 + 1 / 2 ∧
      advanceCount (samplesPerStep 44100 120 2) (fun _ => 0) (prepareToPlay initial 44100) 881999
        = 159 ∧
      advanceCount (samplesPerStep 44100 120 2) (fun _ => 0) (prepareToPlay initial 44100) 882000
        = 160 :=
  accumulator_drift_free (11025 / 2) (fun _ => 0) (prepareToPlay initial 44100)
    (by norm_num) rfl 88200

/-! ## Stopping the transport -/

theorem playLoop_isPlaying (stepLength : ℚ) (random : Nat → ℚ) (p : Processor) (n : Nat) :
    (playLoop stepLength random p n).1.isPlaying = p.isPlaying := by
  induction n with
  | zero => rfl
  | succ n ih =>
    obtain ⟨ct, st, csi, bars, acc, ln, g, h⟩ :=
      processSample_frame stepLength (random n) (playLoop stepLength random p n).1
    have e : (playLoop stepLength random p (n + 1)).1
        = (processSample stepLength (random n) (playLoop stepLength random p n).1).1 := rfl
    rw [e, h]
    exact ih

theorem processBlock_playing_isPlaying (p : Processor) (h : HostBlock)
    (h1 : h.hasPlayHead = true) (h2 : hostIsPlaying h = true) :
    (processBlock p h).1.isPlaying = true := by
  rw [processBlock_playing p h h1 h2, playLoop_isPlaying]

theorem sameEngineState_refl (p : Processor) : SameEngineState p p := by
  unfold SameEngineState
  rfl

theorem sameEngineState_trans (a b c : Processor) (hab : SameEngineState a b)
    (hbc : SameEngineState b c) : SameEngineState a c := by
  unfold SameEngineState at *
  rw [hab, hbc]

theorem sameEngineState_isPlaying (a b : Processor) (hab : SameEngineState a b) :
    a.isPlaying = b.isPlaying := by
  unfold SameEngineState at hab
  rw [hab]

/-- A block without a play head, or in which the host reports not playing, processed while
the member `isPlaying` is `false`: no event is added and only the time signature can
change. -/
theorem processBlock_idle (p : Processor) (h : HostBlock)
    (hh : h.hasPlayHead = false ∨ hostIsPlaying h = false) (hp : p.isPlaying = false) :
    (processBlock p h).2 = [] ∧ SameEngineState (processBlock p h).1 p := by
  obtain ⟨a, b, hts⟩ := updateTimeSignature_frame p h
  unfold processBlock
  by_cases h1 : h.hasPlayHead = false
  · rw [if_pos h1]
    exact ⟨rfl, sameEngineState_refl p⟩
  · have h2 : hostIsPlaying h = false := hh.resolve_left h1
    have h3 : (updateTimeSignature p h).isPlaying = false := by rw [hts]; exact hp
    rw [if_neg h1]
    simp only [h2, h3, if_true, Bool.false_eq_true, if_false]
    refine ⟨trivial, ?_⟩
    unfold SameEngineState
    rw [hts]

theorem runBlocks_idle (p : Processor) (blocks : List HostBlock)
    (hb : ∀ h ∈ blocks, h.hasPlayHead = false ∨ hostIsPlaying h = false)
    (hp : p.isPlaying = false) :
    SameEngineState (runBlocks p blocks) p := by
  induction blocks generalizing p with
  | nil => exact sameEngineState_refl p
  | cons h rest ih =>
    have hstep := processBlock_idle p h (hb h (List.mem_cons_self h rest)) hp
    have hplay : (processBlock p h).1.isPlaying = false := by
      rw [sameEngineState_isPlaying _ _ hstep.2]; exact hp
    have hrest := ih (processBlock p h).1
      (fun x hx => hb x (List.mem_cons_of_mem h hx)) hplay
    exact sameEngineState_trans _ _ _ hrest hstep.2

/-- The block in which the host first reports not playing: All Notes Off is added at offset
0, `isPlaying` is cleared, and the gate countdown and the accumulator are set to 0. -/
theorem processBlock_stop (p : Processor) (h : HostBlock) (h3 : h.hasPlayHead = true)
    (h4 : hostIsPlaying h = false) (hp : p.isPlaying = true) :
    processBlock p h
      = ({ updateTimeSignature p h with
             isPlaying := false, samplesRemainingForGate := 0, accumulatedSamples := 0 },
          [{ message := MidiMessage.allNotesOff 1, sampleOffset := 0 }]) := by
  obtain ⟨a, b, hts⟩ := updateTimeSignature_frame p h
  have hts' : (updateTimeSignature p h).isPlaying = true := by
    rw [hts]; exact hp
  unfold processBlock
  simp only [h3, h4, hts', Bool.true_eq_false, if_false, if_true]

/-- C20: after a block in which the host reported playing, the first block in which it
reports not playing adds exactly one event, All Notes Off at offset 0; after it, every block
in which the host still does not report playing (or has no play head) adds no event and
leaves every member of the processor other than the time signature as the stopping block
left it. -/
theorem stop_emits_all_notes_off_once (p : Processor) (hPlay hStop : HostBlock)
    (rest : List HostBlock) (hNext : HostBlock)
    (h1 : hPlay.hasPlayHead = true) (h2 : hostIsPlaying hPlay = true)
    (h3 : hStop.hasPlayHead = true) (h4 : hostIsPlaying hStop = false)
    (h5 : ∀ h ∈ rest, h.hasPlayHead = false ∨ hostIsPlaying h = false)
    (h6 : hNext.hasPlayHead = false ∨ hostIsPlaying hNext = false) :
    (processBlock (processBlock p hPlay).1 hStop).2
        = [{ message := MidiMessage.allNotesOff 1, sampleOffset := 0 }] ∧
      (processBlock (processBlock p hPlay).1 hStop).1.isPlaying = false ∧
      (processBlock (runBlocks (processBlock (processBlock p hPlay).1 hStop).1 rest) hNext).2
        = [] ∧
      SameEngineState
        (processBlock (runBlocks (processBlock (processBlock p hPlay).1 hStop).1 rest) hNext).1
        (processBlock (processBlock p hPlay).1 hStop).1 := by
  have hplaying := processBlock_playing_isPlaying p hPlay h1 h2
  have hstop := processBlock_stop (processBlock p hPlay).1 hStop h3 h4 hplaying
  have hoff : (processBlock (processBlock p hPlay).1 hStop).1.isPlaying = false := by
    rw [hstop]
  have hrest := runBlocks_idle _ rest h5 hoff
  have hrestPlay : (runBlocks (processBlock (processBlock p hPlay).1 hStop).1 rest).isPlaying
      = false := by
    rw [sameEngineState_isPlaying _ _ hrest]; exact hoff
  have hnext := processBlock_idle _ hNext h6 hrestPlay
  refine ⟨by rw [hstop], hoff, hnext.1, sameEngineState_trans _ _ _ hnext.2 hrest⟩

theorem stop_emits_all_notes_off_once_witness :
    (processBlock (processBlock initial playingBlock).1 stoppedBlock).2
        = [{ message := MidiMessage.allNotesOff 1, sampleOffset := 0 }] ∧
      (processBlock (processBlock initial playingBlock).1 stoppedBlock).1.isPlaying = false ∧
      (processBlock (runBlocks (processBlock (processBlock initial playingBlock).1
          stoppedBlock).1 [stoppedBlock, stoppedBlock]) stoppedBlock).2 = [] ∧
      SameEngineState
        (processBlock (runBlocks (processBlock (processBlock initial playingBlock).1
          stoppedBlock).1 [stoppedBlock, stoppedBlock]) stoppedBlock).1
        (processBlock (processBlock initial playingBlock).1 stoppedBlock).1 :=
  stop_emits_all_notes_off_once initial playingBlock stoppedBlock
    [stoppedBlock, stoppedBlock] stoppedBlock rfl rfl rfl rfl
    (by intro h hh; simp at hh; subst hh; exact Or.inr rfl)
    (Or.inr rfl)

/-! ## Passes through a track and the switch to the next enabled track -/

theorem readEnabled_of_get? (p : Processor) (i : Nat) (b : Bool)
    (h : p.trackEnabled.get? i = some b) : readEnabled p (i : Int) = b := by
  unfold readEnabled
  rw [if_pos (Int.natCast_nonneg i), Int.toNat_natCast, List.getD_eq_getElem?_getD,
    ← List.get?_eq_getElem?, h]
  rfl

theorem readRepeat_of_get? (p : Processor) (i : Nat) (r : Int)
    (h : p.trackRepeat.get? i = some r) : readRepeat p (i : Int) = r := by
  unfold readRepeat
  rw [if_pos (Int.natCast_nonneg i), Int.toNat_natCast, List.getD_eq_getElem?_getD,
    ← List.get?_eq_getElem?, h]
  rfl

/-- The search started after track `i` stops at the first enabled track `j` behind it. -/
theorem findNextTrack_finds (p : Processor) (numTracks : Int) (j : Nat) (hjT : (j : Int) < numTracks)
    (hje : readEnabled p (j : Int) = true) (fuel : Nat) :
    ∀ i : Nat, i < j → j - i ≤ fuel →
      (∀ m : Nat, i < m → m < j → readEnabled p (m : Int) = false) →
      findNextTrack p numTracks fuel (i : Int) = switchToTrack p (j : Int) := by
  induction fuel with
  | zero =>
    intro i hij hfuel _
    omega
  | succ fuel ih =>
    intro i hij hfuel hskip
    have hnext : ((i : Int) + 1).tmod numTracks = ((i + 1 : Nat) : Int) := by
      rw [Int.tmod_eq_of_lt (by omega) (by omega)]
      push_cast
      rfl
    unfold findNextTrack
    simp only [hnext]
    by_cases hlast : i + 1 = j
    · rw [hlast, if_pos hje]
    · rw [if_neg (by rw [hskip (i + 1) (by omega) (by omega)]; exact Bool.false_ne_true)]
      exact ih (i + 1) (by omega) (by omega) (fun m hm1 hm2 => hskip m (by omega) hm2)

theorem advanceStep_of_lt (x : Processor) (h : x.currentStepIndex < x.apvts.numSteps - 1) :
    advanceStep x = { x with currentStepIndex := x.currentStepIndex + 1 } := by
  unfold advanceStep
  simp only
  rw [if_neg (by omega)]

theorem advanceStep_of_wrap (x : Processor) (h : x.currentStepIndex ≥ x.apvts.numSteps - 1)
    (hr : x.barsPlayedOnCurrentTrack + 1 < readRepeat x x.currentTrack) :
    advanceStep x
      = { x with barsPlayedOnCurrentTrack := x.barsPlayedOnCurrentTrack + 1,
                 currentStepIndex := 0 } := by
  have hr' : ¬ (x.barsPlayedOnCurrentTrack + 1
      ≥ readRepeat { x with barsPlayedOnCurrentTrack := x.barsPlayedOnCurrentTrack + 1 }
          x.currentTrack) := by
    have e : readRepeat { x with barsPlayedOnCurrentTrack := x.barsPlayedOnCurrentTrack + 1 }
        x.currentTrack = readRepeat x x.currentTrack := rfl
    rw [e]
    omega
  unfold advanceStep
  simp only
  rw [if_pos h, if_neg hr']

theorem advanceStep_of_switch (x : Processor) (j : Nat)
    (h : x.currentStepIndex ≥ x.apvts.numSteps - 1)
    (hr : x.barsPlayedOnCurrentTrack + 1 ≥ readRepeat x x.currentTrack)
    (hct : x.currentTrack = 0) (hj1 : 1 ≤ j) (hjT : j < x.tracks.length)
    (hje : x.trackEnabled.get? j = some true)
    (hskip : ∀ i : Nat, i < j → 1 ≤ i → x.trackEnabled.get? i = some false) :
    advanceStep x
      = { x with barsPlayedOnCurrentTrack := 0, currentTrack := (j : Int), steps := j,
                 currentStepIndex := 0 } := by
  have hr' : x.barsPlayedOnCurrentTrack + 1
      ≥ readRepeat { x with barsPlayedOnCurrentTrack := x.barsPlayedOnCurrentTrack + 1 }
          x.currentTrack := hr
  have hfind := findNextTrack_finds { x with barsPlayedOnCurrentTrack := 0 }
    (getNumTracks { x with barsPlayedOnCurrentTrack := 0 }) j
    (by unfold getNumTracks; exact_mod_cast hjT)
    (readEnabled_of_get? _ j true hje)
    (getNumTracks { x with barsPlayedOnCurrentTrack := 0 }).toNat 0 (by omega)
    (by unfold getNumTracks; simp only [Int.toNat_natCast]; omega)
    (fun m hm1 hm2 => readEnabled_of_get? _ m false (hskip m hm2 (by omega)))
  have hsw : switchToTrack { x with barsPlayedOnCurrentTrack := 0 } (j : Int)
      = { x with barsPlayedOnCurrentTrack := 0, currentTrack := (j : Int), steps := j,
                 currentStepIndex := 0 } := by
    unfold switchToTrack getNumTracks
    rw [if_pos ⟨by omega, by exact_mod_cast hjT, by rw [hct]; omega⟩, Int.toNat_natCast]
  unfold advanceStep
  simp only
  rw [if_pos h, if_pos hr']
  have hct' : ((0 : Nat) : Int) = x.currentTrack := by rw [hct]; rfl
  rw [hct'] at hfind
  rw [hfind, hsw]

theorem processSample_of_not_advances (stepLength u : ℚ) (q : Processor)
    (h : advances stepLength q = false) :
    ∃ (acc : ℚ) (ln g : Int), (processSample stepLength u q).1
      = { q with accumulatedSamples := acc, lastNote := ln, samplesRemainingForGate := g } := by
  obtain ⟨g0, ln0, hoff⟩ := handleNoteOffs_frame q
  unfold processSample
  simp only [advances_handleNoteOffs, h, Bool.false_eq_true, if_false]
  refine ⟨q.accumulatedSamples + 1, ln0, g0, ?_⟩
  rw [hoff]

theorem processSample_of_advances (stepLength u : ℚ) (q : Processor)
    (h : advances stepLength q = true) :
    ∃ (acc : ℚ) (ln g ln' g' : Int), (processSample stepLength u q).1
      = { advanceStep
            { q with accumulatedSamples := acc, lastNote := ln, samplesRemainingForGate := g }
          with lastNote := ln', samplesRemainingForGate := g' } := by
  obtain ⟨g0, ln0, hoff⟩ := handleNoteOffs_frame q
  unfold processSample
  simp only [advances_handleNoteOffs, h, if_true]
  obtain ⟨g, ln, htr⟩ := triggerNewNote_frame stepLength u (advanceStep
    { (handleNoteOffs q).1 with
      accumulatedSamples := (handleNoteOffs q).1.accumulatedSamples + 1 - stepLength })
  refine ⟨q.accumulatedSamples + 1 - stepLength, ln0, g0, ln, g, ?_⟩
  rw [htr, hoff]

/-- The invariant behind C18. With `k` the number of advances made so far: the track data
and the parameters are as at the start, and either `k < r * numSteps`, the engine is on track
0 and has made `barsPlayedOnCurrentTrack` full passes plus `currentStepIndex` steps; or
`k = r * numSteps` and the engine has just switched to track `j`; or `k > r * numSteps`. -/
theorem track_switch_invariant (p : Processor) (r : Int) (j : Nat)
    (hct : p.currentTrack = 0) (hcsi : p.currentStepIndex = 0)
    (hbars : p.barsPlayedOnCurrentTrack = 0) (hN : 1 ≤ p.apvts.numSteps)
    (hr : p.trackRepeat.get? 0 = some r) (hr1 : 1 ≤ r)
    (hj1 : 1 ≤ j) (hjT : j < p.tracks.length) (hje : p.trackEnabled.get? j = some true)
    (hskip : ∀ i : Nat, i < j → 1 ≤ i → p.trackEnabled.get? i = some false)
    (stepLength : ℚ) (random : Nat → ℚ) (n : Nat) :
    (runSamples stepLength random p n).apvts = p.apvts ∧
      (runSamples stepLength random p n).tracks = p.tracks ∧
      (runSamples stepLength random p n).trackRepeat = p.trackRepeat ∧
      (runSamples stepLength random p n).trackEnabled = p.trackEnabled ∧
      (((advanceCount stepLength random p n : Int) < r * p.apvts.numSteps ∧
          (runSamples stepLength random p n).currentTrack = 0 ∧
          (advanceCount stepLength random p n : Int)
            = (runSamples stepLength random p n).barsPlayedOnCurrentTrack * p.apvts.numSteps
              + (runSamples stepLength random p n).currentStepIndex ∧
          0 ≤ (runSamples stepLength random p n).currentStepIndex ∧
          (runSamples stepLength random p n).currentStepIndex < p.apvts.numSteps ∧
          0 ≤ (runSamples stepLength random p n).barsPlayedOnCurrentTrack ∧
          (runSamples stepLength random p n).barsPlayedOnCurrentTrack < r) ∨
        ((advanceCount stepLength random p n : Int) = r * p.apvts.numSteps ∧
          (runSamples stepLength random p n).currentTrack = (j : Int) ∧
          (runSamples stepLength random p n).steps = j ∧
          (runSamples stepLength random p n).barsPlayedOnCurrentTrack = 0 ∧
          (runSamples stepLength random p n).currentStepIndex = 0) ∨
        r * p.apvts.numSteps < (advanceCount stepLength random p n : Int)) := by
  have hrN : 0 < r * p.apvts.numSteps := mul_pos (by omega) (by omega)
  induction n with
  | zero =>
    refine ⟨rfl, rfl, rfl, rfl, Or.inl ⟨?_, hct, ?_, ?_, ?_, ?_, ?_⟩⟩
    · show ((0 : Nat) : Int) < r * p.apvts.numSteps
      exact_mod_cast hrN
    · show ((0 : Nat) : Int)
        = p.barsPlayedOnCurrentTrack * p.apvts.numSteps + p.currentStepIndex
      rw [hbars, hcsi]
      simp
    · show 0 ≤ p.currentStepIndex
      omega
    · show p.currentStepIndex < p.apvts.numSteps
      omega
    · show 0 ≤ p.barsPlayedOnCurrentTrack
      omega
    · show p.barsPlayedOnCurrentTrack < r
      omega
  | succ n ih =>
    obtain ⟨hap, htr, hrep, hen, hcase⟩ := ih
    rw [runSamples_succ, advanceCount_succ]
    generalize runSamples stepLength random p n = q at hap htr hrep hen hcase ⊢
    generalize advanceCount stepLength random p n = k at hcase ⊢
    obtain ⟨ct0, st0, csi0, bars0, acc0, ln0, g0, hfr⟩ :=
      processSample_frame stepLength (random n) q
    refine ⟨by rw [hfr]; exact hap, by rw [hfr]; exact htr, by rw [hfr]; exact hrep,
      by rw [hfr]; exact hen, ?_⟩
    by_cases ha : advances stepLength q = true
    · obtain ⟨acc, ln, g, ln', g', hps⟩ :=
        processSample_of_advances stepLength (random n) q ha
      rw [hps, if_pos ha]
      push_cast
      rcases hcase with ⟨hlt, hqct, hk, hc0, hcN, hb0, hbr⟩ | ⟨hk, _⟩ | hgt
      · by_cases hmid : q.currentStepIndex < p.apvts.numSteps - 1
        · rw [advanceStep_of_lt
            { q with accumulatedSamples := acc, lastNote := ln, samplesRemainingForGate := g }
            (by rw [hap]; exact hmid)]
          have F : (q.barsPlayedOnCurrentTrack + 1) * p.apvts.numSteps
              ≤ r * p.apvts.numSteps :=
            mul_le_mul_of_nonneg_right (by omega) (by omega)
          refine Or.inl ⟨?_, hqct, ?_, ?_, ?_, hb0, hbr⟩
          · show (k : Int) + 1 < r * p.apvts.numSteps
            linarith
          · show (k : Int) + 1
              = q.barsPlayedOnCurrentTrack * p.apvts.numSteps + (q.currentStepIndex + 1)
            linarith
          · show 0 ≤ q.currentStepIndex + 1
            omega
          · show q.currentStepIndex + 1 < p.apvts.numSteps
            omega
        · have hlast : q.currentStepIndex = p.apvts.numSteps - 1 := by omega
          have hrd : readRepeat
              { q with accumulatedSamples := acc, lastNote := ln, samplesRemainingForGate := g }
              q.currentTrack = r := by
            rw [hqct]
            exact readRepeat_of_get? _ 0 r (by rw [← hr, ← hrep])
          by_cases hmore : q.barsPlayedOnCurrentTrack + 1 < r
          · rw [advanceStep_of_wrap
              { q with accumulatedSamples := acc, lastNote := ln, samplesRemainingForGate := g }
              (by rw [hap]; show q.currentStepIndex ≥ _; omega)
              (by rw [hrd]; exact hmore)]
            have F : (q.barsPlayedOnCurrentTrack + 2) * p.apvts.numSteps
                ≤ r * p.apvts.numSteps :=
              mul_le_mul_of_nonneg_right (by omega) (by omega)
            refine Or.inl ⟨?_, hqct, ?_, le_refl 0, ?_, ?_, hmore⟩
            · show (k : Int) + 1 < r * p.apvts.numSteps
              nlinarith
            · show (k : Int) + 1
                = (q.barsPlayedOnCurrentTrack + 1) * p.apvts.numSteps + 0
              nlinarith
            · show (0 : Int) < p.apvts.numSteps
              omega
            · show 0 ≤ q.barsPlayedOnCurrentTrack + 1
              omega
          · rw [advanceStep_of_switch
              { q with accumulatedSamples := acc, lastNote := ln, samplesRemainingForGate := g }
              j (by rw [hap]; show q.currentStepIndex ≥ _; omega)
              (by rw [hrd]; show q.barsPlayedOnCurrentTrack + 1 ≥ r; omega) hqct hj1
              (by rw [htr]; exact hjT) (by rw [hen]; exact hje)
              (by rw [hen]; exact hskip)]
            have hreq : r = q.barsPlayedOnCurrentTrack + 1 := by omega
            refine Or.inr (Or.inl ⟨?_, rfl, rfl, rfl, rfl⟩)
            show (k : Int) + 1 = r * p.apvts.numSteps
            rw [hreq]
            nlinarith
      · exact Or.inr (Or.inr (by omega))
      · exact Or.inr (Or.inr (by omega))
    · have ha' : advances stepLength q = false := by simpa using ha
      obtain ⟨acc, ln, g, hps⟩ := processSample_of_not_advances stepLength (random n) q ha'
      rw [hps, if_neg ha]
      simpa using hcase

/-- C18: from an engine on track 0 with `currentStepIndex = 0` and
`barsPlayedOnCurrentTrack = 0`, with `numSteps ≥ 1`, `trackRepeat[0] = r ≥ 1` and `j` the
first enabled track after track 0 (every track strictly between is disabled): as long as
fewer than `r * numSteps` step advances have been made the engine is on track 0, having made
`barsPlayedOnCurrentTrack` full passes and `currentStepIndex` further steps; and when
`r * numSteps` advances have been made it is on track `j`, with `steps` on that track,
`barsPlayedOnCurrentTrack = 0` and `currentStepIndex = 0`. -/
theorem plays_repeat_passes_then_switches (p : Processor) (r : Int) (j : Nat)
    (hct : p.currentTrack = 0) (hcsi : p.currentStepIndex = 0)
    (hbars : p.barsPlayedOnCurrentTrack = 0) (hN : 1 ≤ p.apvts.numSteps)
    (hr : p.trackRepeat.get? 0 = some r) (hr1 : 1 ≤ r)
    (hj1 : 1 ≤ j) (hjT : j < p.tracks.length) (hje : p.trackEnabled.get? j = some true)
    (hskip : ∀ i : Nat, i < j → 1 ≤ i → p.trackEnabled.get? i = some false)
    (stepLength : ℚ) (random : Nat → ℚ) (n : Nat) :
    ((advanceCount stepLength random p n : Int) < r * p.apvts.numSteps →
      (runSamples stepLength random p n).currentTrack = 0 ∧
      (advanceCount stepLength random p n : Int)
        = (runSamples stepLength random p n).barsPlayedOnCurrentTrack * p.apvts.numSteps
          + (runSamples stepLength random p n).currentStepIndex ∧
      0 ≤ (runSamples stepLength random p n).currentStepIndex ∧
      (runSamples stepLength random p n).currentStepIndex < p.apvts.numSteps) ∧
    ((advanceCount stepLength random p n : Int) = r * p.apvts.numSteps →
      (runSamples stepLength random p n).currentTrack = (j : Int) ∧
      currentSteps (runSamples stepLength random p n) = p.tracks.getD j [] ∧
      (runSamples stepLength random p n).barsPlayedOnCurrentTrack = 0 ∧
      (runSamples stepLength random p n).currentStepIndex = 0) := by
  obtain ⟨_, htr, _, _, hcase⟩ := track_switch_invariant p r j hct hcsi hbars hN hr hr1 hj1
    hjT hje hskip stepLength random n
  constructor
  · intro hlt
    rcases hcase with ⟨_, h1, h2, h3, h4, _, _⟩ | ⟨hk, _⟩ | hgt
    · exact ⟨h1, h2, h3, h4⟩
    · omega
    · omega
  · intro heq
    rcases hcase with ⟨hlt, _⟩ | ⟨_, h1, h2, h3, h4⟩ | hgt
    · omega
    · refine ⟨h1, ?_, h3, h4⟩
      unfold currentSteps
      rw [h2, htr]
    · omega

theorem plays_repeat_passes_then_switches_witness :
    (runSamples 32 (fun _ => 0) threeTracks 1023).currentTrack = 0 ∧
      (runSamples 32 (fun _ => 0) threeTracks 1024).currentTrack = 2 ∧
      (runSamples 32 (fun _ => 0) threeTracks 1024).barsPlayedOnCurrentTrack = 0 ∧
      (runSamples 32 (fun _ => 0) threeTracks 1024).currentStepIndex = 0 := by
  have c1 : (advanceCount 32 (fun _ => 0) threeTracks 1023 : Int) = 31 := by
    rw [advanceCount_eq_floor 32 (fun _ => 0) threeTracks (le_refl 32) rfl 1023,
      Int.floor_eq_iff]
    norm_num
  have c2 : (advanceCount 32 (fun _ => 0) threeTracks 1024 : Int) = 32 := by
    rw [advanceCount_eq_floor 32 (fun _ => 0) threeTracks (le_refl 32) rfl 1024,
      Int.floor_eq_iff]
    norm_num
  have hN : threeTracks.apvts.numSteps = 16 := rfl
  have w1 := (plays_repeat_passes_then_switches threeTracks 2 2 rfl rfl rfl (by decide) rfl
    (by decide) (by decide) (by decide) rfl (by decide) 32 (fun _ => 0) 1023).1
    (by rw [c1, hN]; decide)
  have w2 := (plays_repeat_passes_then_switches threeTracks 2 2 rfl rfl rfl (by decide) rfl
    (by decide) (by decide) (by decide) rfl (by decide) 32 (fun _ => 0) 1024).2
    (by rw [c2, hN]; decide)
  exact ⟨w1.1, w2.1, w2.2.2.1, w2.2.2.2⟩

/-! ## The gate countdown -/

theorem truncToLong_eq_floor (x : ℚ) (hx : 0 ≤ x) : truncToLong x = ⌊x⌋ := by
  unfold truncToLong
  rw [Rat.floor_def, Int.tdiv_eq_ediv (Rat.num_nonneg.mpr hx) (Int.natCast_nonneg _)]

theorem jlimit_range (v : Int) : 0 ≤ jlimit 0 127 v ∧ jlimit 0 127 v ≤ 127 := by
  unfold jlimit
  split_ifs <;> omega

theorem stepReached_of_advances (stepLength : ℚ) (q : Processor)
    (h : advances stepLength q = true) :
    stepReached stepLength q
      = stepAt (advanceStep
          { (handleNoteOffs q).1 with
            accumulatedSamples := (handleNoteOffs q).1.accumulatedSamples + 1 - stepLength }) := by
  unfold stepReached
  simp only [advances_handleNoteOffs, h, if_true]

theorem stepReached_of_not_advances (stepLength : ℚ) (q : Processor)
    (h : advances stepLength q = false) : stepReached stepLength q = none := by
  unfold stepReached
  simp only [advances_handleNoteOffs, h, Bool.false_eq_true, if_false]

/-- A pass that triggers nothing (it does not advance, or lands on a step that is tied or
inactive, or outside the vector): its messages and its note state are those of the
note-off part. -/
theorem processSample_quiet (stepLength u : ℚ) (q : Processor)
    (hq : ∀ s', stepReached stepLength q = some s' → s'.isTied = true ∨ s'.active = false) :
    (processSample stepLength u q).2 = (handleNoteOffs q).2 ∧
      (processSample stepLength u q).1.lastNote = (handleNoteOffs q).1.lastNote ∧
      (processSample stepLength u q).1.samplesRemainingForGate
        = (handleNoteOffs q).1.samplesRemainingForGate := by
  by_cases ha : advances stepLength q = true
  · have hsr := stepReached_of_advances stepLength q ha
    obtain ⟨ct, st, csi, bars, hadv⟩ := advanceStep_frame
      { (handleNoteOffs q).1 with
        accumulatedSamples := (handleNoteOffs q).1.accumulatedSamples + 1 - stepLength }
    have htrig : triggerNewNote stepLength u (advanceStep
        { (handleNoteOffs q).1 with
          accumulatedSamples := (handleNoteOffs q).1.accumulatedSamples + 1 - stepLength })
        = (advanceStep
            { (handleNoteOffs q).1 with
              accumulatedSamples := (handleNoteOffs q).1.accumulatedSamples + 1 - stepLength },
            []) := by
      unfold triggerNewNote
      rw [← hsr]
      cases hc : stepReached stepLength q with
      | none => rfl
      | some s' =>
        have hno : ¬ (s'.active = true ∧ s'.isTied = false ∧ u ≤ s'.prob) := by
          rintro ⟨h1, h2, _⟩
          rcases hq s' hc with h | h
          · rw [h] at h2; exact Bool.noConfusion h2
          · rw [h] at h1; exact Bool.noConfusion h1
        simp only [triggerStep, if_neg hno]
    have hps : processSample stepLength u q
        = (advanceStep
            { (handleNoteOffs q).1 with
              accumulatedSamples := (handleNoteOffs q).1.accumulatedSamples + 1 - stepLength },
            (handleNoteOffs q).2 ++ []) := by
      unfold processSample
      simp only [advances_handleNoteOffs, ha, if_true, htrig]
    rw [hps, hadv]
    exact ⟨List.append_nil _, rfl, rfl⟩
  · have ha' : advances stepLength q = false := by simpa using ha
    have hps : processSample stepLength u q
        = ({ (handleNoteOffs q).1 with
              accumulatedSamples := (handleNoteOffs q).1.accumulatedSamples + 1 },
            (handleNoteOffs q).2) := by
      unfold processSample
      simp only [advances_handleNoteOffs, ha', Bool.false_eq_true, if_false]
    rw [hps]
    exact ⟨rfl, rfl, rfl⟩

theorem handleNoteOffs_counting (q : Processor) (h : 1 < q.samplesRemainingForGate) :
    handleNoteOffs q
      = ({ q with samplesRemainingForGate := q.samplesRemainingForGate - 1 }, []) := by
  unfold handleNoteOffs
  rw [if_pos (by omega)]
  dsimp only
  rw [if_neg]
  rintro ⟨h0, _⟩
  omega

theorem handleNoteOffs_expiring (q : Processor) (h : q.samplesRemainingForGate = 1)
    (hn : q.lastNote ≠ -1) :
    handleNoteOffs q
      = ({ q with samplesRemainingForGate := 0, lastNote := -1 },
          [MidiMessage.noteOff 1 q.lastNote]) := by
  unfold handleNoteOffs
  rw [if_pos (by omega)]
  dsimp only
  rw [if_pos ⟨by omega, hn⟩, h]
  rfl

/-- While the samples processed trigger nothing, the gate countdown started at `G` with a
note sounding loses one per sample and the note stays the sounding note. -/
theorem gate_countdown (stepLength : ℚ) (random : Nat → ℚ) (q0 : Processor) (G : Nat)
    (note : Int) (hg : q0.samplesRemainingForGate = (G : Int)) (hn : q0.lastNote = note)
    (hquiet : ∀ k : Nat, k < G → ∀ s',
      stepReached stepLength (runSamples stepLength random q0 k) = some s' →
        s'.isTied = true ∨ s'.active = false)
    (k : Nat) (hk : k < G) :
    (runSamples stepLength random q0 k).samplesRemainingForGate = (G : Int) - k ∧
      (runSamples stepLength random q0 k).lastNote = note := by
  induction k with
  | zero => exact ⟨by rw [runSamples_zero, hg]; simp, by rw [runSamples_zero, hn]⟩
  | succ k ih =>
    obtain ⟨ihg, ihn⟩ := ih (by omega)
    obtain ⟨_, hl, hgate⟩ := processSample_quiet stepLength (random k)
      (runSamples stepLength random q0 k) (hquiet k (by omega))
    rw [runSamples_succ, hl, hgate,
      handleNoteOffs_counting (runSamples stepLength random q0 k) (by rw [ihg]; omega)]
    refine ⟨?_, ihn⟩
    show (runSamples stepLength random q0 k).samplesRemainingForGate - 1 = (G : Int) - (k + 1 : Nat)
    rw [ihg]
    push_cast
    ring

theorem handleNoteOffs_no_noteOn (p : Processor) :
    (handleNoteOffs p).2.filter MidiMessage.isNoteOn = [] := by
  unfold handleNoteOffs
  split_ifs with h1
  · dsimp only
    split_ifs <;> rfl
  · rfl

/-- The pass that lands on an active step that is not tied, with a draw not above its
probability: one Note On is added, the sounding note is the clamped pitch and the gate
countdown is the truncated product of step length and gate. -/
theorem processSample_trigger (stepLength u0 : ℚ) (p : Processor) (s : Step)
    (hs : stepReached stepLength p = some s) (hact : s.active = true)
    (htie : s.isTied = false) (hprob : u0 ≤ s.prob) :
    (processSample stepLength u0 p).1.lastNote = jlimit 0 127 (s.note + p.apvts.octave * 12) ∧
      (processSample stepLength u0 p).1.samplesRemainingForGate
        = truncToLong (stepLength * s.gate) ∧
      (processSample stepLength u0 p).2.filter MidiMessage.isNoteOn
        = [MidiMessage.noteOn 1 (jlimit 0 127 (s.note + p.apvts.octave * 12))
            (s.velocity % 256)] := by
  have ha : advances stepLength p = true := by
    by_contra hna
    have hna' : advances stepLength p = false := by simpa using hna
    rw [stepReached_of_not_advances stepLength p hna'] at hs
    exact Option.noConfusion hs
  have hsr := stepReached_of_advances stepLength p ha
  rw [hs] at hsr
  obtain ⟨g0, ln0, hoff⟩ := handleNoteOffs_frame p
  obtain ⟨ct, st, csi, bars, hadv⟩ := advanceStep_frame
    { (handleNoteOffs p).1 with
      accumulatedSamples := (handleNoteOffs p).1.accumulatedSamples + 1 - stepLength }
  have hoct : (advanceStep
      { (handleNoteOffs p).1 with
        accumulatedSamples := (handleNoteOffs p).1.accumulatedSamples + 1 - stepLength }).apvts
      = p.apvts := by
    rw [hadv, hoff]
  have hps : processSample stepLength u0 p
      = ((triggerStep stepLength u0 (advanceStep
            { (handleNoteOffs p).1 with
              accumulatedSamples := (handleNoteOffs p).1.accumulatedSamples + 1 - stepLength })
            s).1,
          (handleNoteOffs p).2 ++ (triggerStep stepLength u0 (advanceStep
            { (handleNoteOffs p).1 with
              accumulatedSamples := (handleNoteOffs p).1.accumulatedSamples + 1 - stepLength })
            s).2) := by
    unfold processSample
    simp only [advances_handleNoteOffs, ha, if_true, triggerNewNote, ← hsr]
  rw [hps]
  simp only [triggerStep, if_pos (And.intro hact (And.intro htie hprob)), hoct,
    List.filter_append, handleNoteOffs_no_noteOn, List.nil_append]
  refine ⟨trivial, trivial, ?_⟩
  split_ifs <;> rfl

/-- C19: when a pass through the loop body lands on an active, untied step `s` with a draw
not above its probability, and `G = ⌊stepLength * s.gate⌋ ≥ 1`, and every step reached
during the following `G` samples is tied or inactive, then that pass adds exactly one Note
On, the following `G - 1` samples add no message at all, and the `G`-th following sample
adds exactly the Note Off of that note. The count of samples does not depend on how the
samples are cut into blocks. -/
theorem note_off_after_gate (stepLength u0 : ℚ) (random : Nat → ℚ) (p : Processor)
    (s : Step) (G : Nat)
    (hs : stepReached stepLength p = some s) (hact : s.active = true)
    (htie : s.isTied = false) (hprob : u0 ≤ s.prob)
    (hG : (G : Int) = ⌊stepLength * s.gate⌋) (hG1 : 1 ≤ G)
    (hquiet : ∀ k : Nat, k < G → ∀ s',
      stepReached stepLength
          (runSamples stepLength random (processSample stepLength u0 p).1 k) = some s' →
        s'.isTied = true ∨ s'.active = false) :
    (processSample stepLength u0 p).2.filter MidiMessage.isNoteOn
        = [MidiMessage.noteOn 1 (jlimit 0 127 (s.note + p.apvts.octave * 12))
            (s.velocity % 256)] ∧
      (∀ k : Nat, k + 1 < G →
        sampleMessages stepLength random (processSample stepLength u0 p).1 k = []) ∧
      sampleMessages stepLength random (processSample stepLength u0 p).1 (G - 1)
        = [MidiMessage.noteOff 1 (jlimit 0 127 (s.note + p.apvts.octave * 12))] := by
  obtain ⟨hnote, hgate, hon⟩ := processSample_trigger stepLength u0 p s hs hact htie hprob
  have hnonneg : 0 ≤ stepLength * s.gate := by
    rw [← Int.floor_nonneg, ← hG]
    exact Int.natCast_nonneg G
  have hg0 : (processSample stepLength u0 p).1.samplesRemainingForGate = (G : Int) := by
    rw [hgate, truncToLong_eq_floor _ hnonneg, hG]
  have hcount := gate_countdown stepLength random (processSample stepLength u0 p).1 G
    (jlimit 0 127 (s.note + p.apvts.octave * 12)) hg0 hnote hquiet
  have hne : jlimit 0 127 (s.note + p.apvts.octave * 12) ≠ -1 := by
    have := jlimit_range (s.note + p.apvts.octave * 12)
    omega
  refine ⟨hon, fun k hk => ?_, ?_⟩
  · obtain ⟨hkg, _⟩ := hcount k (by omega)
    obtain ⟨hm, _, _⟩ := processSample_quiet stepLength (random k)
      (runSamples stepLength random (processSample stepLength u0 p).1 k)
      (hquiet k (by omega))
    unfold sampleMessages
    rw [hm, handleNoteOffs_counting _ (by rw [hkg]; omega)]
  · obtain ⟨hkg, hkn⟩ := hcount (G - 1) (by omega)
    obtain ⟨hm, _, _⟩ := processSample_quiet stepLength (random (G - 1))
      (runSamples stepLength random (processSample stepLength u0 p).1 (G - 1))
      (hquiet (G - 1) (by omega))
    unfold sampleMessages
    rw [hm, handleNoteOffs_expiring _ (by rw [hkg]; omega) (by rw [hkn]; exact hne), hkn]

/-! ## A pass through the first steps of a track -/

theorem advanceCount_mono (stepLength : ℚ) (random : Nat → ℚ) (p : Processor) (n : Nat) :
    advanceCount stepLength random p n ≤ advanceCount stepLength random p (n + 1) := by
  rw [advanceCount_succ]
  omega

/-- As long as the advances made do not take `currentStepIndex` past `numSteps - 1`, every
advance adds one to `currentStepIndex` and the engine stays on its track. -/
theorem first_pass_invariant (stepLength : ℚ) (random : Nat → ℚ) (p : Processor) (n : Nat)
    (h : p.currentStepIndex + (advanceCount stepLength random p n : Int)
      ≤ p.apvts.numSteps - 1) :
    (runSamples stepLength random p n).currentStepIndex
        = p.currentStepIndex + (advanceCount stepLength random p n : Int) ∧
      (runSamples stepLength random p n).steps = p.steps ∧
      (runSamples stepLength random p n).tracks = p.tracks ∧
      (runSamples stepLength random p n).apvts = p.apvts := by
  induction n with
  | zero => exact ⟨by simp [runSamples_zero, advanceCount], rfl, rfl, rfl⟩
  | succ n ih =>
    have hmono := advanceCount_mono stepLength random p n
    obtain ⟨hcsi, hst, htr, hap⟩ := ih (by omega)
    rw [advanceCount_succ] at h ⊢
    rw [runSamples_succ]
    generalize runSamples stepLength random p n = q at hcsi hst htr hap h ⊢
    generalize advanceCount stepLength random p n = k at hcsi h hmono ⊢
    by_cases ha : advances stepLength q = true
    · obtain ⟨acc, ln, g, ln', g', hps⟩ :=
        processSample_of_advances stepLength (random n) q ha
      rw [if_pos ha] at h ⊢
      rw [hps, advanceStep_of_lt
        { q with accumulatedSamples := acc, lastNote := ln, samplesRemainingForGate := g }
        (by rw [hap]; show q.currentStepIndex < _; push_cast at h; omega)]
      refine ⟨?_, hst, htr, hap⟩
      show q.currentStepIndex + 1 = p.currentStepIndex + ((k + 1 : Nat) : Int)
      push_cast
      omega
    · have ha' : advances stepLength q = false := by simpa using ha
      obtain ⟨acc, ln, g, hps⟩ := processSample_of_not_advances stepLength (random n) q ha'
      rw [if_neg ha, hps]
      exact ⟨by simpa using hcsi, hst, htr, hap⟩

/-- A pass that advances within the track lands on the next step of the vector. -/
theorem stepReached_eq_get? (stepLength : ℚ) (q : Processor)
    (ha : advances stepLength q = true) (h0 : 0 ≤ q.currentStepIndex)
    (h1 : q.currentStepIndex < q.apvts.numSteps - 1) :
    stepReached stepLength q = (currentSteps q).get? (q.currentStepIndex + 1).toNat := by
  obtain ⟨g0, ln0, hoff⟩ := handleNoteOffs_frame q
  rw [stepReached_of_advances stepLength q ha, hoff,
    advanceStep_of_lt
      { q with samplesRemainingForGate := g0, lastNote := ln0,
               accumulatedSamples := q.accumulatedSamples + 1 - stepLength } h1]
  unfold stepAt
  rw [if_pos (by show 0 ≤ q.currentStepIndex + 1; omega)]
  rfl

/-! ## Scenario C: gate 2.0 at step length 1000, followed by a tied step -/

theorem scenarioC_advances : advances 1000 scenarioC = true := by
  unfold advances
  have h : scenarioC.accumulatedSamples = 999 := rfl
  rw [h]
  norm_num

theorem scenarioC_stepReached :
    stepReached 1000 scenarioC = some ({ gate := 2 } : Step) := by
  rw [stepReached_eq_get? 1000 scenarioC scenarioC_advances (by decide) (by decide)]
  rfl

theorem scenarioC_after_trigger :
    (processSample 1000 0 scenarioC).1.accumulatedSamples = 0 ∧
      (processSample 1000 0 scenarioC).1.currentStepIndex = 1 ∧
      (processSample 1000 0 scenarioC).1.steps = 0 ∧
      (processSample 1000 0 scenarioC).1.tracks = scenarioC.tracks ∧
      (processSample 1000 0 scenarioC).1.apvts = scenarioC.apvts := by
  refine ⟨?_, ?_⟩
  · rw [processSample_accumulatedSamples, if_pos scenarioC_advances]
    show (999 : ℚ) + 1 - 1000 = 0
    norm_num
  · obtain ⟨acc, ln, g, ln', g', hps⟩ :=
      processSample_of_advances 1000 0 scenarioC scenarioC_advances
    rw [hps, advanceStep_of_lt
      { scenarioC with accumulatedSamples := acc, lastNote := ln,
                       samplesRemainingForGate := g }
      (by show (0 : Int) < 16 - 1; decide)]
    exact ⟨rfl, rfl, rfl, rfl⟩

/-- In scenario C every step reached during the 2000 samples after the trigger is the tied
step 2 (reached after 1000 samples) or the inactive step 3 (reached after 2000 samples). -/
theorem scenarioC_quiet (random : Nat → ℚ) (k : Nat) (hk : k < 2000) (s' : Step)
    (hs' : stepReached 1000 (runSamples 1000 random (processSample 1000 0 scenarioC).1 k)
      = some s') :
    s'.isTied = true ∨ s'.active = false := by
  obtain ⟨hacc0, hcsi0, hsteps0, htracks0, hap0⟩ := scenarioC_after_trigger
  have hc := advanceCount_eq_floor 1000 random (processSample 1000 0 scenarioC).1
    (by norm_num) hacc0 k
  have hc2 : (advanceCount 1000 random (processSample 1000 0 scenarioC).1 k : Int) < 2 := by
    rw [hc, Int.floor_lt, div_lt_iff₀ (by norm_num)]
    have : (k : ℚ) < 2000 := by exact_mod_cast hk
    push_cast
    linarith
  have hN : (processSample 1000 0 scenarioC).1.apvts.numSteps = 16 := by rw [hap0]; rfl
  obtain ⟨hcsi, hst, htr, hap⟩ := first_pass_invariant 1000 random
    (processSample 1000 0 scenarioC).1 k (by rw [hcsi0, hN]; omega)
  have ha : advances 1000 (runSamples 1000 random (processSample 1000 0 scenarioC).1 k)
      = true := by
    by_contra hna
    have hna' : advances 1000 (runSamples 1000 random (processSample 1000 0 scenarioC).1 k)
        = false := by simpa using hna
    rw [stepReached_of_not_advances _ _ hna'] at hs'
    exact Option.noConfusion hs'
  have hcur : currentSteps (runSamples 1000 random (processSample 1000 0 scenarioC).1 k)
      = [{ active := false }, { gate := 2 }, { isTied := true }] ++ defaultTrack 29 := by
    unfold currentSteps
    rw [hst, htr, hsteps0, htracks0]
    rfl
  rw [stepReached_eq_get? 1000 _ ha (by rw [hcsi, hcsi0]; omega)
    (by rw [hcsi, hcsi0, hap, hN]; omega), hcur, hcsi, hcsi0] at hs'
  generalize advanceCount 1000 random (processSample 1000 0 scenarioC).1 k = c at hc2 hs'
  have hc3 : c < 2 := by omega
  interval_cases c
  · have e : some ({ isTied := true } : Step) = some s' := hs'
    rw [← Option.some.inj e]
    exact Or.inl rfl
  · have e : some ({ active := false } : Step) = some s' := hs'
    rw [← Option.some.inj e]
    exact Or.inr rfl

theorem note_off_after_gate_witness :
    (processSample 1000 0 scenarioC).2.filter MidiMessage.isNoteOn
        = [MidiMessage.noteOn 1 (jlimit 0 127 (60 + scenarioC.apvts.octave * 12))
            (100 % 256)] ∧
      (∀ k : Nat, k + 1 < 2000 →
        sampleMessages 1000 (fun _ => 0) (processSample 1000 0 scenarioC).1 k = []) ∧
      sampleMessages 1000 (fun _ => 0) (processSample 1000 0 scenarioC).1 (2000 - 1)
        = [MidiMessage.noteOff 1 (jlimit 0 127 (60 + scenarioC.apvts.octave * 12))] :=
  note_off_after_gate 1000 0 (fun _ => 0) scenarioC ({ gate := 2 } : Step) 2000
    scenarioC_stepReached rfl rfl (by show (0 : ℚ) ≤ 1; norm_num)
    (by show ((2000 : Nat) : Int) = ⌊(1000 : ℚ) * 2⌋; norm_num) (by decide)
    (scenarioC_quiet (fun _ => 0))

/-! ## Blocks and samples -/

theorem handleNoteOffs_withTransport (q : Processor) (a : Bool) (b : ℚ) (n d : Int) :
    handleNoteOffs (withTransport q a b n d)
      = (withTransport (handleNoteOffs q).1 a b n d, (handleNoteOffs q).2) := by
  unfold handleNoteOffs
  by_cases h1 : q.samplesRemainingForGate > 0
  · have h1' : (withTransport q a b n d).samplesRemainingForGate > 0 := h1
    rw [if_pos h1, if_pos h1']
    dsimp only
    by_cases h2 : q.samplesRemainingForGate - 1 = 0 ∧ q.lastNote ≠ -1
    · have h2' : (withTransport q a b n d).samplesRemainingForGate - 1 = 0
          ∧ (withTransport q a b n d).lastNote ≠ -1 := h2
      rw [if_pos h2, if_pos h2']
      rfl
    · have h2' : ¬ ((withTransport q a b n d).samplesRemainingForGate - 1 = 0
          ∧ (withTransport q a b n d).lastNote ≠ -1) := h2
      rw [if_neg h2, if_neg h2']
      rfl
  · have h1' : ¬ (withTransport q a b n d).samplesRemainingForGate > 0 := h1
    rw [if_neg h1, if_neg h1']

theorem switchToTrack_withTransport (q : Processor) (a : Bool) (b : ℚ) (n d : Int) (i : Int) :
    switchToTrack (withTransport q a b n d) i = withTransport (switchToTrack q i) a b n d := by
  unfold switchToTrack
  by_cases h : i ≥ 0 ∧ i < getNumTracks q ∧ i ≠ q.currentTrack
  · have h' : i ≥ 0 ∧ i < getNumTracks (withTransport q a b n d)
        ∧ i ≠ (withTransport q a b n d).currentTrack := h
    rw [if_pos h, if_pos h']
    rfl
  · have h' : ¬ (i ≥ 0 ∧ i < getNumTracks (withTransport q a b n d)
        ∧ i ≠ (withTransport q a b n d).currentTrack) := h
    rw [if_neg h, if_neg h']

theorem findNextTrack_withTransport (q : Processor) (a : Bool) (b : ℚ) (n d : Int)
    (numTracks : Int) (fuel : Nat) (next : Int) :
    findNextTrack (withTransport q a b n d) numTracks fuel next
      = withTransport (findNextTrack q numTracks fuel next) a b n d := by
  induction fuel generalizing next with
  | zero => rfl
  | succ fuel ih =>
    unfold findNextTrack
    dsimp only
    by_cases h : readEnabled q ((next + 1).tmod numTracks) = true
    · have h' : readEnabled (withTransport q a b n d) ((next + 1).tmod numTracks) = true := h
      rw [if_pos h, if_pos h']
      exact switchToTrack_withTransport q a b n d _
    · have h' : ¬ readEnabled (withTransport q a b n d) ((next + 1).tmod numTracks) = true := h
      rw [if_neg h, if_neg h']
      exact ih _

theorem advanceStep_withTransport (q : Processor) (a : Bool) (b : ℚ) (n d : Int) :
    advanceStep (withTransport q a b n d) = withTransport (advanceStep q) a b n d := by
  unfold advanceStep
  dsimp only
  by_cases h : q.currentStepIndex ≥ q.apvts.numSteps - 1
  · have h' : (withTransport q a b n d).currentStepIndex
        ≥ (withTransport q a b n d).apvts.numSteps - 1 := h
    rw [if_pos h, if_pos h']
    by_cases hr : q.barsPlayedOnCurrentTrack + 1
        ≥ readRepeat { q with barsPlayedOnCurrentTrack := q.barsPlayedOnCurrentTrack + 1 }
            q.currentTrack
    · have hr' : (withTransport q a b n d).barsPlayedOnCurrentTrack + 1
          ≥ readRepeat
              { withTransport q a b n d with
                barsPlayedOnCurrentTrack := (withTransport q a b n d).barsPlayedOnCurrentTrack + 1 }
              (withTransport q a b n d).currentTrack := hr
      rw [if_pos hr, if_pos hr']
      have e := findNextTrack_withTransport { q with barsPlayedOnCurrentTrack := 0 } a b n d
        (getNumTracks { q with barsPlayedOnCurrentTrack := 0 })
        (getNumTracks { q with barsPlayedOnCurrentTrack := 0 }).toNat q.currentTrack
      have e' : findNextTrack
          { withTransport q a b n d with barsPlayedOnCurrentTrack := 0 }
          (getNumTracks { withTransport q a b n d with barsPlayedOnCurrentTrack := 0 })
          (getNumTracks { withTransport q a b n d with barsPlayedOnCurrentTrack := 0 }).toNat
          (withTransport q a b n d).currentTrack
          = withTransport (findNextTrack { q with barsPlayedOnCurrentTrack := 0 }
              (getNumTracks { q with barsPlayedOnCurrentTrack := 0 })
              (getNumTracks { q with barsPlayedOnCurrentTrack := 0 }).toNat q.currentTrack)
              a b n d := e
      rw [e']
      rfl
    · have hr' : ¬ ((withTransport q a b n d).barsPlayedOnCurrentTrack + 1
          ≥ readRepeat
              { withTransport q a b n d with
                barsPlayedOnCurrentTrack := (withTransport q a b n d).barsPlayedOnCurrentTrack + 1 }
              (withTransport q a b n d).currentTrack) := hr
      rw [if_neg hr, if_neg hr']
      rfl
  · have h' : ¬ ((withTransport q a b n d).currentStepIndex
        ≥ (withTransport q a b n d).apvts.numSteps - 1) := h
    rw [if_neg h, if_neg h']
    rfl

theorem triggerNewNote_withTransport (stepLength u : ℚ) (q : Processor) (a : Bool) (b : ℚ)
    (n d : Int) :
    triggerNewNote stepLength u (withTransport q a b n d)
      = (withTransport (triggerNewNote stepLength u q).1 a b n d,
          (triggerNewNote stepLength u q).2) := by
  have hstep : stepAt (withTransport q a b n d) = stepAt q := rfl
  unfold triggerNewNote
  rw [hstep]
  cases stepAt q with
  | none => rfl
  | some s =>
    dsimp only
    unfold triggerStep
    by_cases h : s.active = true ∧ s.isTied = false ∧ u ≤ s.prob
    · rw [if_pos h, if_pos h]
      rfl
    · rw [if_neg h, if_neg h]

/-- The members the prologue of `processBlock` writes are not read by the loop body: the
body gives the same messages, and the same state up to those members. -/
theorem processSample_withTransport (stepLength u : ℚ) (q : Processor) (a : Bool) (b : ℚ)
    (n d : Int) :
    processSample stepLength u (withTransport q a b n d)
      = (withTransport (processSample stepLength u q).1 a b n d,
          (processSample stepLength u q).2) := by
  have hadv : advances stepLength (handleNoteOffs (withTransport q a b n d)).1
      = advances stepLength (handleNoteOffs q).1 := by
    rw [handleNoteOffs_withTransport]
    rfl
  unfold processSample
  dsimp only
  rw [hadv]
  by_cases h : advances stepLength (handleNoteOffs q).1 = true
  · rw [if_pos h, if_pos h, handleNoteOffs_withTransport]
    have e : advanceStep
        { withTransport (handleNoteOffs q).1 a b n d with
          accumulatedSamples :=
            (withTransport (handleNoteOffs q).1 a b n d).accumulatedSamples + 1 - stepLength }
        = withTransport (advanceStep
            { (handleNoteOffs q).1 with
              accumulatedSamples := (handleNoteOffs q).1.accumulatedSamples + 1 - stepLength })
            a b n d :=
      advanceStep_withTransport
        { (handleNoteOffs q).1 with
          accumulatedSamples := (handleNoteOffs q).1.accumulatedSamples + 1 - stepLength }
        a b n d
    dsimp only
    rw [e, triggerNewNote_withTransport]
  · rw [if_neg h, if_neg h, handleNoteOffs_withTransport]
    rfl

theorem playLoop_succ (stepLength : ℚ) (random : Nat → ℚ) (p : Processor) (n : Nat) :
    playLoop stepLength random p (n + 1)
      = ((processSample stepLength (random n) (playLoop stepLength random p n).1).1,
          (playLoop stepLength random p n).2
            ++ (processSample stepLength (random n) (playLoop stepLength random p n).1).2.map
                (fun m => { message := m, sampleOffset := (n : Int) })) := rfl

theorem playLoop_withTransport (stepLength : ℚ) (random : Nat → ℚ) (q : Processor)
    (a : Bool) (b : ℚ) (n d : Int) (k : Nat) :
    playLoop stepLength random (withTransport q a b n d) k
      = (withTransport (playLoop stepLength random q k).1 a b n d,
          (playLoop stepLength random q k).2) := by
  induction k with
  | zero => rfl
  | succ k ih =>
    rw [playLoop_succ, playLoop_succ, ih]
    dsimp only
    rw [processSample_withTransport]

/-- The events a run of the loop adds are the messages of its samples, each at the offset of
its sample. -/
theorem stampedMessages_succ (stepLength : ℚ) (random : Nat → ℚ) (p : Processor)
    (start count : Nat) :
    stampedMessages stepLength random p start (count + 1)
      = stampedMessages stepLength random p start count
        ++ (sampleMessages stepLength random p (start + count)).map
            (fun m => { message := m, sampleOffset := (count : Int) }) := rfl

theorem playLoop_events (stepLength : ℚ) (random : Nat → ℚ) (p : Processor) (n : Nat) :
    (playLoop stepLength random p n).2 = stampedMessages stepLength random p 0 n := by
  induction n with
  | zero => rfl
  | succ n ih =>
    rw [playLoop_succ, stampedMessages_succ, Nat.zero_add]
    dsimp only
    rw [ih]
    rfl

theorem runSamples_congr (stepLength : ℚ) (random random' : Nat → ℚ) (p : Processor)
    (n : Nat) (h : ∀ i, i < n → random i = random' i) :
    runSamples stepLength random p n = runSamples stepLength random' p n := by
  induction n with
  | zero => rfl
  | succ n ih =>
    rw [runSamples_succ, runSamples_succ, ih (fun i hi => h i (by omega)), h n (by omega)]

theorem runSamples_add (stepLength : ℚ) (random : Nat → ℚ) (p : Processor) (n m : Nat) :
    runSamples stepLength random p (n + m)
      = runSamples stepLength (fun i => random (n + i)) (runSamples stepLength random p n) m := by
  induction m with
  | zero => rfl
  | succ m ih =>
    have e : n + (m + 1) = (n + m) + 1 := by omega
    rw [e, runSamples_succ, runSamples_succ, ih]

theorem stampedMessages_shift (stepLength : ℚ) (random : Nat → ℚ) (p : Processor)
    (n count : Nat) :
    stampedMessages stepLength (fun i => random (n + i)) (runSamples stepLength random p n)
        0 count
      = stampedMessages stepLength random p n count := by
  induction count with
  | zero => rfl
  | succ count ih =>
    rw [stampedMessages_succ, stampedMessages_succ, ih, Nat.zero_add]
    unfold sampleMessages
    rw [← runSamples_add]

theorem joinRandom_left (n : Nat) (first second : Nat → ℚ) (i : Nat) (h : i < n) :
    joinRandom n first second i = first i := by
  unfold joinRandom
  rw [if_pos h]

theorem joinRandom_right (n : Nat) (first second : Nat → ℚ) :
    (fun i => joinRandom n first second (n + i)) = second := by
  funext i
  unfold joinRandom
  rw [if_neg (by omega)]
  congr 1
  omega

theorem stampedMessages_congr (stepLength : ℚ) (random random' : Nat → ℚ) (p : Processor)
    (count : Nat) (h : ∀ i, i < count → random i = random' i) :
    stampedMessages stepLength random p 0 count
      = stampedMessages stepLength random' p 0 count := by
  induction count with
  | zero => rfl
  | succ count ih =>
    rw [stampedMessages_succ, stampedMessages_succ, ih (fun i hi => h i (by omega)),
      Nat.zero_add]
    unfold sampleMessages
    rw [runSamples_congr stepLength random random' p count
      (fun i hi => h i (by omega)), h count (by omega)]

theorem playLoop_frame (stepLength : ℚ) (random : Nat → ℚ) (p : Processor) (n : Nat) :
    ∃ (ct : Int) (st : Nat) (csi bars : Int) (acc : ℚ) (ln g : Int),
      (playLoop stepLength random p n).1
        = { p with currentTrack := ct, steps := st, currentStepIndex := csi,
                   barsPlayedOnCurrentTrack := bars, accumulatedSamples := acc,
                   lastNote := ln, samplesRemainingForGate := g } := by
  induction n with
  | zero => exact ⟨_, _, _, _, _, _, _, rfl⟩
  | succ n ih =>
    obtain ⟨ct, st, csi, bars, acc, ln, g, hn⟩ := ih
    obtain ⟨ct', st', csi', bars', acc', ln', g', hstep⟩ :=
      processSample_frame stepLength (random n) (playLoop stepLength random p n).1
    refine ⟨ct', st', csi', bars', acc', ln', g', ?_⟩
    rw [playLoop_succ]
    dsimp only
    rw [hstep, hn]

/-- A block in which the host reports playing: the state is that of the run of the loop
from the state before the block, with the members the prologue writes set, and the events
are those of the run. -/
theorem processBlock_playing_run (p : Processor) (h : HostBlock)
    (hp : h.hasPlayHead = true) (hi : hostIsPlaying h = true) :
    ∃ (a b : Int),
      processBlock p h
        = (withTransport (playLoop (blockStepLength p h) h.random p h.numSamples.toNat).1
              true (effectiveBPM (hostBPM h)) a b,
            (playLoop (blockStepLength p h) h.random p h.numSamples.toNat).2) := by
  obtain ⟨a, b, hts⟩ := updateTimeSignature_frame p h
  refine ⟨a, b, ?_⟩
  rw [processBlock_playing p h hp hi, hts]
  exact playLoop_withTransport _ _ p true _ a b _

theorem blockStepLength_withTransport_playLoop (stepLength : ℚ) (random : Nat → ℚ)
    (p : Processor) (n : Nat) (playing : Bool) (bpm : ℚ) (a b : Int) (h : HostBlock) :
    blockStepLength (withTransport (playLoop stepLength random p n).1 playing bpm a b) h
      = blockStepLength p h := by
  obtain ⟨ct, st, csi, bars, acc, ln, g, hfr⟩ := playLoop_frame stepLength random p n
  rw [hfr]
  rfl

/-- Supporting fact for C16 and C19 (block boundaries): two consecutive blocks in which the
host reports playing, with the same step length, leave the state that one run of the loop
over all their samples leaves (up to the members the prologue writes), and the events of
each block are the messages of the corresponding samples of that run, at their offsets
within the block. -/
theorem processBlock_two_blocks (p : Processor) (h1 h2 : HostBlock)
    (hp1 : h1.hasPlayHead = true) (hi1 : hostIsPlaying h1 = true)
    (hp2 : h2.hasPlayHead = true) (hi2 : hostIsPlaying h2 = true)
    (hP : blockStepLength p h2 = blockStepLength p h1) :
    ∃ (a b : Int),
      (processBlock (processBlock p h1).1 h2).1
        = withTransport
            (runSamples (blockStepLength p h1)
              (joinRandom h1.numSamples.toNat h1.random h2.random) p
              (h1.numSamples.toNat + h2.numSamples.toNat))
            true (effectiveBPM (hostBPM h2)) a b ∧
      (processBlock p h1).2
        = stampedMessages (blockStepLength p h1)
            (joinRandom h1.numSamples.toNat h1.random h2.random) p 0 h1.numSamples.toNat ∧
      (processBlock (processBlock p h1).1 h2).2
        = stampedMessages (blockStepLength p h1)
            (joinRandom h1.numSamples.toNat h1.random h2.random) p h1.numSamples.toNat
            h2.numSamples.toNat := by
  obtain ⟨a1, b1, hfirst⟩ := processBlock_playing_run p h1 hp1 hi1
  obtain ⟨a2, b2, hsecond⟩ := processBlock_playing_run (processBlock p h1).1 h2 hp2 hi2
  have hj := joinRandom_right h1.numSamples.toNat h1.random h2.random
  have hrun1 : (playLoop (blockStepLength p h1) h1.random p h1.numSamples.toNat).1
      = runSamples (blockStepLength p h1)
          (joinRandom h1.numSamples.toNat h1.random h2.random) p h1.numSamples.toNat :=
    runSamples_congr _ _ _ p _ (fun i hi => (joinRandom_left _ _ _ i hi).symm)
  rw [hfirst] at hsecond ⊢
  dsimp only at hsecond ⊢
  rw [blockStepLength_withTransport_playLoop, hP, playLoop_withTransport] at hsecond
  dsimp only at hsecond
  rw [hsecond]
  refine ⟨a2, b2, ?_, ?_, ?_⟩
  · dsimp only
    rw [runSamples_add, hj, ← hrun1]
    rfl
  · rw [playLoop_events]
    exact stampedMessages_congr _ _ _ p _ (fun i hi => (joinRandom_left _ _ _ i hi).symm)
  · dsimp only
    have e := stampedMessages_shift (blockStepLength p h1)
      (joinRandom h1.numSamples.toNat h1.random h2.random) p h1.numSamples.toNat
      h2.numSamples.toNat
    rw [hj, ← hrun1] at e
    rw [playLoop_events]
    exact e

/-! ## `randomizePattern` -/

theorem randomizeLoop_get? (amount : ℚ) (rootNote scaleType : Int)
    (draws : Nat → RandomizeDraws) (track : List Step) (i j : Nat) :
    (randomizeLoop amount rootNote scaleType draws i track).get? j
      = (track.get? j).map (randomizeStep amount rootNote scaleType (draws (i + j))) := by
  induction track generalizing i j with
  | nil => rfl
  | cons s rest ih =>
    cases j with
    | zero => rfl
    | succ j =>
      show (randomizeLoop amount rootNote scaleType draws (i + 1) rest).get? j = _
      rw [ih (i + 1) j, show i + 1 + j = i + (j + 1) by omega]
      rfl

theorem randomizeLoop_length (amount : ℚ) (rootNote scaleType : Int)
    (draws : Nat → RandomizeDraws) (track : List Step) (i : Nat) :
    (randomizeLoop amount rootNote scaleType draws i track).length = track.length := by
  induction track generalizing i with
  | nil => rfl
  | cons s rest ih => exact congrArg Nat.succ (ih (i + 1))

/-- The interval `getRandomNoteInScale` reads for a degree below `count` is one of the
intervals of the mode, and lies in `0 .. 11`. -/
theorem randomScaleTable_interval (scaleType degree : Int) (hs0 : 0 ≤ scaleType)
    (hs1 : scaleType ≤ 6) (hd0 : 0 ≤ degree) (hd1 : degree < (randomScaleTable scaleType).2) :
    (randomScaleTable scaleType).1.getD degree.toNat 0 ∈ modeIntervals scaleType ∧
      0 ≤ (randomScaleTable scaleType).1.getD degree.toNat 0 ∧
      (randomScaleTable scaleType).1.getD degree.toNat 0 ≤ 11 := by
  interval_cases scaleType
  all_goals
    have hd2 : degree < 12 := lt_of_lt_of_le hd1 (by decide)
    interval_cases degree <;> decide

theorem relativePitch_of_sum (octave rootNote interval : Int) (h0 : 0 ≤ interval)
    (h1 : interval ≤ 11) :
    relativePitch (octave * 12 + rootNote + interval) rootNote = interval := by
  unfold relativePitch
  omega

/-- The note `getRandomNoteInScale(rootNote, scaleType, 3, 5)` returns. -/
theorem getRandomNoteInScale_spec (rootNote scaleType octave degree : Int)
    (hr0 : 0 ≤ rootNote) (hr1 : rootNote ≤ 11) (hs0 : 0 ≤ scaleType) (hs1 : scaleType ≤ 6)
    (ho0 : 3 ≤ octave) (ho1 : octave < 6) (hd0 : 0 ≤ degree)
    (hd1 : degree < (randomScaleTable scaleType).2) :
    ∃ interval ∈ modeIntervals scaleType,
      getRandomNoteInScale rootNote scaleType octave degree
        = octave * 12 + rootNote + interval ∧
      36 ≤ getRandomNoteInScale rootNote scaleType octave degree ∧
      getRandomNoteInScale rootNote scaleType octave degree ≤ 82 ∧
      isNoteInScale (getRandomNoteInScale rootNote scaleType octave degree) rootNote scaleType
        = true := by
  obtain ⟨hmem, hi0, hi1⟩ := randomScaleTable_interval scaleType degree hs0 hs1 hd0 hd1
  have e : getRandomNoteInScale rootNote scaleType octave degree
      = octave * 12 + rootNote + (randomScaleTable scaleType).1.getD degree.toNat 0 := by
    unfold getRandomNoteInScale
    simp only [if_pos hd0]
    unfold jlimit
    rw [if_neg (by omega), if_neg (by omega)]
  refine ⟨_, hmem, e, by rw [e]; omega, by rw [e]; omega, ?_⟩
  rw [e, isNoteInScale_eq_relative _ _ _ (by omega) hr0 hr1,
    relativePitch_of_sum _ _ _ hi0 hi1]
  exact (isNoteInScale_pitch_class _ _ hi0 (by omega) hs0 hs1).mpr hmem


/-- C26: for key in `0 .. 11` and scale in `0 .. 6`, and for all values of the random
generator, a step that `randomizePattern` replaces (its draw is below `amount`) receives the
note `octave * 12 + key + interval` with `octave` in `{3, 4, 5}` and `interval` in the
interval set of the mode; the clamp to `[0, 127]` leaves this number as it is, the note lies
in `[36, 82]` and `isNoteInScale(note, key, scale)` holds. -/
theorem randomizePattern_note_in_scale (p : Processor) (amount : ℚ)
    (draws : Nat → RandomizeDraws) (i : Nat) (s : Step)
    (hk0 : 0 ≤ p.apvts.key) (hk1 : p.apvts.key ≤ 11)
    (hs0 : 0 ≤ p.apvts.scale) (hs1 : p.apvts.scale ≤ 6)
    (hdraws : ∀ j, (draws j).InRange p.apvts.scale)
    (hs : (currentSteps p).get? i = some s) (hrep : (draws i).chance < amount) :
    ∃ (s' : Step) (interval : Int),
      (currentSteps (randomizePattern p amount draws)).get? i = some s' ∧
      (draws i).octave ∈ ({3, 4, 5} : Finset Int) ∧
      interval ∈ modeIntervals p.apvts.scale ∧
      s'.note = (draws i).octave * 12 + p.apvts.key + interval ∧
      jlimit 0 127 ((draws i).octave * 12 + p.apvts.key + interval)
        = (draws i).octave * 12 + p.apvts.key + interval ∧
      36 ≤ s'.note ∧ s'.note ≤ 82 ∧
      isNoteInScale s'.note p.apvts.key p.apvts.scale = true := by
  obtain ⟨⟨hc0, _⟩, _, ⟨ho0, ho1⟩, ⟨hd0, hd1⟩, _⟩ := hdraws i
  have hamount : ¬ amount ≤ 0 := by
    intro h
    linarith
  obtain ⟨interval, hmem, e, lo, hi, hin⟩ := getRandomNoteInScale_spec p.apvts.key
    p.apvts.scale (draws i).octave (draws i).degree hk0 hk1 hs0 hs1 ho0 ho1 hd0 hd1
  have hget : (currentSteps (randomizePattern p amount draws)).get? i
      = some (randomizeStep amount p.apvts.key p.apvts.scale (draws i) s) := by
    unfold randomizePattern
    rw [if_neg hamount, currentSteps_onSteps _ rfl, randomizeLoop_get?, hs, Nat.zero_add]
    rfl
  have hnote : (randomizeStep amount p.apvts.key p.apvts.scale (draws i) s).note
      = getRandomNoteInScale p.apvts.key p.apvts.scale (draws i).octave (draws i).degree := by
    unfold randomizeStep
    rw [if_pos hrep]
  have hoct : (draws i).octave ∈ ({3, 4, 5} : Finset Int) := by
    have h3 : (draws i).octave = 3 ∨ (draws i).octave = 4 ∨ (draws i).octave = 5 := by omega
    rcases h3 with h | h | h <;> rw [h] <;> decide
  have hclamp : jlimit 0 127 ((draws i).octave * 12 + p.apvts.key + interval)
      = (draws i).octave * 12 + p.apvts.key + interval := by
    unfold jlimit
    rw [if_neg (by omega), if_neg (by omega)]
  refine ⟨_, interval, hget, hoct, hmem, by rw [hnote, e], hclamp, ?_, ?_, ?_⟩
  · rw [hnote]; exact lo
  · rw [hnote]; exact hi
  · rw [hnote]; exact hin

theorem randomizePattern_note_in_scale_witness :
    ∃ (s' : Step) (interval : Int),
      (currentSteps (randomizePattern (withKeyScale initial 2 6) 1
          (fun _ => { octave := 4, degree := 3 }))).get? 0 = some s' ∧
      (4 : Int) ∈ ({3, 4, 5} : Finset Int) ∧
      interval ∈ modeIntervals 6 ∧
      s'.note = 4 * 12 + 2 + interval ∧
      jlimit 0 127 (4 * 12 + 2 + interval) = 4 * 12 + 2 + interval ∧
      36 ≤ s'.note ∧ s'.note ≤ 82 ∧
      isNoteInScale s'.note 2 6 = true :=
  randomizePattern_note_in_scale (withKeyScale initial 2 6) 1
    (fun _ => { octave := 4, degree := 3 }) 0 { active := false }
    (by decide) (by decide) (by decide) (by decide)
    (by
      intro j
      show ((0 : ℚ) ≤ 0 ∧ (0 : ℚ) < 1) ∧ ((0 : ℚ) ≤ 0 ∧ (0 : ℚ) < 1) ∧
        ((3 : Int) ≤ 4 ∧ (4 : Int) < 6) ∧ ((0 : Int) ≤ 3 ∧ (3 : Int) < 5) ∧
        ((0 : Int) ≤ 0 ∧ (0 : Int) < 60) ∧ ((0 : ℚ) ≤ 0 ∧ (0 : ℚ) < 1) ∧
        ((0 : ℚ) ≤ 0 ∧ (0 : ℚ) < 1)
      exact ⟨⟨le_refl 0, zero_lt_one⟩, ⟨le_refl 0, zero_lt_one⟩, ⟨by decide, by decide⟩,
        ⟨by decide, by decide⟩, ⟨by decide, by decide⟩, ⟨le_refl 0, zero_lt_one⟩,
        ⟨le_refl 0, zero_lt_one⟩⟩)
    rfl zero_lt_one

/-! ## `mutatePattern` -/

theorem mutateLoop_get? (amount : ℚ) (rootNote scaleType : Int)
    (draws : Nat → MutateDraws) (track : List Step) (i j : Nat) :
    (mutateLoop amount rootNote scaleType draws i track).get? j
      = (track.get? j).map (mutateStep amount rootNote scaleType (draws (i + j))) := by
  induction track generalizing i j with
  | nil => rfl
  | cons s rest ih =>
    cases j with
    | zero => rfl
    | succ j =>
      show (mutateLoop amount rootNote scaleType draws (i + 1) rest).get? j = _
      rw [ih (i + 1) j, show i + 1 + j = i + (j + 1) by omega]
      rfl

theorem mutateLoop_length (amount : ℚ) (rootNote scaleType : Int)
    (draws : Nat → MutateDraws) (track : List Step) (i : Nat) :
    (mutateLoop amount rootNote scaleType draws i track).length = track.length := by
  induction track generalizing i with
  | nil => rfl
  | cons s rest ih => exact congrArg Nat.succ (ih (i + 1))

theorem currentSteps_mutatePattern (p : Processor) (amount : ℚ) (draws : Nat → MutateDraws)
    (h : 0 < amount) :
    currentSteps (mutatePattern p amount draws)
      = mutateLoop amount p.apvts.key p.apvts.scale draws 0 (currentSteps p) := by
  unfold mutatePattern
  rw [if_neg (not_le.mpr h), currentSteps_onSteps _ rfl]

/-- What the loop body of `mutatePattern` can do to one step. -/
theorem mutateStep_structure (amount : ℚ) (rootNote scaleType : Int) (d : MutateDraws)
    (s : Step) :
    (mutateStep amount rootNote scaleType d s).isTied = s.isTied ∧
      (s.active = true → (mutateStep amount rootNote scaleType d s).active = true) ∧
      (s.active = false →
        mutateStep amount rootNote scaleType d s = s ∨
        mutateStep amount rootNote scaleType d s = { s with active := true, velocity := 80 }) := by
  unfold mutateStep
  split_ifs with h1 h2 h3 h4 h5 h6 <;> simp_all


/-- C29: for every amount and all values of the random generator, `mutatePattern` keeps the
length of the track, the `isTied` flag of every step and the `active` flag of every active
step; an inactive step is left as it is or becomes
`{ s with active := true, velocity := 80 }`; with `amount ≤ 0` the processor is unchanged. -/
theorem mutatePattern_preserves_structure (p : Processor) (amount : ℚ)
    (draws : Nat → MutateDraws) :
    (currentSteps (mutatePattern p amount draws)).length = (currentSteps p).length ∧
      (∀ (i : Nat) (s : Step), (currentSteps p).get? i = some s →
        ∃ s' : Step, (currentSteps (mutatePattern p amount draws)).get? i = some s' ∧
          s'.isTied = s.isTied ∧
          (s.active = true → s'.active = true) ∧
          (s.active = false → s' = s ∨ s' = { s with active := true, velocity := 80 })) ∧
      (amount ≤ 0 → mutatePattern p amount draws = p) := by
  by_cases h : amount ≤ 0
  · have e : mutatePattern p amount draws = p := by
      unfold mutatePattern
      rw [if_pos h]
    rw [e]
    exact ⟨rfl, fun i s hs => ⟨s, hs, rfl, fun ha => ha, fun _ => Or.inl rfl⟩, fun _ => rfl⟩
  · have hpos : 0 < amount := not_le.mp h
    rw [currentSteps_mutatePattern p amount draws hpos]
    refine ⟨mutateLoop_length _ _ _ _ _ _, fun i s hs => ?_, fun h' => absurd h' h⟩
    refine ⟨mutateStep amount p.apvts.key p.apvts.scale (draws (0 + i)) s, ?_,
      mutateStep_structure _ _ _ _ _⟩
    rw [mutateLoop_get?, hs]
    rfl

/-! ### The pitch shift -/

theorem pitchSearch_eq (rootNote scaleType offset : Int) (tries : Nat) (candidate : Int) :
    ∃ t : Nat, t ≤ tries ∧
      pitchSearch rootNote scaleType offset tries candidate
        = candidate + (if offset > 0 then 1 else -1) * (t : Int) := by
  induction tries generalizing candidate with
  | zero => exact ⟨0, le_refl 0, by simp [pitchSearch]⟩
  | succ n ih =>
    unfold pitchSearch
    by_cases hin : isNoteInScale candidate rootNote scaleType = false
    · rw [if_pos hin]
      obtain ⟨t, ht, e⟩ := ih (candidate + (if offset > 0 then 1 else -1))
      refine ⟨t + 1, by omega, ?_⟩
      rw [e]
      push_cast
      ring
    · rw [if_neg hin]
      exact ⟨0, Nat.zero_le _, by simp⟩

/-- Away from the ends of the MIDI range the pitch shift does what its comment says: the
note stays, or becomes an in-scale note of the MIDI range on the side of the shift. -/
theorem pitchShift_inside (note rootNote scaleType offset : Int) (h0 : 7 ≤ note)
    (h1 : note ≤ 120) (ho : offset = 1 ∨ offset = -1 ∨ offset = 2 ∨ offset = -2) :
    pitchShift note rootNote scaleType offset = note ∨
      (0 ≤ pitchShift note rootNote scaleType offset ∧
        pitchShift note rootNote scaleType offset ≤ 127 ∧
        isNoteInScale (pitchShift note rootNote scaleType offset) rootNote scaleType = true ∧
        (offset > 0 → note < pitchShift note rootNote scaleType offset) ∧
        (offset < 0 → pitchShift note rootNote scaleType offset < note)) := by
  obtain ⟨t, ht, e⟩ := pitchSearch_eq rootNote scaleType offset 5 (note + offset)
  unfold pitchShift
  simp only
  split_ifs with hin
  · right
    have hc : jlimit 0 127 (pitchSearch rootNote scaleType offset 5 (note + offset))
        = pitchSearch rootNote scaleType offset 5 (note + offset) := by
      unfold jlimit
      rw [e]
      rcases ho with h | h | h | h <;> subst h <;> simp <;> omega
    rw [hc]
    refine ⟨?_, ?_, hin, ?_, ?_⟩ <;> rw [e] <;>
      rcases ho with h | h | h | h <;> subst h <;> simp <;> omega
  · exact Or.inl rfl

theorem pitchOffset_up : pitchOffset true 0 = 1 := by
  unfold pitchOffset
  norm_num

theorem pitchOffset_down_jump : pitchOffset false (9 / 10) = -2 := by
  unfold pitchOffset
  norm_num

/-- C27: at the ends of the MIDI range the pitch shift of `mutatePattern` stores a note that
is not in the scale. Note 126 in C sharp major (key 1, scale 1), shifted by `+1`: the
candidates 127 is not in the scale, 128 is, and the step receives `jlimit(0, 127, 128) = 127`.
Note 1 in D major (key 2, scale 1), shifted by `-2`: the candidate `-1` passes the scale
test and the step receives `jlimit(0, 127, -1) = 0`, which is not in the scale. -/
theorem mutatePattern_pitch_leaves_scale :
    (currentSteps (mutatePattern highNote (1 / 2) shiftUpDraws)).get? 0
        = some { note := 127 } ∧
      isNoteInScale 126 1 1 = true ∧ isNoteInScale 127 1 1 = false ∧
      (currentSteps (mutatePattern lowNote (1 / 2) shiftDownDraws)).get? 0
        = some { note := 0 } ∧
      isNoteInScale 1 2 1 = true ∧ isNoteInScale 0 2 1 = false := by
  have hup : mutateStep (1 / 2) 1 1 (shiftUpDraws 0) { note := 126 } = { note := 127 } := by
    unfold mutateStep
    rw [if_pos ⟨rfl, show (0 : ℚ) < 1 / 2 by norm_num⟩,
      if_pos (show (shiftUpDraws 0).type = 0 from rfl)]
    show ({ note := pitchShift 126 1 1 (pitchOffset true 0) } : Step) = _
    rw [pitchOffset_up, show pitchShift 126 1 1 1 = 127 by decide]
  have hdown : mutateStep (1 / 2) 2 1 (shiftDownDraws 0) { note := 1 } = { note := 0 } := by
    unfold mutateStep
    rw [if_pos ⟨rfl, show (0 : ℚ) < 1 / 2 by norm_num⟩,
      if_pos (show (shiftDownDraws 0).type = 0 from rfl)]
    show ({ note := pitchShift 1 2 1 (pitchOffset false (9 / 10)) } : Step) = _
    rw [pitchOffset_down_jump, show pitchShift 1 2 1 (-2) = 0 by decide]
  refine ⟨?_, by decide, by decide, ?_, by decide, by decide⟩
  · rw [currentSteps_mutatePattern _ _ _ (by norm_num), mutateLoop_get?]
    exact congrArg some hup
  · rw [currentSteps_mutatePattern _ _ _ (by norm_num), mutateLoop_get?]
    exact congrArg some hdown

/-! ### The velocity nudge -/

/-- C28: the offsets the velocity nudge of `mutatePattern` can add are the 30 integers
`-15 .. 14`: every value of `nextInt(30)` gives one of them, each of them is given by some
value, and `+15` is given by none. With the largest value 29 of `nextInt(30)` a step of
velocity 100 receives velocity 114. -/
theorem velocityDiff_never_fifteen :
    (∀ draw : Int, 0 ≤ draw → draw < 30 → -15 ≤ velocityDiff draw ∧ velocityDiff draw ≤ 14) ∧
      (∀ d : Int, -15 ≤ d → d ≤ 14 → ∃ draw : Int, 0 ≤ draw ∧ draw < 30 ∧ velocityDiff draw = d) ∧
      (∀ draw : Int, 0 ≤ draw → draw < 30 → velocityDiff draw ≠ 15) ∧
      (∀ (amount : ℚ) (rootNote scaleType : Int) (d : MutateDraws) (s : Step),
        s.active = true → d.chance < amount → d.type = 1 →
          mutateStep amount rootNote scaleType d s
            = { s with velocity := jlimit 1 127 (s.velocity + velocityDiff d.velocityDraw) }) ∧
      mutateStep 1 0 0 { chance := 0, type := 1, velocityDraw := 29 } { velocity := 100 }
        = { velocity := 114 } := by
  refine ⟨fun draw h0 h1 => ?_, fun d h0 h1 => ⟨d + 15, by omega, by omega, ?_⟩,
    fun draw h0 h1 => ?_, fun amount rootNote scaleType d s ha hc ht => ?_, ?_⟩
  · unfold velocityDiff
    omega
  · unfold velocityDiff
    omega
  · unfold velocityDiff
    omega
  · unfold mutateStep
    rw [if_pos ⟨ha, hc⟩, if_neg (by rw [ht]; decide), if_pos ht]
  · unfold mutateStep
    rw [if_pos ⟨rfl, show (0 : ℚ) < 1 by norm_num⟩,
      if_neg (show ¬ (1 : Int) = 0 by decide), if_pos (show (1 : Int) = 1 from rfl)]
    show ({ velocity := jlimit 1 127 (100 + velocityDiff 29) } : Step) = _
    rw [show jlimit 1 127 (100 + velocityDiff 29) = 114 by decide]

/-! ## Starting the transport -/

theorem processBlock_loopEntry (p : Processor) (h : HostBlock) (h1 : h.hasPlayHead = true)
    (h2 : hostIsPlaying h = true) :
    processBlock p h
      = playLoop (blockStepLength p h) h.random (loopEntry p h) h.numSamples.toNat :=
  processBlock_playing p h h1 h2

/-- The prologue of a playing block writes the time signature, `isPlaying` and `currentBPM`
and nothing else. -/
theorem loopEntry_frame (p : Processor) (h : HostBlock) :
    (loopEntry p h).currentStepIndex = p.currentStepIndex ∧
      (loopEntry p h).barsPlayedOnCurrentTrack = p.barsPlayedOnCurrentTrack ∧
      (loopEntry p h).accumulatedSamples = p.accumulatedSamples ∧
      (loopEntry p h).samplesRemainingForGate = p.samplesRemainingForGate ∧
      (loopEntry p h).lastNote = p.lastNote := by
  obtain ⟨a, b, hts⟩ := updateTimeSignature_frame p h
  unfold loopEntry
  rw [hts]
  exact ⟨rfl, rfl, rfl, rfl, rfl⟩

/-- C21, as the code has it: a playing block processed while `isPlaying` is `false` enters
the scheduling loop with `currentStepIndex`, `barsPlayedOnCurrentTrack`, the accumulator, the
gate countdown and `lastNote` as they are. When the engine was stopped by a block in which
the host reported not playing, the accumulator and the gate countdown are 0 (that block set
them), and `currentStepIndex`, `barsPlayedOnCurrentTrack` and `lastNote` are those of the
moment playback was stopped. -/
theorem transport_start_keeps_position (q : Processor) (hStop hPlay : HostBlock)
    (hq : q.isPlaying = true)
    (h1 : hStop.hasPlayHead = true) (h2 : hostIsPlaying hStop = false)
    (h3 : hPlay.hasPlayHead = true) (h4 : hostIsPlaying hPlay = true) :
    (processBlock q hStop).1.isPlaying = false ∧
      processBlock (processBlock q hStop).1 hPlay
        = playLoop (blockStepLength (processBlock q hStop).1 hPlay) hPlay.random
            (loopEntry (processBlock q hStop).1 hPlay) hPlay.numSamples.toNat ∧
      (loopEntry (processBlock q hStop).1 hPlay).accumulatedSamples = 0 ∧
      (loopEntry (processBlock q hStop).1 hPlay).samplesRemainingForGate = 0 ∧
      (loopEntry (processBlock q hStop).1 hPlay).currentStepIndex = q.currentStepIndex ∧
      (loopEntry (processBlock q hStop).1 hPlay).barsPlayedOnCurrentTrack
        = q.barsPlayedOnCurrentTrack ∧
      (loopEntry (processBlock q hStop).1 hPlay).lastNote = q.lastNote ∧
      (∀ p : Processor,
        (loopEntry p hPlay).currentStepIndex = p.currentStepIndex ∧
        (loopEntry p hPlay).barsPlayedOnCurrentTrack = p.barsPlayedOnCurrentTrack ∧
        (loopEntry p hPlay).accumulatedSamples = p.accumulatedSamples ∧
        (loopEntry p hPlay).samplesRemainingForGate = p.samplesRemainingForGate ∧
        (loopEntry p hPlay).lastNote = p.lastNote) := by
  obtain ⟨a, b, hts⟩ := updateTimeSignature_frame q hStop
  have hstop := processBlock_stop q hStop h1 h2 hq
  obtain ⟨e1, e2, e3, e4, e5⟩ := loopEntry_frame (processBlock q hStop).1 hPlay
  refine ⟨by rw [hstop], processBlock_loopEntry _ hPlay h3 h4, ?_, ?_, ?_, ?_, ?_,
    fun p => loopEntry_frame p hPlay⟩
  · rw [e3, hstop]
  · rw [e4, hstop]
  · rw [e1, hstop, hts]
  · rw [e2, hstop, hts]
  · rw [e5, hstop, hts]

theorem transport_start_keeps_position_witness :
    (processBlock midPattern stoppedBlock).1.isPlaying = false ∧
      processBlock (processBlock midPattern stoppedBlock).1 playingBlock
        = playLoop (blockStepLength (processBlock midPattern stoppedBlock).1 playingBlock)
            playingBlock.random
            (loopEntry (processBlock midPattern stoppedBlock).1 playingBlock)
            playingBlock.numSamples.toNat ∧
      (loopEntry (processBlock midPattern stoppedBlock).1 playingBlock).accumulatedSamples
        = 0 ∧
      (loopEntry (processBlock midPattern stoppedBlock).1 playingBlock).samplesRemainingForGate
        = 0 ∧
      (loopEntry (processBlock midPattern stoppedBlock).1 playingBlock).currentStepIndex
        = midPattern.currentStepIndex ∧
      (loopEntry (processBlock midPattern stoppedBlock).1 playingBlock).barsPlayedOnCurrentTrack
        = midPattern.barsPlayedOnCurrentTrack ∧
      (loopEntry (processBlock midPattern stoppedBlock).1 playingBlock).lastNote
        = midPattern.lastNote ∧
      (∀ p : Processor,
        (loopEntry p playingBlock).currentStepIndex = p.currentStepIndex ∧
        (loopEntry p playingBlock).barsPlayedOnCurrentTrack = p.barsPlayedOnCurrentTrack ∧
        (loopEntry p playingBlock).accumulatedSamples = p.accumulatedSamples ∧
        (loopEntry p playingBlock).samplesRemainingForGate = p.samplesRemainingForGate ∧
        (loopEntry p playingBlock).lastNote = p.lastNote) :=
  transport_start_keeps_position midPattern stoppedBlock playingBlock rfl rfl rfl rfl rfl

/-- The playing block that follows a stop finds `currentStepIndex = 5`,
`barsPlayedOnCurrentTrack = 1` and `lastNote = 60` as they were at the stop, before the loop
(`loopEntry`) and, for a block of no samples, after `processBlock`. -/
theorem transport_start_counterexample :
    midPattern.isPlaying = true ∧
      (processBlock midPattern stoppedBlock).1.isPlaying = false ∧
      hostIsPlaying playingBlock = true ∧
      (loopEntry (processBlock midPattern stoppedBlock).1 playingBlock).currentStepIndex = 5 ∧
      (loopEntry (processBlock midPattern stoppedBlock).1
        playingBlock).barsPlayedOnCurrentTrack = 1 ∧
      (loopEntry (processBlock midPattern stoppedBlock).1 playingBlock).lastNote = 60 ∧
      (processBlock (processBlock midPattern stoppedBlock).1
        emptyPlayingBlock).1.currentStepIndex = 5 ∧
      (processBlock (processBlock midPattern stoppedBlock).1
        emptyPlayingBlock).1.barsPlayedOnCurrentTrack = 1 ∧
      (processBlock (processBlock midPattern stoppedBlock).1
        emptyPlayingBlock).1.lastNote = 60 := by
  refine ⟨rfl, rfl, rfl, rfl, rfl, rfl, rfl, rfl, rfl⟩

/-! ## Timing members and `setStateInformation` -/

/-- C23, as the code has it: `setStateInformation` sets `currentTrack = 0` when the state
has a `TRACKS` node and writes none of `currentStepIndex`, `barsPlayedOnCurrentTrack`, the
accumulator, the gate countdown and `lastNote`, whatever the state holds. -/
theorem setStateInformation_keeps_timing (p : Processor) (xmlState : Option SavedState) :
    (∀ (newState : SavedState) (nodes : List TrackNode), xmlState = some newState →
        newState.trackNodes = some nodes →
        (setStateInformation p xmlState).currentTrack = 0) ∧
      (setStateInformation p xmlState).currentStepIndex = p.currentStepIndex ∧
      (setStateInformation p xmlState).barsPlayedOnCurrentTrack = p.barsPlayedOnCurrentTrack ∧
      (setStateInformation p xmlState).accumulatedSamples = p.accumulatedSamples ∧
      (setStateInformation p xmlState).samplesRemainingForGate = p.samplesRemainingForGate ∧
      (setStateInformation p xmlState).lastNote = p.lastNote := by
  cases xmlState with
  | none =>
    refine ⟨fun newState nodes h => Option.noConfusion h, rfl, rfl, rfl, rfl, rfl⟩
  | some st =>
    cases hn : st.trackNodes with
    | none =>
      refine ⟨fun newState nodes h h' => ?_, ?_⟩
      · cases h
        rw [hn] at h'
        exact Option.noConfusion h'
      · simp [setStateInformation, hn]
    | some nodes =>
      simp [setStateInformation, hn]

/-- Restoring a state with one track into an engine that is on step 5 of its second pass
with note 60 sounding leaves all of that in place. -/
theorem setStateInformation_timing_counterexample :
    (setStateInformation midPattern (some oneTrackState)).currentTrack = 0 ∧
      (setStateInformation midPattern (some oneTrackState)).tracks.length = 1 ∧
      (setStateInformation midPattern (some oneTrackState)).currentStepIndex = 5 ∧
      (setStateInformation midPattern (some oneTrackState)).barsPlayedOnCurrentTrack = 1 ∧
      (setStateInformation midPattern (some oneTrackState)).accumulatedSamples = 7 ∧
      (setStateInformation midPattern (some oneTrackState)).samplesRemainingForGate = 2749 ∧
      (setStateInformation midPattern (some oneTrackState)).lastNote = 60 := by
  refine ⟨rfl, rfl, rfl, rfl, rfl, rfl, rfl⟩


/-! ## The trigger decision -/

theorem jlimit_eq_specClamp (x : Int) : jlimit 0 127 x = specClamp x 0 127 := by
  unfold jlimit specClamp
  split_ifs <;> omega

theorem advances_of_stepReached (stepLength : ℚ) (q : Processor) (s : Step)
    (hs : stepReached stepLength q = some s) : advances stepLength q = true := by
  by_contra hna
  have hna' : advances stepLength q = false := by simpa using hna
  rw [stepReached_of_not_advances stepLength q hna'] at hs
  exact Option.noConfusion hs

/-- A pass that reads the step `s`: the pass is the note-off part, the advance, and the
trigger decision for `s`. -/
theorem processSample_decision (stepLength u : ℚ) (q : Processor) (s : Step)
    (hs : stepReached stepLength q = some s) :
    processSample stepLength u q
      = ((triggerStep stepLength u (advanceStep
            { (handleNoteOffs q).1 with
              accumulatedSamples := (handleNoteOffs q).1.accumulatedSamples + 1 - stepLength })
            s).1,
          (handleNoteOffs q).2 ++ (triggerStep stepLength u (advanceStep
            { (handleNoteOffs q).1 with
              accumulatedSamples := (handleNoteOffs q).1.accumulatedSamples + 1 - stepLength })
            s).2) := by
  have ha := advances_of_stepReached stepLength q s hs
  have hsr := stepReached_of_advances stepLength q ha
  rw [hs] at hsr
  unfold processSample
  simp only [advances_handleNoteOffs, ha, if_true, triggerNewNote, ← hsr]

/-- The state the trigger decision of a pass starts from has the parameters and the note
state the note-off part left. -/
theorem advanceStep_after_noteOffs (stepLength : ℚ) (q : Processor) :
    (advanceStep
        { (handleNoteOffs q).1 with
          accumulatedSamples := (handleNoteOffs q).1.accumulatedSamples + 1 - stepLength }).apvts
        = q.apvts ∧
      (advanceStep
        { (handleNoteOffs q).1 with
          accumulatedSamples := (handleNoteOffs q).1.accumulatedSamples + 1 - stepLength }).lastNote
        = (handleNoteOffs q).1.lastNote ∧
      (advanceStep
        { (handleNoteOffs q).1 with
          accumulatedSamples := (handleNoteOffs q).1.accumulatedSamples + 1
            - stepLength }).samplesRemainingForGate
        = (handleNoteOffs q).1.samplesRemainingForGate := by
  obtain ⟨g0, ln0, hoff⟩ := handleNoteOffs_frame q
  obtain ⟨ct, st, csi, bars, hadv⟩ := advanceStep_frame
    { (handleNoteOffs q).1 with
      accumulatedSamples := (handleNoteOffs q).1.accumulatedSamples + 1 - stepLength }
  rw [hadv, hoff]
  exact ⟨rfl, rfl, rfl⟩

/-- C24: for a pass of the loop that advances onto a step `s` of the data model (its
velocity in `0 .. 255`, which holds for `1 .. 127`, and its gate not negative): when `s` is
active and not
tied and the draw `u` is at most `s.prob`, the pass adds at its sample offset the messages of
the note-off part, the Note Off of a note that still sounds, and then the Note On with pitch
`clamp(s.note + 12 * octave, 0, 127)` and velocity `s.velocity`; afterwards that pitch is the
sounding note and the gate countdown is `⌊stepLength * s.gate⌋`. When `s` is inactive or tied
or `u > s.prob`, the pass adds only the messages of the note-off part, and the sounding note
and the gate countdown are as the note-off part left them. -/
theorem trigger_decision (stepLength : ℚ) (random : Nat → ℚ) (p : Processor) (n : Nat)
    (s : Step)
    (hs : stepReached stepLength (runSamples stepLength random p n) = some s)
    (hP : 0 ≤ stepLength) (hv0 : 0 ≤ s.velocity) (hv1 : s.velocity ≤ 255)
    (hg : 0 ≤ s.gate) :
    (s.active = true → s.isTied = false → random n ≤ s.prob →
      (playLoop stepLength random p (n + 1)).2
          = (playLoop stepLength random p n).2
            ++ ((handleNoteOffs (runSamples stepLength random p n)).2
                ++ (if (handleNoteOffs (runSamples stepLength random p n)).1.lastNote ≠ -1 then
                      [MidiMessage.noteOff 1
                        (handleNoteOffs (runSamples stepLength random p n)).1.lastNote]
                    else [])
                ++ [MidiMessage.noteOn 1
                      (specClamp (s.note + 12 * (runSamples stepLength random p n).apvts.octave)
                        0 127)
                      s.velocity]).map
                (fun m => { message := m, sampleOffset := (n : Int) }) ∧
        (runSamples stepLength random p (n + 1)).lastNote
          = specClamp (s.note + 12 * (runSamples stepLength random p n).apvts.octave) 0 127 ∧
        (runSamples stepLength random p (n + 1)).samplesRemainingForGate
          = ⌊stepLength * s.gate⌋) ∧
    ((s.active = false ∨ s.isTied = true ∨ random n > s.prob) →
      (playLoop stepLength random p (n + 1)).2
          = (playLoop stepLength random p n).2
            ++ (handleNoteOffs (runSamples stepLength random p n)).2.map
                (fun m => { message := m, sampleOffset := (n : Int) }) ∧
        (runSamples stepLength random p (n + 1)).lastNote
          = (handleNoteOffs (runSamples stepLength random p n)).1.lastNote ∧
        (runSamples stepLength random p (n + 1)).samplesRemainingForGate
          = (handleNoteOffs (runSamples stepLength random p n)).1.samplesRemainingForGate) := by
  have hdec := processSample_decision stepLength (random n)
    (runSamples stepLength random p n) s hs
  obtain ⟨hap, hln, hgate⟩ := advanceStep_after_noteOffs stepLength
    (runSamples stepLength random p n)
  have hrun : (playLoop stepLength random p n).1 = runSamples stepLength random p n := rfl
  rw [runSamples_succ, playLoop_succ, hrun, hdec]
  generalize runSamples stepLength random p n = q at hap hln hgate ⊢
  generalize advanceStep
    { (handleNoteOffs q).1 with
      accumulatedSamples := (handleNoteOffs q).1.accumulatedSamples + 1 - stepLength } = x
    at hap hln hgate ⊢
  constructor
  · intro hact htie hprob
    have hvel : s.velocity % 256 = s.velocity := Int.emod_eq_of_lt hv0 (by omega)
    have hpitch : jlimit 0 127 (s.note + x.apvts.octave * 12)
        = specClamp (s.note + 12 * q.apvts.octave) 0 127 := by
      rw [jlimit_eq_specClamp, hap, mul_comm]
    simp only [triggerStep, if_pos (And.intro hact (And.intro htie hprob)), hvel, hpitch, hln,
      truncToLong_eq_floor _ (mul_nonneg hP hg), List.append_assoc]
    exact ⟨trivial, trivial, trivial⟩
  · intro hno
    have hneg : ¬ (s.active = true ∧ s.isTied = false ∧ random n ≤ s.prob) := by
      rintro ⟨h1, h2, h3⟩
      rcases hno with h | h | h
      · rw [h] at h1; exact Bool.noConfusion h1
      · rw [h] at h2; exact Bool.noConfusion h2
      · exact absurd h3 (not_le.mpr h)
    simp only [triggerStep, if_neg hneg, List.append_nil, hln, hgate]
    exact ⟨trivial, trivial, trivial⟩


theorem trigger_decision_witness :
    (({ gate := 2 } : Step).active = true → ({ gate := 2 } : Step).isTied = false →
        (fun _ : Nat => (0 : ℚ)) 0 ≤ ({ gate := 2 } : Step).prob →
      (playLoop 1000 (fun _ => 0) scenarioC (0 + 1)).2
          = (playLoop 1000 (fun _ => 0) scenarioC 0).2
            ++ ((handleNoteOffs (runSamples 1000 (fun _ => 0) scenarioC 0)).2
                ++ (if (handleNoteOffs (runSamples 1000 (fun _ => 0) scenarioC 0)).1.lastNote
                        ≠ -1 then
                      [MidiMessage.noteOff 1
                        (handleNoteOffs (runSamples 1000 (fun _ => 0) scenarioC 0)).1.lastNote]
                    else [])
                ++ [MidiMessage.noteOn 1
                      (specClamp (({ gate := 2 } : Step).note
                        + 12 * (runSamples 1000 (fun _ => 0) scenarioC 0).apvts.octave) 0 127)
                      ({ gate := 2 } : Step).velocity]).map
                (fun m => { message := m, sampleOffset := ((0 : Nat) : Int) }) ∧
        (runSamples 1000 (fun _ => 0) scenarioC (0 + 1)).lastNote
          = specClamp (({ gate := 2 } : Step).note
              + 12 * (runSamples 1000 (fun _ => 0) scenarioC 0).apvts.octave) 0 127 ∧
        (runSamples 1000 (fun _ => 0) scenarioC (0 + 1)).samplesRemainingForGate
          = ⌊(1000 : ℚ) * ({ gate := 2 } : Step).gate⌋) ∧
    ((({ gate := 2 } : Step).active = false ∨ ({ gate := 2 } : Step).isTied = true
        ∨ (fun _ : Nat => (0 : ℚ)) 0 > ({ gate := 2 } : Step).prob) →
      (playLoop 1000 (fun _ => 0) scenarioC (0 + 1)).2
          = (playLoop 1000 (fun _ => 0) scenarioC 0).2
            ++ (handleNoteOffs (runSamples 1000 (fun _ => 0) scenarioC 0)).2.map
                (fun m => { message := m, sampleOffset := ((0 : Nat) : Int) }) ∧
        (runSamples 1000 (fun _ => 0) scenarioC (0 + 1)).lastNote
          = (handleNoteOffs (runSamples 1000 (fun _ => 0) scenarioC 0)).1.lastNote ∧
        (runSamples 1000 (fun _ => 0) scenarioC (0 + 1)).samplesRemainingForGate
          = (handleNoteOffs
              (runSamples 1000 (fun _ => 0) scenarioC 0)).1.samplesRemainingForGate) :=
  trigger_decision 1000 (fun _ => 0) scenarioC 0 { gate := 2 } scenarioC_stepReached
    (by norm_num) (by decide) (by decide) (show (0 : ℚ) ≤ 2 by norm_num)

theorem loudStep_stepReached :
    stepReached 32 loudStep = some ({ velocity := 300 } : Step) := by
  have ha : advances 32 loudStep = true := by
    unfold advances
    have h : loudStep.accumulatedSamples = 31 := rfl
    rw [h]
    norm_num
  rw [stepReached_eq_get? 32 loudStep ha (by decide) (by decide)]
  rfl

/-- Outside the range of the data model: a step with the stored velocity 300, active and
not tied, probability 1. The pass that advances onto it adds the Note On with velocity 44
(the conversion to `uint8` keeps `300 - 256`). -/
theorem loudStep_velocity_wraps :
    stepReached 32 loudStep = some ({ velocity := 300 } : Step) ∧
      ({ velocity := 300 } : Step).active = true ∧
      ({ velocity := 300 } : Step).isTied = false ∧
      (0 : ℚ) ≤ ({ velocity := 300 } : Step).prob ∧
      (playLoop 32 (fun _ => 0) loudStep 1).2
        = [{ message := MidiMessage.noteOn 1 60 44, sampleOffset := 0 }] := by
  refine ⟨loudStep_stepReached, rfl, rfl, show (0 : ℚ) ≤ 1 by norm_num, ?_⟩
  obtain ⟨hap, hln, _⟩ := advanceStep_after_noteOffs 32 loudStep
  have hrun : (playLoop 32 (fun _ => 0) loudStep 0).1 = loudStep := rfl
  rw [playLoop_succ, hrun, processSample_decision 32 0 loudStep _ loudStep_stepReached]
  generalize advanceStep
    { (handleNoteOffs loudStep).1 with
      accumulatedSamples := (handleNoteOffs loudStep).1.accumulatedSamples + 1 - 32 } = x
    at hap hln ⊢
  have hoct : x.apvts.octave = 0 := by rw [hap]; rfl
  have hlast : x.lastNote = -1 := by rw [hln]; rfl
  have hoff : (handleNoteOffs loudStep).2 = [] := rfl
  have hprob : (0 : ℚ) ≤ ({ velocity := 300 } : Step).prob := show (0 : ℚ) ≤ 1 by norm_num
  simp only [triggerStep, if_pos (And.intro rfl (And.intro rfl hprob)), hoct, hlast, hoff]
  rfl

/-! ## The index of the step a pass reads -/

theorem advanceStep_currentStepIndex (x : Processor) :
    (advanceStep x).currentStepIndex
      = if x.currentStepIndex ≥ x.apvts.numSteps - 1 then 0 else x.currentStepIndex + 1 := by
  unfold advanceStep
  simp only
  split_ifs <;> rfl

theorem stepIndexRead_eq (stepLength : ℚ) (q : Processor) :
    stepIndexRead stepLength q
      = if advances stepLength q = true then
          some (if q.currentStepIndex ≥ q.apvts.numSteps - 1 then 0
                else q.currentStepIndex + 1)
        else none := by
  obtain ⟨g0, ln0, hoff⟩ := handleNoteOffs_frame q
  unfold stepIndexRead
  simp only [advances_handleNoteOffs, advanceStep_currentStepIndex]
  rw [hoff]

/-- The index a pass reads is below `numSteps` and not negative, when `numSteps ≥ 1` and
`currentStepIndex` is not negative. -/
theorem stepIndexRead_lt_numSteps (stepLength : ℚ) (q : Processor) (i : Int)
    (hN : 1 ≤ q.apvts.numSteps) (h0 : 0 ≤ q.currentStepIndex)
    (hi : stepIndexRead stepLength q = some i) : 0 ≤ i ∧ i < q.apvts.numSteps := by
  rw [stepIndexRead_eq] at hi
  split_ifs at hi with ha hw
  · have e : i = 0 := (Option.some.inj hi).symm
    omega
  · have e : i = q.currentStepIndex + 1 := (Option.some.inj hi).symm
    omega

/-- With the accumulator started at 0, the pass after `n` samples advances the step exactly
when `n + 1` samples reach the next multiple of the step length. -/
theorem advances_iff (stepLength : ℚ) (random : Nat → ℚ) (p : Processor)
    (hP : 32 ≤ stepLength) (hacc : p.accumulatedSamples = 0) (n : Nat) :
    advances stepLength (runSamples stepLength random p n) = true
      ↔ ((advanceCount stepLength random p n : ℚ) + 1) * stepLength ≤ (n : ℚ) + 1 := by
  obtain ⟨e, _, _⟩ := accumulator_invariant stepLength random p (by linarith)
    (by rw [hacc]) (by rw [hacc]; linarith) n
  unfold advances
  rw [decide_eq_true_iff, e, hacc]
  constructor <;> intro h <;> linarith

/-- C30: from a state with `currentStepIndex = 0` and the accumulator at 0 (as
`prepareToPlay` leaves them), with `numSteps ≥ 2` and a step length `P ≥ 32`, and with `k`
the number of advances made by the first `n` passes: pass `n` reads a step exactly when
it advances, which is when `(k + 1) * P ≤ n + 1`; the step it reads has index `k + 1` as long
as `k + 1 < numSteps`, and index 0 when `k + 1 = numSteps`. So no step is read before one
full step length has passed, the first step read is step 1, and step 0 is not read before
the `numSteps`-th advance. -/
theorem first_trigger_is_step_one (stepLength : ℚ) (random : Nat → ℚ) (p : Processor)
    (hP : 32 ≤ stepLength) (hcsi : p.currentStepIndex = 0) (hacc : p.accumulatedSamples = 0)
    (hN : 2 ≤ p.apvts.numSteps) (n : Nat) :
    (advanceCount stepLength random p n : Int) = ⌊(n : ℚ) / stepLength⌋ ∧
      (advances stepLength (runSamples stepLength random p n) = true
        ↔ ((advanceCount stepLength random p n : ℚ) + 1) * stepLength ≤ (n : ℚ) + 1) ∧
      (advances stepLength (runSamples stepLength random p n) = false →
        stepIndexRead stepLength (runSamples stepLength random p n) = none) ∧
      (advances stepLength (runSamples stepLength random p n) = true →
        (advanceCount stepLength random p n : Int) + 1 < p.apvts.numSteps →
        stepIndexRead stepLength (runSamples stepLength random p n)
          = some ((advanceCount stepLength random p n : Int) + 1)) ∧
      (advances stepLength (runSamples stepLength random p n) = true →
        (advanceCount stepLength random p n : Int) + 1 = p.apvts.numSteps →
        stepIndexRead stepLength (runSamples stepLength random p n) = some 0) ∧
      (stepIndexRead stepLength (runSamples stepLength random p n) = some 0 →
        p.apvts.numSteps ≤ (advanceCount stepLength random p n : Int) + 1) ∧
      (advanceCount stepLength random p n = 0 →
        (stepIndexRead stepLength (runSamples stepLength random p n) = none
            ∧ (n : ℚ) + 1 < stepLength) ∨
        (stepIndexRead stepLength (runSamples stepLength random p n) = some 1
            ∧ stepLength ≤ (n : ℚ) + 1 ∧ (n : ℚ) < stepLength)) := by
  have hiff := advances_iff stepLength random p hP hacc n
  have hfloor := advanceCount_eq_floor stepLength random p hP hacc n
  obtain ⟨eacc, _, hlt⟩ := accumulator_invariant stepLength random p (by linarith)
    (by rw [hacc]) (by rw [hacc]; linarith) n
  have hinv : (advanceCount stepLength random p n : Int) ≤ p.apvts.numSteps - 1 →
      (runSamples stepLength random p n).currentStepIndex
          = (advanceCount stepLength random p n : Int) ∧
        (runSamples stepLength random p n).apvts = p.apvts := by
    intro hk
    obtain ⟨h1, _, _, h4⟩ := first_pass_invariant stepLength random p n (by rw [hcsi]; omega)
    rw [hcsi, zero_add] at h1
    exact ⟨h1, h4⟩
  have hnone : advances stepLength (runSamples stepLength random p n) = false →
      stepIndexRead stepLength (runSamples stepLength random p n) = none := by
    intro ha
    rw [stepIndexRead_eq, ha]
    rfl
  have hnext : advances stepLength (runSamples stepLength random p n) = true →
      (advanceCount stepLength random p n : Int) + 1 < p.apvts.numSteps →
      stepIndexRead stepLength (runSamples stepLength random p n)
        = some ((advanceCount stepLength random p n : Int) + 1) := by
    intro ha hk
    obtain ⟨h1, h4⟩ := hinv (by omega)
    rw [stepIndexRead_eq, if_pos ha, h1, h4, if_neg (by omega)]
  have hwrap : advances stepLength (runSamples stepLength random p n) = true →
      (advanceCount stepLength random p n : Int) + 1 = p.apvts.numSteps →
      stepIndexRead stepLength (runSamples stepLength random p n) = some 0 := by
    intro ha hk
    obtain ⟨h1, h4⟩ := hinv (by omega)
    rw [stepIndexRead_eq, if_pos ha, h1, h4, if_pos (by omega)]
  refine ⟨hfloor, hiff, hnone, hnext, hwrap, ?_, ?_⟩
  · intro h0
    by_contra hlt'
    have hk : (advanceCount stepLength random p n : Int) + 1 < p.apvts.numSteps := by omega
    by_cases ha : advances stepLength (runSamples stepLength random p n) = true
    · rw [hnext ha hk] at h0
      have := Option.some.inj h0
      omega
    · rw [hnone (by simpa using ha)] at h0
      exact Option.noConfusion h0
  · intro hz
    rw [hz] at hiff hnext
    rw [hz, hacc] at eacc
    by_cases ha : advances stepLength (runSamples stepLength random p n) = true
    · right
      have h1 := hiff.mp ha
      refine ⟨hnext ha (by push_cast; omega), by push_cast at h1; linarith, ?_⟩
      push_cast at eacc
      linarith
    · left
      refine ⟨hnone (by simpa using ha), ?_⟩
      have h1 : ¬ ((((0 : Nat) : ℚ) + 1) * stepLength ≤ (n : ℚ) + 1) := fun h => ha (hiff.mpr h)
      push_cast at h1
      linarith

theorem first_trigger_is_step_one_witness :
    (advanceCount 32 (fun _ => 0) (prepareToPlay initial 44100) 31 : Int)
        = ⌊((31 : Nat) : ℚ) / 32⌋ ∧
      (advances 32 (runSamples 32 (fun _ => 0) (prepareToPlay initial 44100) 31) = true
        ↔ ((advanceCount 32 (fun _ => 0) (prepareToPlay initial 44100) 31 : ℚ) + 1) * 32
            ≤ ((31 : Nat) : ℚ) + 1) ∧
      (advances 32 (runSamples 32 (fun _ => 0) (prepareToPlay initial 44100) 31) = false →
        stepIndexRead 32 (runSamples 32 (fun _ => 0) (prepareToPlay initial 44100) 31)
          = none) ∧
      (advances 32 (runSamples 32 (fun _ => 0) (prepareToPlay initial 44100) 31) = true →
        (advanceCount 32 (fun _ => 0) (prepareToPlay initial 44100) 31 : Int) + 1
          < (prepareToPlay initial 44100).apvts.numSteps →
        stepIndexRead 32 (runSamples 32 (fun _ => 0) (prepareToPlay initial 44100) 31)
          = some ((advanceCount 32 (fun _ => 0) (prepareToPlay initial 44100) 31 : Int) + 1)) ∧
      (advances 32 (runSamples 32 (fun _ => 0) (prepareToPlay initial 44100) 31) = true →
        (advanceCount 32 (fun _ => 0) (prepareToPlay initial 44100) 31 : Int) + 1
          = (prepareToPlay initial 44100).apvts.numSteps →
        stepIndexRead 32 (runSamples 32 (fun _ => 0) (prepareToPlay initial 44100) 31)
          = some 0) ∧
      (stepIndexRead 32 (runSamples 32 (fun _ => 0) (prepareToPlay initial 44100) 31)
          = some 0 →
        (prepareToPlay initial 44100).apvts.numSteps
          ≤ (advanceCount 32 (fun _ => 0) (prepareToPlay initial 44100) 31 : Int) + 1) ∧
      (advanceCount 32 (fun _ => 0) (prepareToPlay initial 44100) 31 = 0 →
        (stepIndexRead 32 (runSamples 32 (fun _ => 0) (prepareToPlay initial 44100) 31) = none
            ∧ ((31 : Nat) : ℚ) + 1 < 32) ∨
        (stepIndexRead 32 (runSamples 32 (fun _ => 0) (prepareToPlay initial 44100) 31)
            = some 1
            ∧ (32 : ℚ) ≤ ((31 : Nat) : ℚ) + 1 ∧ ((31 : Nat) : ℚ) < 32)) :=
  first_trigger_is_step_one 32 (fun _ => 0) (prepareToPlay initial 44100) (le_refl 32) rfl rfl
    (by decide) 31


/-! ## Reading a step outside the vector -/

theorem blockStepLength_restoredEmpty :
    blockStepLength restoredEmpty longPlayingBlock = 11025 / 2 := by
  have h : blockStepLength restoredEmpty longPlayingBlock = samplesPerStep 44100 120 2 := by
    unfold blockStepLength
    have h1 : restoredEmpty.sampleRate = 44100 := by
      show (if (44100 : ℚ) > 0 then (44100 : ℚ) else 44100) = 44100
      norm_num
    have h2 : effectiveBPM (hostBPM longPlayingBlock) = 120 := by
      show (if (120 : ℚ) > 0 then (120 : ℚ) else 120) = 120
      norm_num
    rw [h1, h2]
    rfl
  rw [h, samplesPerStep_scenario]

/-- C25: the scheduling loop reads `(*steps)[currentStepIndex]` without comparing the index
with the size of the vector. A new processor that has restored a state whose `TRACKS` node
has no `TRACK` child has no track at all; prepared and played at 44100 Hz and tempo 120 (step
length 5512.5), it advances on the 5513th sample of a block of 8192 samples and reads the
step at index 1, while the vector behind `steps` holds no step. -/
theorem step_read_outside_track :
    restoredEmpty.tracks = [] ∧
      restoredEmpty.apvts.numSteps = 16 ∧
      processBlock restoredEmpty longPlayingBlock
        = playLoop (11025 / 2) longPlayingBlock.random
            (loopEntry restoredEmpty longPlayingBlock) 8192 ∧
      stepIndexRead (11025 / 2)
          (runSamples (11025 / 2) longPlayingBlock.random
            (loopEntry restoredEmpty longPlayingBlock) 5512) = some 1 ∧
      (currentSteps
          (runSamples (11025 / 2) longPlayingBlock.random
            (loopEntry restoredEmpty longPlayingBlock) 5512)).length = 0 ∧
      stepReached (11025 / 2)
          (runSamples (11025 / 2) longPlayingBlock.random
            (loopEntry restoredEmpty longPlayingBlock) 5512) = none := by
  have hP : (32 : ℚ) ≤ 11025 / 2 := by norm_num
  have hacc : (loopEntry restoredEmpty longPlayingBlock).accumulatedSamples = 0 := rfl
  have hcsi : (loopEntry restoredEmpty longPlayingBlock).currentStepIndex = 0 := rfl
  have hfloor := advanceCount_eq_floor (11025 / 2) longPlayingBlock.random
    (loopEntry restoredEmpty longPlayingBlock) hP hacc 5512
  have hf : ⌊((5512 : Nat) : ℚ) / (11025 / 2)⌋ = 0 := by
    rw [Int.floor_eq_iff]
    norm_num
  rw [hf] at hfloor
  have hk : advanceCount (11025 / 2) longPlayingBlock.random
      (loopEntry restoredEmpty longPlayingBlock) 5512 = 0 := by exact_mod_cast hfloor
  have ha : advances (11025 / 2)
      (runSamples (11025 / 2) longPlayingBlock.random
        (loopEntry restoredEmpty longPlayingBlock) 5512) = true := by
    rw [advances_iff _ _ _ hP hacc, hk]
    norm_num
  obtain ⟨h1, h2, h3, h4⟩ := first_pass_invariant (11025 / 2) longPlayingBlock.random
    (loopEntry restoredEmpty longPlayingBlock) 5512
    (by rw [hk, hcsi]; decide)
  rw [hk, hcsi] at h1
  have hlen : (currentSteps
      (runSamples (11025 / 2) longPlayingBlock.random
        (loopEntry restoredEmpty longPlayingBlock) 5512)).length = 0 := by
    unfold currentSteps
    rw [h2, h3]
    rfl
  have hread : stepIndexRead (11025 / 2)
      (runSamples (11025 / 2) longPlayingBlock.random
        (loopEntry restoredEmpty longPlayingBlock) 5512) = some 1 := by
    rw [stepIndexRead_eq, if_pos ha, h1, h4]
    rfl
  refine ⟨rfl, rfl, ?_, hread, hlen, ?_⟩
  · rw [processBlock_loopEntry restoredEmpty longPlayingBlock rfl rfl,
      blockStepLength_restoredEmpty]
    rfl
  · rw [stepReached_eq_get? _ _ ha (by rw [h1]; decide) (by rw [h1, h4]; decide)]
    have hnil : currentSteps
        (runSamples (11025 / 2) longPlayingBlock.random
          (loopEntry restoredEmpty longPlayingBlock) 5512) = [] :=
      List.eq_nil_of_length_eq_zero hlen
    rw [hnil]
    rfl

/-! ## One note at a time -/

theorem oneVoice_append (sounding : Option Int) (l1 l2 : List MidiMessage) :
    oneVoice sounding (l1 ++ l2)
      = (oneVoice sounding l1 && oneVoice (soundingAfterAll sounding l1) l2) := by
  induction l1 generalizing sounding with
  | nil => simp [oneVoice, soundingAfterAll]
  | cons m rest ih =>
    have e : oneVoice sounding (m :: rest ++ l2)
        = ((if m.isNoteOn = true then sounding.isNone else true)
            && oneVoice (soundingAfter sounding m) (rest ++ l2)) := rfl
    rw [e, ih]
    simp [oneVoice, soundingAfterAll, Bool.and_assoc]

theorem soundingAfterAll_append (sounding : Option Int) (l1 l2 : List MidiMessage) :
    soundingAfterAll sounding (l1 ++ l2)
      = soundingAfterAll (soundingAfterAll sounding l1) l2 := by
  unfold soundingAfterAll
  rw [List.foldl_append]

theorem handleNoteOffs_voice (sounding : Option Int) (q : Processor)
    (h : VoiceInvariant sounding q) :
    KeepsVoice sounding (handleNoteOffs q).2 (handleNoteOffs q).1 := by
  unfold handleNoteOffs
  split_ifs with h1
  · dsimp only
    split_ifs with h2
    · refine ⟨rfl, Or.inl ?_⟩
      rcases h with h | ⟨h, _⟩
      · subst h
        simp [soundingAfterAll, soundingAfter]
      · subst h
        simp [soundingAfterAll, soundingAfter]
    · exact ⟨rfl, h⟩
  · exact ⟨rfl, h⟩

theorem triggerStep_voice (stepLength u : ℚ) (sounding : Option Int) (x : Processor)
    (s : Step) (h : VoiceInvariant sounding x) :
    KeepsVoice sounding (triggerStep stepLength u x s).2 (triggerStep stepLength u x s).1 := by
  have hne : jlimit 0 127 (s.note + x.apvts.octave * 12) ≠ -1 := by
    have := jlimit_range (s.note + x.apvts.octave * 12)
    omega
  unfold triggerStep
  split_ifs with h1 h2
  · dsimp only
    refine ⟨?_, Or.inr ⟨?_, hne⟩⟩
    · rcases h with h | ⟨h, _⟩ <;> subst h <;>
        simp [oneVoice, soundingAfter, MidiMessage.isNoteOn]
    · simp [soundingAfterAll, soundingAfter]
  · dsimp only
    have hs : sounding = none := by
      rcases h with h | ⟨_, h⟩
      · exact h
      · exact absurd h h2
    subst hs
    refine ⟨?_, Or.inr ⟨?_, hne⟩⟩
    · simp [oneVoice, MidiMessage.isNoteOn]
    · simp [soundingAfterAll, soundingAfter]
  · exact ⟨rfl, h⟩

theorem voiceInvariant_congr (sounding : Option Int) (q q' : Processor)
    (e : q'.lastNote = q.lastNote) (h : VoiceInvariant sounding q) :
    VoiceInvariant sounding q' := by
  unfold VoiceInvariant at *
  rw [e]
  exact h

theorem keepsVoice_append (sounding : Option Int) (l1 l2 : List MidiMessage)
    (q1 q2 : Processor) (h1 : KeepsVoice sounding l1 q1)
    (h2 : KeepsVoice (soundingAfterAll sounding l1) l2 q2) :
    KeepsVoice sounding (l1 ++ l2) q2 := by
  refine ⟨?_, ?_⟩
  · rw [oneVoice_append, h1.1, h2.1]
    rfl
  · rw [soundingAfterAll_append]
    exact h2.2

theorem keepsVoice_nil (sounding : Option Int) (q : Processor)
    (h : VoiceInvariant sounding q) : KeepsVoice sounding [] q :=
  ⟨rfl, h⟩

theorem triggerNewNote_voice (stepLength u : ℚ) (sounding : Option Int) (x : Processor)
    (h : VoiceInvariant sounding x) :
    KeepsVoice sounding (triggerNewNote stepLength u x).2 (triggerNewNote stepLength u x).1 := by
  unfold triggerNewNote
  cases stepAt x with
  | none => exact keepsVoice_nil sounding x h
  | some s => exact triggerStep_voice stepLength u sounding x s h

theorem processSample_voice (stepLength u : ℚ) (sounding : Option Int) (q : Processor)
    (h : VoiceInvariant sounding q) :
    KeepsVoice sounding (processSample stepLength u q).2 (processSample stepLength u q).1 := by
  have hoff := handleNoteOffs_voice sounding q h
  obtain ⟨_, hln, _⟩ := advanceStep_after_noteOffs stepLength q
  unfold processSample
  simp only
  split_ifs with ha
  · exact keepsVoice_append _ _ _ _ _ hoff
      (triggerNewNote_voice stepLength u _ _ (voiceInvariant_congr _ _ _ hln hoff.2))
  · exact ⟨hoff.1, voiceInvariant_congr _ _ _ rfl hoff.2⟩

theorem playLoop_voice (stepLength : ℚ) (random : Nat → ℚ) (sounding : Option Int)
    (p : Processor) (h : VoiceInvariant sounding p) (n : Nat) :
    KeepsVoice sounding ((playLoop stepLength random p n).2.map MidiEvent.message)
      (playLoop stepLength random p n).1 := by
  induction n with
  | zero => exact keepsVoice_nil sounding p h
  | succ n ih =>
    rw [playLoop_succ]
    dsimp only
    rw [List.map_append, List.map_map]
    have e : (MidiEvent.message ∘ fun m => ({ message := m, sampleOffset := (n : Int) } : MidiEvent))
        = id := rfl
    rw [e, List.map_id]
    exact keepsVoice_append _ _ _ _ _ ih (processSample_voice stepLength (random n) _ _ ih.2)

theorem processBlock_voice (sounding : Option Int) (p : Processor) (h : HostBlock)
    (hv : VoiceInvariant sounding p) :
    KeepsVoice sounding ((processBlock p h).2.map MidiEvent.message) (processBlock p h).1 := by
  by_cases h1 : h.hasPlayHead = true
  · by_cases h2 : hostIsPlaying h = true
    · rw [processBlock_loopEntry p h h1 h2]
      exact playLoop_voice _ _ _ _
        (voiceInvariant_congr _ _ _ (loopEntry_frame p h).2.2.2.2 hv) _
    · have h2' : hostIsPlaying h = false := by simpa using h2
      by_cases hp : p.isPlaying = true
      · rw [processBlock_stop p h h1 h2' hp]
        exact ⟨rfl, Or.inl rfl⟩
      · have hp' : p.isPlaying = false := by simpa using hp
        obtain ⟨he, hs⟩ := processBlock_idle p h (Or.inr h2') hp'
        rw [he]
        refine keepsVoice_nil _ _ (voiceInvariant_congr _ _ _ ?_ hv)
        unfold SameEngineState at hs
        rw [hs]
  · have h1' : h.hasPlayHead = false := by simpa using h1
    have e : processBlock p h = (p, []) := by
      unfold processBlock
      rw [if_pos h1']
    rw [e]
    exact keepsVoice_nil _ _ hv

theorem blockEvents_voice (sounding : Option Int) (p : Processor) (blocks : List HostBlock)
    (hv : VoiceInvariant sounding p) :
    oneVoice sounding ((blockEvents p blocks).map MidiEvent.message) = true := by
  induction blocks generalizing sounding p with
  | nil => rfl
  | cons h rest ih =>
    have hb := processBlock_voice sounding p h hv
    show oneVoice sounding
      (((processBlock p h).2 ++ blockEvents (processBlock p h).1 rest).map MidiEvent.message)
      = true
    rw [List.map_append, oneVoice_append, hb.1, ih _ _ hb.2]
    rfl

/-- In a list in which every Note On arrives while no note sounds, a Note On of note `n` is
followed, before the next Note On, by the Note Off of `n` or by All Notes Off. -/
theorem oneVoice_note_off_between (n : Int) (mid post : List MidiMessage)
    (c' n' v' : Int)
    (h : oneVoice (some n) (mid ++ MidiMessage.noteOn c' n' v' :: post) = true) :
    MidiMessage.noteOff 1 n ∈ mid ∨ MidiMessage.allNotesOff 1 ∈ mid := by
  induction mid with
  | nil => simp [oneVoice, MidiMessage.isNoteOn] at h
  | cons m rest ih =>
    cases m with
    | noteOn a b c => simp [oneVoice, MidiMessage.isNoteOn] at h
    | noteOff a b =>
      by_cases hc : a = 1 ∧ n = b
      · obtain ⟨ha, hb⟩ := hc
        subst ha
        subst hb
        exact Or.inl (List.mem_cons_self _ _)
      · have h' : oneVoice (some n) (rest ++ MidiMessage.noteOn c' n' v' :: post) = true := by
          simpa [oneVoice, MidiMessage.isNoteOn, soundingAfter, hc] using h
        rcases ih h' with h1 | h1
        · exact Or.inl (List.mem_cons_of_mem _ h1)
        · exact Or.inr (List.mem_cons_of_mem _ h1)
    | allNotesOff a =>
      by_cases hc : a = 1
      · subst hc
        exact Or.inr (List.mem_cons_self _ _)
      · have h' : oneVoice (some n) (rest ++ MidiMessage.noteOn c' n' v' :: post) = true := by
          simpa [oneVoice, MidiMessage.isNoteOn, soundingAfter, hc] using h
        rcases ih h' with h1 | h1
        · exact Or.inl (List.mem_cons_of_mem _ h1)
        · exact Or.inr (List.mem_cons_of_mem _ h1)

theorem handleNoteOffs_of_sounding (q : Processor)
    (h : (handleNoteOffs q).1.lastNote ≠ -1) :
    (handleNoteOffs q).2 = [] ∧ (handleNoteOffs q).1.lastNote = q.lastNote := by
  unfold handleNoteOffs at h ⊢
  split_ifs at h ⊢ with h1
  · dsimp only at h ⊢
    split_ifs at h ⊢ with h2
    · exact absurd rfl h
    · exact ⟨rfl, rfl⟩
  · exact ⟨rfl, rfl⟩

/-- A trigger while a note still sounds: the pass adds the Note Off of that note and then
the Note On, both at the sample offset of the pass. -/
theorem voice_steal (stepLength : ℚ) (random : Nat → ℚ) (p : Processor) (n : Nat) (s : Step)
    (hs : stepReached stepLength (runSamples stepLength random p n) = some s)
    (hact : s.active = true) (htie : s.isTied = false) (hprob : random n ≤ s.prob)
    (hsound : (handleNoteOffs (runSamples stepLength random p n)).1.lastNote ≠ -1) :
    (playLoop stepLength random p (n + 1)).2
      = (playLoop stepLength random p n).2
        ++ [{ message := MidiMessage.noteOff 1 (runSamples stepLength random p n).lastNote,
              sampleOffset := (n : Int) },
            { message := MidiMessage.noteOn 1
                (jlimit 0 127
                  (s.note + (runSamples stepLength random p n).apvts.octave * 12))
                (s.velocity % 256),
              sampleOffset := (n : Int) }] := by
  have hdec := processSample_decision stepLength (random n)
    (runSamples stepLength random p n) s hs
  obtain ⟨hap, hln, _⟩ := advanceStep_after_noteOffs stepLength
    (runSamples stepLength random p n)
  obtain ⟨hnil, hsame⟩ := handleNoteOffs_of_sounding _ hsound
  have hrun : (playLoop stepLength random p n).1 = runSamples stepLength random p n := rfl
  rw [playLoop_succ, hrun, hdec]
  generalize runSamples stepLength random p n = q at hap hln hnil hsame hsound ⊢
  generalize advanceStep
    { (handleNoteOffs q).1 with
      accumulatedSamples := (handleNoteOffs q).1.accumulatedSamples + 1 - stepLength } = x
    at hap hln ⊢
  have hq : q.lastNote ≠ -1 := by rw [← hsame]; exact hsound
  simp only [triggerStep, if_pos (And.intro hact (And.intro htie hprob)), hnil,
    List.nil_append, hln, hsame, hap, if_pos hq]
  rfl

theorem heldNote_stepReached : stepReached 32 heldNote = some ({} : Step) := by
  have ha : advances 32 heldNote = true := by
    unfold advances
    have h : heldNote.accumulatedSamples = 31 := rfl
    rw [h]
    norm_num
  rw [stepReached_eq_get? 32 heldNote ha (by decide) (by decide)]
  rfl

/-- An instance of a stolen voice: note 60 still has 100 samples of gate when the engine
advances onto an active step. -/
theorem heldNote_steal :
    (playLoop 32 (fun _ => 0) heldNote 1).2
      = [{ message := MidiMessage.noteOff 1 60, sampleOffset := 0 },
          { message := MidiMessage.noteOn 1 60 100, sampleOffset := 0 }] :=
  voice_steal 32 (fun _ => 0) heldNote 0 {} heldNote_stepReached rfl rfl
    (show (0 : ℚ) ≤ 1 by norm_num) (by decide)

/-- C22: in the events of any sequence of `processBlock` calls every Note On arrives while
no note sounds at the receiver, so between a Note On of note `n` and any later Note On there
is the Note Off of `n` or an All Notes Off; and a trigger made while a note still sounds adds
the Note Off of that note and then the Note On, both with the sample offset of the pass. -/
theorem one_note_at_a_time (p : Processor) (blocks : List HostBlock) :
    oneVoice none ((blockEvents p blocks).map MidiEvent.message) = true ∧
      (∀ (pre mid post : List MidiMessage) (c n v c' n' v' : Int),
        (blockEvents p blocks).map MidiEvent.message
            = pre ++ MidiMessage.noteOn c n v :: (mid ++ MidiMessage.noteOn c' n' v' :: post) →
          MidiMessage.noteOff 1 n ∈ mid ∨ MidiMessage.allNotesOff 1 ∈ mid) ∧
      (∀ (stepLength : ℚ) (random : Nat → ℚ) (k : Nat) (s : Step),
        stepReached stepLength (runSamples stepLength random p k) = some s →
        s.active = true → s.isTied = false → random k ≤ s.prob →
        (handleNoteOffs (runSamples stepLength random p k)).1.lastNote ≠ -1 →
        (playLoop stepLength random p (k + 1)).2
          = (playLoop stepLength random p k).2
            ++ [{ message := MidiMessage.noteOff 1 (runSamples stepLength random p k).lastNote,
                  sampleOffset := (k : Int) },
                { message := MidiMessage.noteOn 1
                    (jlimit 0 127
                      (s.note + (runSamples stepLength random p k).apvts.octave * 12))
                    (s.velocity % 256),
                  sampleOffset := (k : Int) }]) := by
  have hone := blockEvents_voice none p blocks (Or.inl rfl)
  refine ⟨hone, ?_, fun stepLength random k s => voice_steal stepLength random p k s⟩
  intro pre mid post c n v c' n' v' e
  rw [e, oneVoice_append] at hone
  have h2 : oneVoice (soundingAfterAll none pre)
      (MidiMessage.noteOn c n v :: (mid ++ MidiMessage.noteOn c' n' v' :: post)) = true := by
    rw [Bool.and_eq_true] at hone
    exact hone.2
  have h3 : oneVoice (some n) (mid ++ MidiMessage.noteOn c' n' v' :: post) = true := by
    have e2 : oneVoice (soundingAfterAll none pre)
        (MidiMessage.noteOn c n v :: (mid ++ MidiMessage.noteOn c' n' v' :: post))
        = ((soundingAfterAll none pre).isNone
            && oneVoice (some n) (mid ++ MidiMessage.noteOn c' n' v' :: post)) := rfl
    rw [e2, Bool.and_eq_true] at h2
    exact h2.2
  exact oneVoice_note_off_between n mid post c' n' v' h3

end StepSequencer
